import Mathlib

/-!
# Flow-based contiguity builders of the districting code

A shallow embedding of `src/hess/flow.cpp` (`build_scf`, `build_mcf1`,
`build_mcf2`) and `src/src/flow.cpp` (`build_shir`, `build_mcf`).

A builder is embedded as the sequence of operations it performs on the
solver model (`addVars`, `update`, `addConstr`, attribute `set`, `write`),
in program order.  A solver variable is named by the C++ slot that holds
its handle: `y[i][j]`, `f[v][e]`, `f[b][e][a]`.  The assignment expression
`x[i][j]` (`build_scf`, `build_mcf1`, `build_mcf2`) or `X(i,j)` (a macro of
`models.hpp`, used by `build_shir` and `build_mcf`) is an atom whose value is
the entry `X[i][j]` of the assignment matrix.  Values of variables range
over an arbitrary linearly ordered commutative ring `K` (the rationals, the
reals).

Node numbers, arc keys `i*n + j` and arc indices are natural numbers: `int`
arithmetic is taken not to overflow.  The `size_t` expression
`n - 1 - g->nb(b).size()` is computed modulo `2^64`, and statements that
depend on it assume that the node count fits an `int`.
-/

namespace Districting

/-! ## The solver model -/

/-- Variable kind given to `addVars` or set through `GRB_CharAttr_VType`. -/
inductive VType where
  | continuous
  | binary
  deriving DecidableEq, Repr

/-- Sense of a linear constraint: `<=`, `>=`, `==`. -/
inductive Sense where
  | le
  | ge
  | eq
  deriving DecidableEq, Repr

/-- The array returned by one call of `addVars`, named by the slot that stores it:
`y[i]` and `f[i]` (arrays of variables), `f[i][j]` (third level of `build_mcf2`, `build_mcf`). -/
inductive Row where
  | y (i : Nat)
  | f (i : Nat)
  | fe (i j : Nat)
  deriving DecidableEq, Repr

/-- Atoms of linear expressions: the assignment expression `x[i][j]` (`X(i,j)`), or the
`k`-th variable of an auxiliary array. -/
inductive Var where
  | x (i j : Nat)
  | aux (r : Row) (k : Nat)
  deriving DecidableEq, Repr

/-- Linear expression (`GRBLinExpr`): a constant and a list of terms `coefficient * atom`. -/
structure LinExpr where
  const : Int
  terms : List (Int × Var)
  deriving DecidableEq, Repr

namespace LinExpr

/-- The expression `GRBLinExpr expr = c`. -/
def ofConst (c : Int) : LinExpr := ⟨c, []⟩

/-- A single variable used as an expression. -/
def ofVar (v : Var) : LinExpr := ⟨0, [(1, v)]⟩

/-- The expression `c * v`. -/
def ofTerm (c : Int) (v : Var) : LinExpr := ⟨0, [(c, v)]⟩

/-- The update `expr += v`. -/
def addVar (e : LinExpr) (v : Var) : LinExpr := ⟨e.const, e.terms ++ [(1, v)]⟩

/-- The update `expr -= v`. -/
def subVar (e : LinExpr) (v : Var) : LinExpr := ⟨e.const, e.terms ++ [(-1, v)]⟩

/-- The expression `e - c * v`. -/
def subTerm (e : LinExpr) (c : Int) (v : Var) : LinExpr := ⟨e.const, e.terms ++ [(-c, v)]⟩

end LinExpr

/-- One operation on the solver model. -/
inductive Op where
  | addVars (r : Row) (count : Nat) (vtype : VType)
  | update
  | addConstr (lhs : LinExpr) (sense : Sense) (rhs : LinExpr)
  | setUB (v : Var) (ub : Int)
  | setVType (v : Var) (vtype : VType)
  | write (file : String)
  deriving DecidableEq, Repr

/-- What a builder leaves behind: the operations performed on the model, in order, and the
exception it raised, if any. -/
structure BuildResult where
  ops : List Op
  error : Option String
  deriving DecidableEq, Repr

/-! ## Graph view and arc index -/

/-- Read-only adjacency view: `nr_nodes` and the neighbour list `nb(i)` of every node. -/
structure graph where
  nr_nodes : Nat
  nb : Nat → List Nat

/-- The 32-bit representation of an `int` whose exact value is `k`: the residue of `k` modulo
`2^32`.  Sums and products of `int`s are formed modulo `2^32` (two's complement), so the `int`
value of a key expression such as `i*n + j` is determined by the residue of its exact value,
and two `int` keys are equal exactly when their representations are. -/
def int_repr (k : Nat) : Nat := k % 2 ^ 32

/-- The table `std::unordered_map<int,int>` as a list of (key, value) entries; a key is stored
as the 32-bit representation of the `int`. -/
abbrev EdgeMap := List (Nat × Nat)

/-- Insertion of an entry under a stored key: no effect when the key is already present. -/
def EdgeMap.put (m : EdgeMap) (k v : Nat) : EdgeMap :=
  if (m.lookup k).isSome then m else m ++ [(k, v)]

/-- Method `insert(std::make_pair(k, v))`, where `k` is the exact value of the `int` key
expression: the entry goes under the 32-bit representation of `k`; no effect when that key is
already present. -/
def EdgeMap.insert (m : EdgeMap) (k v : Nat) : EdgeMap := m.put (int_repr k) v

/-- Value returned by `operator[]` for the `int` subscript whose exact value is `k`: the value
mapped to the 32-bit representation of `k`, or the value-initialised `0` when that key is not
present. -/
def EdgeMap.index (m : EdgeMap) (k : Nat) : Nat := (m.lookup (int_repr k)).getD 0

/-- The loop `for i, for j : nb(i): hash_edges.insert(make_pair(i*n+j, cur++))`, as the
pair (table, cur).  The key `i*n+j` is an `int`: `insert` stores it reduced to 32 bits.  The
counter `cur` is kept exact (it stays below `2^31` while there are fewer than `2^31` adjacency
entries). -/
def hash_edges_loop (g : graph) : EdgeMap × Nat :=
  (List.range g.nr_nodes).foldl
    (fun st i => (g.nb i).foldl
      (fun st j => (st.1.insert (i * g.nr_nodes + j) st.2, st.2 + 1)) st)
    ([], 0)

/-- The table `hash_edges` after the loop. -/
def hash_edges (g : graph) : EdgeMap := (hash_edges_loop g).1

/-- The count `nr_edges = hash_edges.size()`. -/
def nr_edges (g : graph) : Nat := (hash_edges g).length

/-- The `size_t` value of `n - 1 - g->nb(b).size()` (also of `n - g->nb(b).size() - 1`). -/
def alt_count (n : Nat) (nbs : List Nat) : Nat :=
  (((n : Int) - 1 - (nbs.length : Int)) % (2 ^ 64 : Int)).toNat

/-- The flags `nb` of the preprocessing loop just before `nb.flip()`. -/
def nb_flags (g : graph) (i : Nat) : List Bool :=
  (g.nb i).foldl (fun fl j => fl.set j true) ((List.replicate g.nr_nodes false).set i true)

/-- The list `non_nbs[i]`: the positions `j` in `0..n-1` whose flag is set after the flip. -/
def non_nbs (g : graph) (i : Nat) : List Nat :=
  let nb := (nb_flags g i).map (fun b => !b)
  (List.range g.nr_nodes).filter (fun j => nb.getD j false)

/-- The check of the preprocessing loop passes for every node. -/
def non_nbs_ok (g : graph) : Bool :=
  (List.range g.nr_nodes).all (fun i => (non_nbs g i).length == alt_count g.nr_nodes (g.nb i))

/-! ## The builders -/

/-- Embedding of `build_scf` (`src/hess/flow.cpp`). -/
def build_scf (g : graph) : List Op :=
  let n := g.nr_nodes
  let x := fun i j => Var.x i j
  let y := fun i j => Var.aux (Row.y i) j
  let f := fun i j => Var.aux (Row.f i) j
  (List.range n).map (fun i => Op.addVars (Row.y i) n VType.binary)
  ++ (List.range n).map (fun i => Op.addVars (Row.f i) n VType.continuous)
  ++ [Op.update]
  -- add constraint (16b)
  ++ (List.range n).map (fun i =>
      let expr := (g.nb i).foldl (fun e j => e.addVar (y j i)) (LinExpr.ofConst 0)
      Op.addConstr (expr.addVar (x i i)) Sense.eq (LinExpr.ofConst 1))
  -- add constraint (16c)
  ++ (List.range n).map (fun i =>
      let expr := (g.nb i).foldl (fun e j => (e.addVar (f i j)).subVar (f j i)) (LinExpr.ofConst 0)
      let expr := (List.range n).foldl (fun e j => e.subVar (x j i)) expr
      Op.addConstr expr Sense.eq (LinExpr.ofConst (-1)))
  -- add constraint (16d)
  ++ (List.range n).flatMap (fun i => (g.nb i).flatMap (fun j =>
      [Op.addConstr ((LinExpr.ofVar (f i j)).subVar (y i j)) Sense.ge (LinExpr.ofConst 0),
       Op.addConstr ((LinExpr.ofVar (f i j)).subTerm n (y i j)) Sense.le (LinExpr.ofConst 0)]))
  -- add constraint (Austin)
  ++ (List.range n).flatMap (fun v => (List.range n).flatMap (fun i => (g.nb i).map (fun j =>
      Op.addConstr (((LinExpr.ofVar (x i v)).addVar (y i j)).subVar (x j v)) Sense.le
        (LinExpr.ofConst 1))))
  ++ [Op.update, Op.write "debug_scf.lp"]

/-- Embedding of `build_mcf1` (`src/hess/flow.cpp`). -/
def build_mcf1 (g : graph) : List Op :=
  let n := g.nr_nodes
  let x := fun i j => Var.x i j
  let h := hash_edges g
  let f := fun v e => Var.aux (Row.f v) e
  (List.range n).map (fun v => Op.addVars (Row.f v) (nr_edges g) VType.continuous)
  -- update variables to binary when j == v
  ++ (List.range n).flatMap (fun v => (List.range n).flatMap (fun i => (g.nb i).flatMap (fun j =>
      if v = j then [Op.setVType (f v (h.index (n * i + j))) VType.binary] else [])))
  ++ [Op.update]
  -- add constraint (16b)
  ++ (List.range n).flatMap (fun i => (List.range n).flatMap (fun j =>
      if i = j then [] else
        let expr := (g.nb j).foldl
          (fun e nb_j => (e.addVar (f i (h.index (n * j + nb_j)))).subVar
            (f i (h.index (n * nb_j + j)))) (LinExpr.ofConst 0)
        [Op.addConstr (expr.subVar (x i j)) Sense.eq (LinExpr.ofConst 0)]))
  -- add constraint (16c)
  ++ (List.range n).map (fun i =>
      let expr := (g.nb i).foldl (fun e nb_i => e.addVar (f i (h.index (n * i + nb_i))))
        (LinExpr.ofConst 0)
      Op.addConstr expr Sense.eq (LinExpr.ofConst 0))
  -- add constraint (16d)
  ++ (List.range n).flatMap (fun i => (g.nb i).flatMap (fun j => (List.range n).flatMap (fun v =>
      if v = i ∨ v = j then [] else
        [Op.addConstr ((LinExpr.ofVar (f v (h.index (n * i + j)))).subVar
          (f j (h.index (n * i + j)))) Sense.le (LinExpr.ofConst 0)])))
  ++ [Op.update, Op.write "debug_mcf1.lp"]

/-- The creation of the variables `f[i][j]` shared by `build_mcf2` and `build_mcf`.  The count
recorded is the `size_t` value of `n - g->nb(i).size() - 1`; `addVars` receives it converted to
`int`, which is the same number whenever `|nb(i)| < n` (so for every simple graph) and `-1`
instead of `2^64 - 1` when `|nb(i)| = n`. -/
def mcf_vars (g : graph) : List Op :=
  (List.range g.nr_nodes).flatMap (fun i => (List.range (nr_edges g)).map (fun j =>
    Op.addVars (Row.fe i j) (alt_count g.nr_nodes (g.nb i)) VType.continuous))

/-- The message thrown when the size check of the preprocessing loop fails. -/
def non_nb_error : String := "Internal Error : non nb size for mcf2"

/-- Embedding of `build_mcf2` (`src/hess/flow.cpp`). -/
def build_mcf2 (g : graph) : BuildResult :=
  let n := g.nr_nodes
  let x := fun i j => Var.x i j
  let h := hash_edges g
  let f := fun b e a => Var.aux (Row.fe b e) a
  if non_nbs_ok g then
    ⟨mcf_vars g
      -- add constraint (19b)
      ++ (List.range n).flatMap (fun b => (List.range (alt_count n (g.nb b))).map (fun a_i =>
          let expr := (g.nb b).foldl
            (fun e j => (e.addVar (f b (h.index (b * n + j)) a_i)).subVar
              (f b (h.index (j * n + b)) a_i)) (LinExpr.ofConst 0)
          Op.addConstr (expr.subVar (x ((non_nbs g b).getD a_i 0) b)) Sense.eq
            (LinExpr.ofConst 0)))
      -- add constraint (19c)
      ++ (List.range n).flatMap (fun b => (List.range (alt_count n (g.nb b))).flatMap (fun a_i =>
          (List.range n).flatMap (fun i =>
            if i = (non_nbs g b).getD a_i 0 ∨ i = b then [] else
              let expr := (g.nb i).foldl
                (fun e j => (e.addVar (f b (h.index (i * n + j)) a_i)).subVar
                  (f b (h.index (j * n + i)) a_i)) (LinExpr.ofConst 0)
              [Op.addConstr expr Sense.eq (LinExpr.ofConst 0)])))
      -- add constraint (19d)
      ++ (List.range n).flatMap (fun b => (List.range (alt_count n (g.nb b))).map (fun a_i =>
          let expr := (g.nb b).foldl (fun e j => e.addVar (f b (h.index (j * n + b)) a_i))
            (LinExpr.ofConst 0)
          Op.addConstr expr Sense.eq (LinExpr.ofConst 0)))
      -- add constraint (19e)
      ++ (List.range n).flatMap (fun b => (List.range (alt_count n (g.nb b))).flatMap (fun a_i =>
          (List.range n).flatMap (fun j =>
            if j = b then [] else
              let expr := (g.nb j).foldl (fun e i => e.subVar (f b (h.index (i * n + j)) a_i))
                (LinExpr.ofConst 0)
              [Op.addConstr (expr.subVar (x j b)) Sense.le (LinExpr.ofConst 0)]))),
     none⟩
  else ⟨mcf_vars g, some non_nb_error⟩

/-- The vector `centers` of `build_shir`: the nodes `i` with `F0[i][i]` false, in
increasing order. -/
def shir_centers (g : graph) (F0 : Nat → Nat → Bool) : List Nat :=
  (List.range g.nr_nodes).filter (fun i => !F0 i i)

/-- Embedding of `build_shir` (`src/src/flow.cpp`); `F0` is the matrix `p.F0`. -/
def build_shir (g : graph) (F0 : Nat → Nat → Bool) : List Op :=
  let n := g.nr_nodes
  let centers := shir_centers g F0
  let c := centers.length
  let h := hash_edges g
  let f := fun v e => Var.aux (Row.f v) e
  (List.range c).map (fun v => Op.addVars (Row.f v) (nr_edges g) VType.continuous)
  -- add constraint (b)
  ++ (List.range c).flatMap (fun v =>
      let j := centers.getD v 0
      (List.range n).flatMap (fun i =>
        if i = j then [] else
          let expr := (g.nb i).foldl
            (fun e nb_i => (e.addVar (f v (h.index (n * nb_i + i)))).subVar
              (f v (h.index (n * i + nb_i)))) (LinExpr.ofConst 0)
          [Op.addConstr expr Sense.eq (LinExpr.ofVar (Var.x i j))]))
  -- add constraint (c)
  ++ (List.range c).flatMap (fun v =>
      let j := centers.getD v 0
      (List.range n).flatMap (fun i =>
        if i = j then [] else
          let expr := (g.nb i).foldl (fun e nb_i => e.addVar (f v (h.index (n * nb_i + i))))
            (LinExpr.ofConst 0)
          [Op.addConstr expr Sense.le (LinExpr.ofTerm ((n : Int) - 1) (Var.x i j))]))
  -- add constraint (d) -- actually just fix individual vars to zero
  ++ (List.range c).flatMap (fun v =>
      let j := centers.getD v 0
      (g.nb j).map (fun i => Op.setUB (f v (h.index (n * i + j))) 0))

/-- Embedding of `build_mcf` (`src/src/flow.cpp`). -/
def build_mcf (g : graph) : BuildResult :=
  let n := g.nr_nodes
  let h := hash_edges g
  let f := fun b e a => Var.aux (Row.fe b e) a
  if non_nbs_ok g then
    ⟨mcf_vars g
      -- add constraint (b)
      ++ (List.range n).flatMap (fun b => (List.range (alt_count n (g.nb b))).map (fun a_i =>
          let expr := (g.nb b).foldl
            (fun e j => (e.addVar (f b (h.index (b * n + j)) a_i)).subVar
              (f b (h.index (j * n + b)) a_i)) (LinExpr.ofConst 0)
          Op.addConstr expr Sense.eq (LinExpr.ofVar (Var.x ((non_nbs g b).getD a_i 0) b))))
      -- add constraint (c)
      ++ (List.range n).flatMap (fun b => (List.range (alt_count n (g.nb b))).flatMap (fun a_i =>
          (List.range n).flatMap (fun i =>
            if i = (non_nbs g b).getD a_i 0 ∨ i = b then [] else
              let expr := (g.nb i).foldl
                (fun e j => (e.addVar (f b (h.index (i * n + j)) a_i)).subVar
                  (f b (h.index (j * n + i)) a_i)) (LinExpr.ofConst 0)
              [Op.addConstr expr Sense.eq (LinExpr.ofConst 0)])))
      -- add constraint (d) -- actually just fix each var UB to zero
      ++ (List.range n).flatMap (fun b => (List.range (alt_count n (g.nb b))).flatMap (fun a_i =>
          (g.nb b).map (fun j => Op.setUB (f b (h.index (j * n + b)) a_i) 0)))
      -- add constraint (19e)
      ++ (List.range n).flatMap (fun b => (List.range (alt_count n (g.nb b))).flatMap (fun a_i =>
          (List.range n).flatMap (fun j =>
            if j = b then [] else
              let expr := (g.nb j).foldl (fun e i => e.addVar (f b (h.index (i * n + j)) a_i))
                (LinExpr.ofConst 0)
              [Op.addConstr expr Sense.le (LinExpr.ofVar (Var.x j b))]))),
     none⟩
  else ⟨mcf_vars g, some non_nb_error⟩

/-! ## Meaning of the emitted system -/

section Semantics

variable {K : Type} [LinearOrderedCommRing K]

/-- Value of an atom under the assignment matrix `X` and the auxiliary values `σ`. -/
def Var.val (X : Nat → Nat → K) (σ : Row → Nat → K) : Var → K
  | Var.x i j => X i j
  | Var.aux r k => σ r k

/-- Value of a linear expression. -/
def LinExpr.eval (X : Nat → Nat → K) (σ : Row → Nat → K) (e : LinExpr) : K :=
  (e.const : K) + (e.terms.map (fun t => (t.1 : K) * t.2.val X σ)).sum

/-- The relation a constraint sense stands for. -/
def Sense.rel (s : Sense) (a b : K) : Prop :=
  match s with
  | Sense.le => a ≤ b
  | Sense.ge => a ≥ b
  | Sense.eq => a = b

/-- What one operation demands of the values: created variables are non-negative (and 0/1 when
binary), a constraint holds, an upper bound is respected, a variable made binary is 0/1. -/
def Op.holds (X : Nat → Nat → K) (σ : Row → Nat → K) : Op → Prop
  | Op.addVars r count vtype =>
      ∀ k, k < count → 0 ≤ σ r k ∧ (vtype = VType.binary → σ r k = 0 ∨ σ r k = 1)
  | Op.update => True
  | Op.addConstr lhs sense rhs => sense.rel (lhs.eval X σ) (rhs.eval X σ)
  | Op.setUB v ub => v.val X σ ≤ (ub : K)
  | Op.setVType v vtype => vtype = VType.binary → v.val X σ = 0 ∨ v.val X σ = 1
  | Op.write _ => True

/-- The auxiliary values `σ` are a feasible setting for the system built by `ops`, the
assignment matrix being fixed to `X`. -/
def Feasible (ops : List Op) (X : Nat → Nat → K) (σ : Row → Nat → K) : Prop :=
  ∀ op ∈ ops, op.holds X σ

end Semantics

/-! ## Graphs, assignments, contiguity -/

/-- Every adjacency entry is a node `0..n-1`. -/
def graph.InRange (g : graph) : Prop :=
  ∀ i, i < g.nr_nodes → ∀ j ∈ g.nb i, j < g.nr_nodes

/-- No adjacency list repeats a neighbour. -/
def graph.DupFree (g : graph) : Prop :=
  ∀ i, i < g.nr_nodes → (g.nb i).Nodup

/-- No node is its own neighbour. -/
def graph.Loopless (g : graph) : Prop :=
  ∀ i, i < g.nr_nodes → i ∉ g.nb i

/-- Symmetry: `j ∈ nb(i)` implies `i ∈ nb(j)`. -/
def graph.Symm (g : graph) : Prop :=
  ∀ i, i < g.nr_nodes → ∀ j ∈ g.nb i, i ∈ g.nb j

/-- Symmetric simple graph on the nodes `0..n-1`. -/
structure graph.Simple (g : graph) : Prop where
  inRange : g.InRange
  dupFree : g.DupFree
  loopless : g.Loopless
  symm : g.Symm

/-- The invariant of the assignment matrix: entries are 0 or 1, and every node `i` has exactly
one `j` with `X[i][j] = 1`, and that `j` is a center (`X[j][j] = 1`). -/
def AssignInv {K : Type} [LinearOrderedCommRing K] (n : Nat) (X : Nat → Nat → K) : Prop :=
  (∀ i, i < n → ∀ j, j < n → X i j = 0 ∨ X i j = 1) ∧
  (∀ i, i < n → ∃ j, j < n ∧ X i j = 1 ∧ X j j = 1 ∧ ∀ j2, j2 < n → X i j2 = 1 → j2 = j)

/-- The node set `S` induces a connected subgraph of `g`: any two nodes of `S` are joined by a
walk that stays in `S`. -/
def InducedConnected (g : graph) (S : Nat → Prop) : Prop :=
  ∀ u v, S u → S v → Relation.ReflTransGen (fun a b => S a ∧ S b ∧ b ∈ g.nb a) u v

/-- Contiguity: for every center `b`, the nodes assigned to `b` induce a connected subgraph. -/
def Contiguous {K : Type} [LinearOrderedCommRing K] (g : graph) (X : Nat → Nat → K) : Prop :=
  ∀ b, b < g.nr_nodes → X b b = 1 →
    InducedConnected g (fun i => i < g.nr_nodes ∧ X i b = 1)

/-! ## Auxiliary notions used in the proofs -/

/-- The arcs `(i, j)`, `j ∈ nb(i)`, in the order of the indexing loop. -/
def arcs (g : graph) : List (Nat × Nat) :=
  (List.range g.nr_nodes).flatMap (fun i => (g.nb i).map (fun j => (i, j)))

/-- The exact value `i*n + j` of the key of an arc. -/
def arc_key (n : Nat) (a : Nat × Nat) : Nat := a.1 * n + a.2

/-- Inserting a list of stored keys with consecutive values, as the indexing loop does. -/
def insert_all (ks : List Nat) (st : EdgeMap × Nat) : EdgeMap × Nat :=
  ks.foldl (fun st k => (st.1.put k st.2, st.2 + 1)) st

/-- The path graph `0 - 1 - 2 - 3`. -/
def path4 : graph :=
  ⟨4, fun i => match i with
    | 0 => [1]
    | 1 => [0, 2]
    | 2 => [1, 3]
    | 3 => [2]
    | _ => []⟩

/-- The path graph `0 - 1 - 2`. -/
def path3 : graph :=
  ⟨3, fun i => match i with
    | 0 => [1]
    | 1 => [0, 2]
    | 2 => [1]
    | _ => []⟩

/-- The flow `φ` read on the arcs of `g` and extended by zero to all pairs of nodes. -/
def arc_flow {K : Type} [LinearOrderedCommRing K] (g : graph) (φ : Nat → Nat → K)
    (i j : Nat) : K :=
  if i < g.nr_nodes ∧ j ∈ g.nb i then φ i j else 0

/-- The values of the variables of one row that put `Φ i j` on the arc `(i, j)`: position `e` of
the row belongs to the `e`-th arc of the indexing loop. -/
def on_arcs {K : Type} [LinearOrderedCommRing K] (g : graph) (Φ : Nat → Nat → K)
    (e : Nat) : K :=
  match (arcs g)[e]? with
  | some a => Φ a.1 a.2
  | none => 0

/-- One unit of flow sent down `k` tree arcs to the node `t`, the tree being given by the parent
map `π`: the arcs used are `(π t, t)`, `(π (π t), π t)`, and so on. -/
def tree_flow {K : Type} [LinearOrderedCommRing K] (π : Nat → Nat) : Nat → Nat → Nat → Nat → K
  | 0, _, _, _ => 0
  | k + 1, t, i, j => tree_flow π k (π t) i j + (if i = π t ∧ j = t then 1 else 0)

/-- Nodes reachable in `k` steps from a center, every step joining two adjacent nodes of one
district. -/
def layer {K : Type} [LinearOrderedCommRing K] (g : graph) (X : Nat → Nat → K) :
    Nat → Nat → Prop
  | 0, t => t < g.nr_nodes ∧ X t t = 1
  | k + 1, t => ∃ u, layer g X k u ∧ u < g.nr_nodes ∧ t < g.nr_nodes ∧ t ∈ g.nb u ∧
      ∃ b, b < g.nr_nodes ∧ X u b = 1 ∧ X t b = 1

/-- The maps `π` (parent) and `d` (depth) describe a spanning forest of the districts: a center
has depth 0, any other node `t` has a parent `π t` that is adjacent to it, lies in the same
district and is one level higher. -/
def IsForest {K : Type} [LinearOrderedCommRing K] (g : graph) (X : Nat → Nat → K)
    (π d : Nat → Nat) : Prop :=
  ∀ t, t < g.nr_nodes →
    (X t t = 1 → d t = 0) ∧
    (X t t ≠ 1 → π t < g.nr_nodes ∧ t ∈ g.nb (π t) ∧ d t = d (π t) + 1 ∧
      ∀ b, b < g.nr_nodes → X t b = 1 → X (π t) b = 1)

/-- The assignment of the connected scenario on `path4`: nodes 0, 1 belong to center 0 and
nodes 2, 3 to center 3. -/
def X_good {K : Type} [LinearOrderedCommRing K] (i j : Nat) : K :=
  if (i = 0 ∧ j = 0) ∨ (i = 1 ∧ j = 0) ∨ (i = 2 ∧ j = 3) ∨ (i = 3 ∧ j = 3) then 1 else 0

/-- The assignment of the disconnected scenario on `path4`: nodes 0, 2 belong to center 0 and
nodes 1, 3 to center 3. -/
def X_bad {K : Type} [LinearOrderedCommRing K] (i j : Nat) : K :=
  if (i = 0 ∧ j = 0) ∨ (i = 2 ∧ j = 0) ∨ (i = 1 ∧ j = 3) ∨ (i = 3 ∧ j = 3) then 1 else 0

/-- The matrix `F0` of the two scenarios: nodes 1 and 2 are excluded as centers, so that the
candidate centers are 0 and 3. -/
def F0_scen (i j : Nat) : Bool := i == j && (i == 1 || i == 2)

/-- The setting of the variables `f[b][e][a]` that puts `Φ b a i j` on the arc `(i, j)` of the
network of base `b` and alternate index `a`. -/
def flow_setting {K : Type} [LinearOrderedCommRing K] (g : graph)
    (Φ : Nat → Nat → Nat → Nat → K) : Row → Nat → K
  | Row.fe b e, a => on_arcs g (Φ b a) e
  | _, _ => 0

/-- An assignment on `path3` with a disconnected district: nodes 0 and 2 belong to center 0,
node 1 is its own center. -/
def X_split {K : Type} [LinearOrderedCommRing K] (i j : Nat) : K :=
  if (i = 0 ∧ j = 0) ∨ (i = 2 ∧ j = 0) ∨ (i = 1 ∧ j = 1) then 1 else 0

/-- On `path3`: one unit from base 0 to node 2 along `0 → 1 → 2` (alternate index 0), nothing
else. -/
def flow_split {K : Type} [LinearOrderedCommRing K] (b a i j : Nat) : K :=
  if b = 0 ∧ a = 0 ∧ ((i = 0 ∧ j = 1) ∨ (i = 1 ∧ j = 2)) then 1 else 0

/-- On `path4`, for the disconnected scenario: one unit from base 0 to node 2 along
`0 → 1 → 2` (alternate index 0 of base 0) and one unit from base 3 to node 1 along
`3 → 2 → 1` (alternate index 1 of base 3). -/
def flow_bad {K : Type} [LinearOrderedCommRing K] (b a i j : Nat) : K :=
  if (b = 0 ∧ a = 0 ∧ ((i = 0 ∧ j = 1) ∨ (i = 1 ∧ j = 2))) ∨
     (b = 3 ∧ a = 1 ∧ ((i = 3 ∧ j = 2) ∨ (i = 2 ∧ j = 1))) then 1 else 0

/-! ## Counting variables, commit order -/

/-- Number of variables created by a sequence of operations: the sum of the counts passed to
`addVars`. -/
def var_count : List Op → Nat
  | [] => 0
  | Op.addVars _ count _ :: ops => count + var_count ops
  | _ :: ops => var_count ops

/-- The auxiliary rows an atom belongs to (none for an assignment expression). -/
def Var.rows : Var → List Row
  | Var.x _ _ => []
  | Var.aux r _ => [r]

/-- The auxiliary rows a linear expression refers to. -/
def LinExpr.rows (e : LinExpr) : List Row := e.terms.flatMap (fun t => t.2.rows)

/-- The auxiliary rows an operation refers to: those of the expressions of a constraint, that
of the variable whose bound or type is set. -/
def Op.rows : Op → List Row
  | Op.addConstr lhs _ rhs => lhs.rows ++ rhs.rows
  | Op.setUB v _ => v.rows
  | Op.setVType v _ => v.rows
  | _ => []

/-- Scan of a sequence of operations for the commit discipline: `pending` holds the rows created
since the last `update`; a constraint or an attribute set must not refer to a pending row. -/
def commit_ok_from : List Row → List Op → Bool
  | _, [] => true
  | pending, Op.addVars r _ _ :: ops => commit_ok_from (r :: pending) ops
  | _, Op.update :: ops => commit_ok_from [] ops
  | pending, op :: ops => op.rows.all (fun r => !pending.contains r) && commit_ok_from pending ops

/-- The commit discipline holds for a whole sequence of operations. -/
def commit_ok (ops : List Op) : Bool := commit_ok_from [] ops

/-- The values `σ` satisfy every linear constraint added by `ops` (bounds and variable types
aside), the assignment matrix being fixed to `X`. -/
def SatisfiesConstrs {K : Type} [LinearOrderedCommRing K] (ops : List Op) (X : Nat → Nat → K)
    (σ : Row → Nat → K) : Prop :=
  ∀ lhs sense rhs, Op.addConstr lhs sense rhs ∈ ops → sense.rel (lhs.eval X σ) (rhs.eval X σ)

/-- A graph on two nodes whose node 0 lists itself as a neighbour. -/
def loop2 : graph :=
  ⟨2, fun i => match i with
    | 0 => [0, 1]
    | 1 => [0]
    | _ => []⟩

/-! ## Lookups in the arc index -/

/-- Operator `[]` of the table together with its effect on the table, for the `int` subscript
whose exact value is `k`: the value of a key that is present, and for a key that is not present
the value 0 and the table with the entry `(key, 0)` inserted. -/
def EdgeMap.subscript (m : EdgeMap) (k : Nat) : Nat × EdgeMap :=
  match m.lookup (int_repr k) with
  | some v => (v, m)
  | none => (0, m ++ [(int_repr k, 0)])

/-- The table after the keys `keys` have been looked up with operator `[]`, in that order. -/
def EdgeMap.after_lookups (m : EdgeMap) (keys : List Nat) : EdgeMap :=
  keys.foldl (fun m k => (m.subscript k).2) m

/-- The keys `build_mcf1` looks up in `hash_edges`, in program order. -/
def mcf1_keys (g : graph) : List Nat :=
  let n := g.nr_nodes
  -- update variables to binary when j == v
  (List.range n).flatMap (fun v => (List.range n).flatMap (fun i => (g.nb i).flatMap (fun j =>
    if v = j then [n * i + j] else [])))
  -- constraint (16b)
  ++ (List.range n).flatMap (fun i => (List.range n).flatMap (fun j =>
      if i = j then [] else (g.nb j).flatMap (fun nb_j => [n * j + nb_j, n * nb_j + j])))
  -- constraint (16c)
  ++ (List.range n).flatMap (fun i => (g.nb i).map (fun nb_i => n * i + nb_i))
  -- constraint (16d)
  ++ (List.range n).flatMap (fun i => (g.nb i).flatMap (fun j => (List.range n).flatMap (fun v =>
      if v = i ∨ v = j then [] else [n * i + j, n * i + j])))

/-- The keys `build_mcf2` looks up in `hash_edges`, in program order (none when the size check
fails). -/
def mcf2_keys (g : graph) : List Nat :=
  let n := g.nr_nodes
  if non_nbs_ok g then
    -- constraint (19b)
    (List.range n).flatMap (fun b => (List.range (alt_count n (g.nb b))).flatMap (fun _ =>
      (g.nb b).flatMap (fun j => [b * n + j, j * n + b])))
    -- constraint (19c)
    ++ (List.range n).flatMap (fun b => (List.range (alt_count n (g.nb b))).flatMap (fun a_i =>
        (List.range n).flatMap (fun i =>
          if i = (non_nbs g b).getD a_i 0 ∨ i = b then [] else
            (g.nb i).flatMap (fun j => [i * n + j, j * n + i]))))
    -- constraint (19d)
    ++ (List.range n).flatMap (fun b => (List.range (alt_count n (g.nb b))).flatMap (fun _ =>
        (g.nb b).map (fun j => j * n + b)))
    -- constraint (19e)
    ++ (List.range n).flatMap (fun b => (List.range (alt_count n (g.nb b))).flatMap (fun _ =>
        (List.range n).flatMap (fun j =>
          if j = b then [] else (g.nb j).map (fun i => i * n + j))))
  else []

/-- The keys `build_shir` looks up in `hash_edges`, in program order. -/
def shir_keys (g : graph) (F0 : Nat → Nat → Bool) : List Nat :=
  let n := g.nr_nodes
  let centers := shir_centers g F0
  let c := centers.length
  -- constraint (b)
  (List.range c).flatMap (fun v =>
    let j := centers.getD v 0
    (List.range n).flatMap (fun i =>
      if i = j then [] else (g.nb i).flatMap (fun nb_i => [n * nb_i + i, n * i + nb_i])))
  -- constraint (c)
  ++ (List.range c).flatMap (fun v =>
      let j := centers.getD v 0
      (List.range n).flatMap (fun i =>
        if i = j then [] else (g.nb i).map (fun nb_i => n * nb_i + i)))
  -- constraint (d)
  ++ (List.range c).flatMap (fun v =>
      let j := centers.getD v 0
      (g.nb j).map (fun i => n * i + j))

/-- The keys `build_mcf` looks up in `hash_edges`, in program order (none when the size check
fails). -/
def mcf_keys (g : graph) : List Nat :=
  let n := g.nr_nodes
  if non_nbs_ok g then
    -- constraint (b)
    (List.range n).flatMap (fun b => (List.range (alt_count n (g.nb b))).flatMap (fun _ =>
      (g.nb b).flatMap (fun j => [b * n + j, j * n + b])))
    -- constraint (c)
    ++ (List.range n).flatMap (fun b => (List.range (alt_count n (g.nb b))).flatMap (fun a_i =>
        (List.range n).flatMap (fun i =>
          if i = (non_nbs g b).getD a_i 0 ∨ i = b then [] else
            (g.nb i).flatMap (fun j => [i * n + j, j * n + i]))))
    -- constraint (d)
    ++ (List.range n).flatMap (fun b => (List.range (alt_count n (g.nb b))).flatMap (fun _ =>
        (g.nb b).map (fun j => j * n + b)))
    -- constraint (19e)
    ++ (List.range n).flatMap (fun b => (List.range (alt_count n (g.nb b))).flatMap (fun _ =>
        (List.range n).flatMap (fun j =>
          if j = b then [] else (g.nb j).map (fun i => i * n + j))))
  else []

/-! ## The model dispatch of `main` -/

/-- Steps of the `try` block of `main` (`src/hess/main.cpp`) that touch the solver model or
end the process. -/
inductive MainStep where
  /-- The statements `GRBEnv env = GRBEnv(); GRBModel model = GRBModel(env);`. -/
  | create_model
  /-- The call `p = build_hess(&model, g, w, population, L, U, k, F0, F1)`. -/
  | build_hess
  /-- The loop setting `GRB_IntAttr_BranchPriority` on the variables `x[i][i]`. -/
  | branch_priority
  | build_shir
  | build_mcf
  | build_cut
  | build_lcut
  /-- The output `fprintf(stderr, "ERROR: Unknown model : %s", arg_model.c_str())`. -/
  | report_unknown (name : String)
  /-- The call `exit(code)`. -/
  | exit_status (code : Nat)
  /-- Everything after the dispatch: parameters, warm start, `optimize`. -/
  | solve
  deriving DecidableEq, Repr

/-- Embedding of the `try` block of `main` up to and including the dispatch on `arg_model`
(`src/hess/main.cpp`), as the sequence of steps performed. -/
def main_dispatch (arg_model : String) : List MainStep :=
  [MainStep.create_model, MainStep.build_hess, MainStep.branch_priority] ++
  (if arg_model = "shir" then [MainStep.build_shir, MainStep.solve]
   else if arg_model = "mcf" then [MainStep.build_mcf, MainStep.solve]
   else if arg_model = "cut" then [MainStep.build_cut, MainStep.solve]
   else if arg_model = "lcut" then [MainStep.build_lcut, MainStep.solve]
   else if arg_model ≠ "hess" then [MainStep.report_unknown arg_model, MainStep.exit_status 1]
   else [MainStep.solve])

/-- The steps that build a part of the model: the base model and the contiguity builders. -/
def MainStep.builds : MainStep → Bool
  | MainStep.build_hess => true
  | MainStep.build_shir => true
  | MainStep.build_mcf => true
  | MainStep.build_cut => true
  | MainStep.build_lcut => true
  | _ => false

/-- The contiguity builders among the steps. -/
def MainStep.contiguity : MainStep → Bool
  | MainStep.build_shir => true
  | MainStep.build_mcf => true
  | MainStep.build_cut => true
  | MainStep.build_lcut => true
  | _ => false

/-! ## The demand constraints of `build_mcf1` -/

/-- The constraint added by one pass of the body of loop (16b) of `build_mcf1`, for the pair
`(i, j)`: `expr - x[i][j] == 0`, where `expr` gains `f[i][hash[n*j+nb_j]]` and loses
`f[i][hash[n*nb_j+j]]` for every neighbour `nb_j` of `j`. -/
def mcf1_demand (g : graph) (i j : Nat) : Op :=
  let n := g.nr_nodes
  let h := hash_edges g
  let f := fun v e => Var.aux (Row.f v) e
  let expr := (g.nb j).foldl
    (fun e nb_j => (e.addVar (f i (h.index (n * j + nb_j)))).subVar
      (f i (h.index (n * nb_j + j)))) (LinExpr.ofConst 0)
  Op.addConstr (expr.subVar (Var.x i j)) Sense.eq (LinExpr.ofConst 0)

/-- The whole loop (16b) of `build_mcf1`. -/
def mcf1_demands (g : graph) : List Op :=
  (List.range g.nr_nodes).flatMap (fun i => (List.range g.nr_nodes).flatMap (fun j =>
    if i = j then [] else [mcf1_demand g i j]))

/-- The assignment entry an atom stands for (none for an auxiliary variable). -/
def Var.xs : Var → List (Nat × Nat)
  | Var.x i j => [(i, j)]
  | Var.aux _ _ => []

/-- The assignment entries a linear expression refers to. -/
def LinExpr.xs (e : LinExpr) : List (Nat × Nat) := e.terms.flatMap (fun t => t.2.xs)

/-- The assignment entries an operation refers to. -/
def Op.xs : Op → List (Nat × Nat)
  | Op.addConstr lhs _ rhs => lhs.xs ++ rhs.xs
  | Op.setUB v _ => v.xs
  | Op.setVType v _ => v.xs
  | _ => []

/-! ## Key arithmetic in `int` -/

/-- The largest value of an `int`. -/
def INT_MAX : Int := 2 ^ 31 - 1

/-- The value a 32-bit two's complement `int` holds when the exact result of an operation is
`x`: the representative of `x` modulo `2^32` in `-2^31 .. 2^31 - 1`. -/
def wrap_int (x : Int) : Int := (x + 2 ^ 31) % 2 ^ 32 - 2 ^ 31

/-- The `int` expression `i*n + j` of the indexing loop, evaluated in 32-bit arithmetic: the
product, then the sum. -/
def key_int (i n j : Nat) : Int := wrap_int (wrap_int ((i : Int) * (n : Int)) + (j : Int))

/-- The path `0 - 65536 - 1` on 65537 nodes; all other nodes are isolated. -/
def wide3 : graph :=
  ⟨65537, fun i =>
    if i = 0 then [65536] else if i = 1 then [65536] else if i = 65536 then [0, 1] else []⟩

/-- A duplicate-free adjacency structure on two nodes in which node 0 lists the number 2, which
is not a node.  Between the nodes 0 and 1 it is symmetric; the list at 2, which no loop over the
nodes reads, makes it symmetric also when the entry 2 is followed. -/
def out2 : graph :=
  ⟨2, fun i => match i with
    | 0 => [1, 2]
    | 1 => [0]
    | 2 => [0]
    | _ => []⟩

/-- The assignment on `wide3` with the district `{0, 1, 65536}` of center 0; every other node is
its own center. -/
def X_wide {K : Type} [LinearOrderedCommRing K] (i j : Nat) : K :=
  if (j = 0 ∧ (i = 0 ∨ i = 1 ∨ i = 65536)) ∨ (i = j ∧ 1 < i ∧ i ≠ 65536) then 1 else 0

/-- The matrix `F0` that excludes no node as a center. -/
def F0_none : Nat → Nat → Bool := fun _ _ => false

theorem foldl_flatMap_eq {α β γ : Type} (f : γ → β → γ) (h : α → List β) (l : List α) (c : γ) :
    (l.flatMap h).foldl f c = l.foldl (fun c a => (h a).foldl f c) c := by
  induction l generalizing c with
  | nil => rfl
  | cons a l ih => simp [List.flatMap_cons, List.foldl_append, ih]

theorem hash_edges_loop_eq (g : graph) :
    hash_edges_loop g
      = insert_all ((arcs g).map (fun a => int_repr (arc_key g.nr_nodes a))) ([], 0) := by
  unfold hash_edges_loop insert_all arcs
  rw [List.foldl_map, foldl_flatMap_eq]
  congr 1
  funext st i
  rw [List.foldl_map]
  rfl

theorem insert_all_fresh (ks : List Nat) : ∀ (m : EdgeMap) (cur : Nat),
    (∀ k ∈ ks, m.lookup k = none) → ks.Nodup →
    insert_all ks (m, cur) = (m ++ ks.zip (List.range' cur ks.length), cur + ks.length) := by
  induction ks with
  | nil => intro m cur _ _; simp [insert_all]
  | cons k r ih =>
    intro m cur hm hnd
    have hk : m.lookup k = none := hm k (List.mem_cons_self _ _)
    have hnd2 := List.nodup_cons.mp hnd
    have step : insert_all (k :: r) (m, cur) = insert_all r (m ++ [(k, cur)], cur + 1) := by
      simp [insert_all, EdgeMap.put, hk]
    rw [step, ih (m ++ [(k, cur)]) (cur + 1) _ hnd2.2]
    · simp [List.range'_succ, Nat.add_comm, Nat.add_left_comm]
    · intro k2 hk2
      have hne : k2 ≠ k := fun h => hnd2.1 (h ▸ hk2)
      rw [List.lookup_append, hm k2 (List.mem_cons_of_mem _ hk2)]
      have h2 : (k2 == k) = false := by simpa using hne
      simp [List.lookup_cons, h2]

theorem lookup_zip_range (ks : List Nat) : ∀ (c : Nat) (k : Nat),
    (ks.zip (List.range' c ks.length)).lookup k =
      if k ∈ ks then some (c + ks.indexOf k) else none := by
  induction ks with
  | nil => intro c k; simp
  | cons a r ih =>
    intro c k
    simp only [List.length_cons, List.range'_succ, List.zip_cons_cons, List.lookup_cons]
    by_cases h : k = a
    · subst h; simp
    · have h2 : (k == a) = false := by simpa using h
      rw [h2]
      simp only [ih (c + 1) k, List.mem_cons, h, false_or]
      split
      · simp [List.indexOf_cons_ne _ (Ne.symm h)]; omega
      · rfl



theorem mem_arcs {g : graph} {a : Nat × Nat} :
    a ∈ arcs g ↔ a.1 < g.nr_nodes ∧ a.2 ∈ g.nb a.1 := by
  obtain ⟨i, j⟩ := a
  simp only [arcs, List.mem_flatMap, List.mem_range, List.mem_map, Prod.mk.injEq]
  constructor
  · rintro ⟨i2, hi, j2, hj, rfl, rfl⟩
    exact ⟨hi, hj⟩
  · rintro ⟨hi, hj⟩
    exact ⟨i, hi, j, hj, rfl, rfl⟩

theorem arcs_nodup {g : graph} (hd : g.DupFree) : (arcs g).Nodup := by
  unfold arcs
  rw [List.nodup_flatMap]
  constructor
  · intro i hi
    exact (hd i (List.mem_range.mp hi)).map (fun a b h => by simpa using h)
  · refine (List.nodup_range _).pairwise_of_forall_ne ?_
    intro i _ k _ hik
    simp only [Function.onFun, List.disjoint_left, List.mem_map]
    rintro a ⟨j, _, rfl⟩ ⟨j2, _, h⟩
    exact hik (by simpa using (congrArg Prod.fst h).symm)

theorem arc_key_inj {g : graph} (hr : g.InRange) {a b : Nat × Nat} (ha : a ∈ arcs g)
    (hb : b ∈ arcs g) (h : arc_key g.nr_nodes a = arc_key g.nr_nodes b) : a = b := by
  obtain ⟨i, j⟩ := a
  obtain ⟨i2, j2⟩ := b
  have ha2 := mem_arcs.mp ha
  have hb2 := mem_arcs.mp hb
  have hj : j < g.nr_nodes := hr i ha2.1 j ha2.2
  have hj2 : j2 < g.nr_nodes := hr i2 hb2.1 j2 hb2.2
  simp only [arc_key] at h
  have h1 : (i * g.nr_nodes + j) / g.nr_nodes = (i2 * g.nr_nodes + j2) / g.nr_nodes := by rw [h]
  have hpos : 0 < g.nr_nodes := by omega
  rw [Nat.mul_comm i, Nat.mul_comm i2, Nat.mul_add_div hpos, Nat.mul_add_div hpos,
    Nat.div_eq_of_lt hj, Nat.div_eq_of_lt hj2] at h1
  have hi : i = i2 := by omega
  subst hi
  have : j = j2 := by omega
  rw [this]

theorem int_repr_lt {k : Nat} (h : k < 2 ^ 32) : int_repr k = k :=
  Nat.mod_eq_of_lt h

theorem arc_key_lt {g : graph} [Fact (g.nr_nodes ≤ 46340)] (hr : g.InRange) {a : Nat × Nat}
    (ha : a ∈ arcs g) : arc_key g.nr_nodes a < 2147395600 := by
  have hb : g.nr_nodes ≤ 46340 := Fact.out
  have ha2 := mem_arcs.mp ha
  have hj := hr a.1 ha2.1 a.2 ha2.2
  have h1 : a.1 * g.nr_nodes ≤ 46339 * 46340 := Nat.mul_le_mul (by omega) hb
  unfold arc_key
  omega

theorem int_repr_arc_key {g : graph} [Fact (g.nr_nodes ≤ 46340)] (hr : g.InRange)
    {a : Nat × Nat} (ha : a ∈ arcs g) :
    int_repr (arc_key g.nr_nodes a) = arc_key g.nr_nodes a :=
  int_repr_lt (lt_trans (arc_key_lt hr ha) (by norm_num))

theorem map_int_repr_arcs {g : graph} [Fact (g.nr_nodes ≤ 46340)] (hr : g.InRange) :
    (arcs g).map (fun a => int_repr (arc_key g.nr_nodes a))
      = (arcs g).map (arc_key g.nr_nodes) :=
  List.map_congr_left (fun _ ha => int_repr_arc_key hr ha)

theorem keys_nodup {g : graph} (hr : g.InRange) (hd : g.DupFree) :
    ((arcs g).map (arc_key g.nr_nodes)).Nodup :=
  (arcs_nodup hd).map_on (fun _ ha _ hb h => arc_key_inj hr ha hb h)

theorem hash_edges_eq {g : graph} [Fact (g.nr_nodes ≤ 46340)] (hr : g.InRange) (hd : g.DupFree) :
    hash_edges g = ((arcs g).map (arc_key g.nr_nodes)).zip (List.range' 0 (arcs g).length) := by
  unfold hash_edges
  rw [hash_edges_loop_eq, map_int_repr_arcs hr,
    insert_all_fresh _ _ _ (by simp) (keys_nodup hr hd)]
  simp

theorem nr_edges_eq {g : graph} [Fact (g.nr_nodes ≤ 46340)] (hr : g.InRange) (hd : g.DupFree) :
    nr_edges g = (arcs g).length := by
  unfold nr_edges
  rw [hash_edges_eq hr hd]
  simp

theorem lookup_arc_pos {g : graph} [Fact (g.nr_nodes ≤ 46340)]
    (hr : g.InRange) (hd : g.DupFree) (p : Nat)
    (hp : p < (arcs g).length) :
    (hash_edges g).lookup (arc_key g.nr_nodes ((arcs g).get ⟨p, hp⟩)) = some p := by
  rw [hash_edges_eq hr hd]
  have h := lookup_zip_range ((arcs g).map (arc_key g.nr_nodes)) 0
    (arc_key g.nr_nodes ((arcs g).get ⟨p, hp⟩))
  simp only [List.length_map] at h
  rw [h]
  have hmem : arc_key g.nr_nodes ((arcs g).get ⟨p, hp⟩) ∈ (arcs g).map (arc_key g.nr_nodes) :=
    List.mem_map_of_mem _ (List.get_mem _ _ _)
  rw [if_pos hmem]
  have hp2 : p < ((arcs g).map (arc_key g.nr_nodes)).length := by simpa using hp
  have e : arc_key g.nr_nodes ((arcs g).get ⟨p, hp⟩)
      = ((arcs g).map (arc_key g.nr_nodes)).get ⟨p, hp2⟩ := by simp
  rw [e, List.get_indexOf (keys_nodup hr hd)]
  simp

theorem lookup_arc {g : graph} [Fact (g.nr_nodes ≤ 46340)]
    (hr : g.InRange) (hd : g.DupFree) {a : Nat × Nat}
    (ha : a ∈ arcs g) :
    ∃ p, (hash_edges g).lookup (arc_key g.nr_nodes a) = some p ∧ (arcs g)[p]? = some a := by
  obtain ⟨⟨p, hp⟩, rfl⟩ := List.mem_iff_get.mp ha
  exact ⟨p, lookup_arc_pos hr hd p hp, by simp [List.getElem?_eq_getElem hp]⟩

theorem index_arc {g : graph} [Fact (g.nr_nodes ≤ 46340)]
    (hr : g.InRange) (hd : g.DupFree) {a : Nat × Nat}
    (ha : a ∈ arcs g) :
    (arcs g)[(hash_edges g).index (arc_key g.nr_nodes a)]? = some a := by
  obtain ⟨p, h1, h2⟩ := lookup_arc hr hd ha
  simp [EdgeMap.index, int_repr_arc_key hr ha, h1, h2]

theorem index_lt {g : graph} [Fact (g.nr_nodes ≤ 46340)]
    (hr : g.InRange) (hd : g.DupFree) {a : Nat × Nat}
    (ha : a ∈ arcs g) :
    (hash_edges g).index (arc_key g.nr_nodes a) < nr_edges g := by
  rw [nr_edges_eq hr hd]
  have h := index_arc hr hd ha
  by_contra hc
  rw [List.getElem?_eq_none (by omega)] at h
  exact absurd h (by simp)

/-! ## The non-neighbour lists -/

theorem foldl_set_getElem? (l : List Nat) : ∀ (base : List Bool) (j : Nat),
    (l.foldl (fun fl k => fl.set k true) base)[j]? =
      if j ∈ l ∧ j < base.length then some true else base[j]? := by
  induction l with
  | nil => intro base j; simp
  | cons a r ih =>
    intro base j
    simp only [List.foldl_cons, ih, List.length_set, List.mem_cons]
    by_cases hjr : j ∈ r ∧ j < base.length
    · simp [hjr]
    · rw [if_neg hjr]
      by_cases hja : j = a
      · subst hja
        by_cases hlt : j < base.length
        · simp [hlt]
        · have hle := Nat.le_of_not_lt hlt
          rw [if_neg (by simp [hlt]), List.getElem?_eq_none hle,
            List.getElem?_eq_none (by simpa using hle)]
      · have : ¬ ((j = a ∨ j ∈ r) ∧ j < base.length) := by
          rintro ⟨h | h, h2⟩
          · exact hja h
          · exact hjr ⟨h, h2⟩
        rw [if_neg this, List.getElem?_set_ne (Ne.symm hja)]

theorem nb_flags_getElem? (g : graph) (i j : Nat) (hj : j < g.nr_nodes) :
    (nb_flags g i)[j]? = some (decide (j = i ∨ j ∈ g.nb i)) := by
  unfold nb_flags
  rw [foldl_set_getElem?]
  simp only [List.length_set, List.length_replicate, hj, and_true]
  by_cases h : j ∈ g.nb i
  · simp [h]
  · rw [if_neg h]
    by_cases h2 : j = i
    · subst h2; simp [hj]
    · rw [List.getElem?_set_ne (Ne.symm h2)]
      simp [hj, h, h2]

theorem non_nbs_eq (g : graph) (b : Nat) :
    non_nbs g b = (List.range g.nr_nodes).filter (fun j => decide (j ≠ b ∧ j ∉ g.nb b)) := by
  unfold non_nbs
  apply List.filter_congr
  intro j hj
  have hj2 : j < g.nr_nodes := List.mem_range.mp hj
  rw [List.getD_eq_getElem?_getD, List.getElem?_map, nb_flags_getElem? g b j hj2]
  by_cases h1 : j = b <;> by_cases h2 : j ∈ g.nb b <;> simp [h1, h2]

theorem mem_non_nbs {g : graph} {b t : Nat} :
    t ∈ non_nbs g b ↔ t < g.nr_nodes ∧ t ≠ b ∧ t ∉ g.nb b := by
  rw [non_nbs_eq]
  simp [List.mem_filter]

theorem non_nbs_sorted (g : graph) (b : Nat) : (non_nbs g b).Pairwise (fun s t => s < t) := by
  rw [non_nbs_eq]
  exact (List.pairwise_lt_range _).filter _

theorem non_nbs_length {g : graph} (hr : g.InRange) (hd : g.DupFree) (hl : g.Loopless)
    {b : Nat} (hb : b < g.nr_nodes) :
    (non_nbs g b).length + 1 + (g.nb b).length = g.nr_nodes := by
  rw [non_nbs_eq]
  have h1 : ((List.range g.nr_nodes).filter (fun j => decide (j ≠ b ∧ j ∉ g.nb b))).length
      = ((Finset.range g.nr_nodes).filter (fun j => j ≠ b ∧ j ∉ g.nb b)).card := by
    rw [← List.toFinset_card_of_nodup ((List.nodup_range _).filter _)]
    congr 1
    ext j
    simp [List.mem_filter]
  have h2 : (Finset.range g.nr_nodes).filter (fun j => j ≠ b ∧ j ∉ g.nb b)
      = Finset.range g.nr_nodes \ insert b (g.nb b).toFinset := by
    ext j
    simp only [Finset.mem_filter, Finset.mem_range, Finset.mem_sdiff, Finset.mem_insert,
      List.mem_toFinset, not_or]
  have h3 : insert b (g.nb b).toFinset ⊆ Finset.range g.nr_nodes := by
    intro j hj
    rcases Finset.mem_insert.mp hj with h | h
    · subst h; exact Finset.mem_range.mpr hb
    · exact Finset.mem_range.mpr (hr b hb j (List.mem_toFinset.mp h))
  have h4 : (insert b (g.nb b).toFinset).card = (g.nb b).length + 1 := by
    rw [Finset.card_insert_of_not_mem (by simpa using hl b hb),
      List.toFinset_card_of_nodup (hd b hb)]
  rw [h1, h2, Finset.card_sdiff h3, h4, Finset.card_range]
  have := Finset.card_le_card h3
  rw [h4, Finset.card_range] at this
  omega

theorem alt_count_eq {n : Nat} {l : List Nat} (hn : n < 2 ^ 31) (h : l.length + 1 ≤ n) :
    alt_count n l = n - 1 - l.length := by
  unfold alt_count
  have h1 : ((n : Int) - 1 - (l.length : Int)) = ((n - 1 - l.length : Nat) : Int) := by omega
  have h2 : ((n - 1 - l.length : Nat) : Int) < 2 ^ 64 := by
    have : n - 1 - l.length < 2 ^ 31 := by omega
    have h3 : ((n - 1 - l.length : Nat) : Int) < 2 ^ 31 := by exact_mod_cast this
    exact lt_trans h3 (by norm_num)
  rw [h1, Int.emod_eq_of_lt (by omega) h2]
  simp

theorem alt_count_simple {g : graph} (hn : g.nr_nodes < 2 ^ 31) (hs : g.Simple) {b : Nat}
    (hb : b < g.nr_nodes) : alt_count g.nr_nodes (g.nb b) = (non_nbs g b).length := by
  have h := non_nbs_length hs.inRange hs.dupFree hs.loopless hb
  rw [alt_count_eq hn (by omega)]
  omega

theorem non_nbs_ok_simple {g : graph} (hn : g.nr_nodes < 2 ^ 31) (hs : g.Simple) :
    non_nbs_ok g = true := by
  unfold non_nbs_ok
  rw [List.all_eq_true]
  intro i hi
  simp [alt_count_simple hn hs (List.mem_range.mp hi)]

/-! ## Two small graphs -/

theorem path4_inRange : path4.InRange := by
  unfold graph.InRange; decide

theorem path4_dupFree : path4.DupFree := by
  unfold graph.DupFree; decide

theorem path4_simple : path4.Simple :=
  ⟨path4_inRange, path4_dupFree, by unfold graph.Loopless; decide, by unfold graph.Symm; decide⟩

theorem path3_simple : path3.Simple :=
  ⟨by unfold graph.InRange; decide, by unfold graph.DupFree; decide,
   by unfold graph.Loopless; decide, by unfold graph.Symm; decide⟩

theorem path4_int_keys : Fact (path4.nr_nodes ≤ 46340) := ⟨by decide⟩

theorem path3_int_keys : Fact (path3.nr_nodes ≤ 46340) := ⟨by decide⟩

attribute [instance] path4_int_keys path3_int_keys

/-! ## Arc index bijection and non-neighbour lists -/

theorem arc_index_facts (g : graph) [Fact (g.nr_nodes ≤ 46340)] (hr : g.InRange) (hd : g.DupFree) :
    nr_edges g = ((List.range g.nr_nodes).map (fun i => (g.nb i).length)).sum ∧
    (∀ i j, i < g.nr_nodes → j ∈ g.nb i →
      ∃ k, (hash_edges g).lookup (int_repr (i * g.nr_nodes + j)) = some k ∧ k < nr_edges g) ∧
    (∀ i j i2 j2, i < g.nr_nodes → j ∈ g.nb i → i2 < g.nr_nodes → j2 ∈ g.nb i2 →
      (hash_edges g).index (i * g.nr_nodes + j) = (hash_edges g).index (i2 * g.nr_nodes + j2) →
      i = i2 ∧ j = j2) ∧
    (∀ k, k < nr_edges g →
      ∃ i j, i < g.nr_nodes ∧ j ∈ g.nb i ∧
        (hash_edges g).lookup (int_repr (i * g.nr_nodes + j)) = some k) := by
  refine ⟨?_, ?_, ?_, ?_⟩
  · rw [nr_edges_eq hr hd, arcs, List.length_flatMap]
    congr 1
    apply List.map_congr_left
    intro i _
    simp
  · intro i j hi hj
    have ha : (i, j) ∈ arcs g := mem_arcs.mpr ⟨hi, hj⟩
    obtain ⟨p, h1, h2⟩ := lookup_arc hr hd ha
    rw [← int_repr_arc_key hr ha] at h1
    refine ⟨p, h1, ?_⟩
    rw [nr_edges_eq hr hd]
    by_contra hc
    rw [List.getElem?_eq_none (by omega)] at h2
    exact absurd h2 (by simp)
  · intro i j i2 j2 hi hj hi2 hj2 h
    have ha : (i, j) ∈ arcs g := mem_arcs.mpr ⟨hi, hj⟩
    have hb : (i2, j2) ∈ arcs g := mem_arcs.mpr ⟨hi2, hj2⟩
    have h1 := index_arc hr hd ha
    have h2 := index_arc hr hd hb
    simp only [arc_key] at h1 h2
    rw [h, h2] at h1
    simpa using (Option.some.inj h1).symm
  · intro k hk
    rw [nr_edges_eq hr hd] at hk
    have h := lookup_arc_pos hr hd k hk
    rw [← int_repr_arc_key hr (List.get_mem (arcs g) k hk)] at h
    have hm := mem_arcs.mp (List.get_mem (arcs g) k hk)
    exact ⟨_, _, hm.1, hm.2, h⟩

/-- C6 as amended. For a graph with at most 46340 nodes (so that the `int` key `i*n + j` does not
overflow) whose adjacency lists are duplicate-free with entries in `0..n-1`, the table
`hash_edges` maps the arcs `(i, j)`, `j ∈ nb(i)`, bijectively onto `[0, |E|)`: the size of
the table is the total number of adjacency entries, every arc has an entry with a value below
that size, two arcs with the same index are the same arc, and every value below the size is
the index of an arc. -/
theorem arc_index_bijection (g : graph) (hnodes : g.nr_nodes ≤ 46340) (hr : g.InRange)
    (hd : g.DupFree) :
    nr_edges g = ((List.range g.nr_nodes).map (fun i => (g.nb i).length)).sum ∧
    (∀ i j, i < g.nr_nodes → j ∈ g.nb i →
      ∃ k, (hash_edges g).lookup (int_repr (i * g.nr_nodes + j)) = some k ∧ k < nr_edges g) ∧
    (∀ i j i2 j2, i < g.nr_nodes → j ∈ g.nb i → i2 < g.nr_nodes → j2 ∈ g.nb i2 →
      (hash_edges g).index (i * g.nr_nodes + j) = (hash_edges g).index (i2 * g.nr_nodes + j2) →
      i = i2 ∧ j = j2) ∧
    (∀ k, k < nr_edges g →
      ∃ i j, i < g.nr_nodes ∧ j ∈ g.nb i ∧
        (hash_edges g).lookup (int_repr (i * g.nr_nodes + j)) = some k) := by
  haveI : Fact (g.nr_nodes ≤ 46340) := ⟨hnodes⟩
  exact arc_index_facts g hr hd

/-- Witness of C6 on the path graph `0 - 1 - 2 - 3`: its six arcs are indexed `0..5`. -/
theorem arc_index_bijection_witness :
    path4.nr_nodes ≤ 46340 ∧ path4.InRange ∧ path4.DupFree ∧
      nr_edges path4 = ((List.range path4.nr_nodes).map (fun i => (path4.nb i).length)).sum :=
  ⟨by decide, path4_inRange, path4_dupFree,
    (arc_index_bijection path4 (by decide) path4_inRange path4_dupFree).1⟩

/-- C7. For a graph without self-loops whose adjacency lists are duplicate-free with entries in
`0..n-1`, and a node `b`, the list `non_nbs[b]` built by the preprocessing loop of `build_mcf2`
and `build_mcf` is ascending and duplicate-free, its members are exactly the nodes `t` with
`t ≠ b` and `t ∉ nb(b)`, and its length is `n - 1 - |nb(b)|`; for a node count in the range of
`int` this is also the value of the `size_t` expression the loop compares the length with. -/
theorem non_nbs_invariant (g : graph) (hr : g.InRange) (hd : g.DupFree) (hl : g.Loopless)
    (b : Nat) (hb : b < g.nr_nodes) :
    (non_nbs g b).Pairwise (fun s t => s < t) ∧ (non_nbs g b).Nodup ∧
    (∀ t, t ∈ non_nbs g b ↔ t < g.nr_nodes ∧ t ≠ b ∧ t ∉ g.nb b) ∧
    (non_nbs g b).length = g.nr_nodes - 1 - (g.nb b).length ∧
    (g.nr_nodes < 2 ^ 31 → (non_nbs g b).length = alt_count g.nr_nodes (g.nb b)) := by
  have hlen := non_nbs_length hr hd hl hb
  refine ⟨non_nbs_sorted g b, ?_, fun t => mem_non_nbs, by omega, fun hn => ?_⟩
  · exact (non_nbs_sorted g b).imp (fun h => Nat.ne_of_lt h)
  · rw [alt_count_eq hn (by omega)]
    omega

/-- Witness of C7 on the path graph `0 - 1 - 2 - 3` at node `0`, whose non-neighbours are the
nodes 2 and 3. -/
theorem non_nbs_invariant_witness :
    path4.InRange ∧ path4.DupFree ∧ path4.Loopless ∧ 0 < path4.nr_nodes ∧
      (non_nbs path4 0).length = path4.nr_nodes - 1 - (path4.nb 0).length :=
  ⟨path4_inRange, path4_dupFree, path4_simple.loopless, by decide,
    (non_nbs_invariant path4 path4_inRange path4_dupFree path4_simple.loopless 0
      (by decide)).2.2.2.1⟩

/-! ## Evaluation of expressions and of operation lists -/

section Eval

variable {K : Type} [LinearOrderedCommRing K] (X : Nat → Nat → K) (σ : Row → Nat → K)

@[simp] theorem eval_ofConst (c : Int) : (LinExpr.ofConst c).eval X σ = (c : K) := by
  simp [LinExpr.eval, LinExpr.ofConst]

@[simp] theorem eval_ofVar (v : Var) : (LinExpr.ofVar v).eval X σ = v.val X σ := by
  simp [LinExpr.eval, LinExpr.ofVar]

@[simp] theorem eval_ofTerm (c : Int) (v : Var) :
    (LinExpr.ofTerm c v).eval X σ = (c : K) * v.val X σ := by
  simp [LinExpr.eval, LinExpr.ofTerm]

@[simp] theorem eval_addVar (e : LinExpr) (v : Var) :
    (e.addVar v).eval X σ = e.eval X σ + v.val X σ := by
  simp [LinExpr.eval, LinExpr.addVar, add_assoc]

@[simp] theorem eval_subVar (e : LinExpr) (v : Var) :
    (e.subVar v).eval X σ = e.eval X σ - v.val X σ := by
  simp [LinExpr.eval, LinExpr.subVar]; ring

@[simp] theorem eval_subTerm (e : LinExpr) (c : Int) (v : Var) :
    (e.subTerm c v).eval X σ = e.eval X σ - (c : K) * v.val X σ := by
  simp [LinExpr.eval, LinExpr.subTerm]; ring

theorem eval_foldl {α : Type} (s : LinExpr → α → LinExpr) (w : α → K)
    (hs : ∀ e a, (s e a).eval X σ = e.eval X σ + w a) (l : List α) :
    ∀ e : LinExpr, (l.foldl s e).eval X σ = e.eval X σ + (l.map w).sum := by
  induction l with
  | nil => intro e; simp
  | cons a r ih => intro e; simp [ih, hs, add_assoc]

@[simp] theorem eval_foldl_add_sub {α : Type} (p q : α → Var) (l : List α) (e : LinExpr) :
    (l.foldl (fun e a => (e.addVar (p a)).subVar (q a)) e).eval X σ =
      e.eval X σ + (l.map (fun a => (p a).val X σ - (q a).val X σ)).sum :=
  eval_foldl X σ _ _ (fun e a => by simp; ring) l e

@[simp] theorem eval_foldl_add {α : Type} (p : α → Var) (l : List α) (e : LinExpr) :
    (l.foldl (fun e a => e.addVar (p a)) e).eval X σ =
      e.eval X σ + (l.map (fun a => (p a).val X σ)).sum :=
  eval_foldl X σ _ _ (fun e a => by simp) l e

@[simp] theorem eval_foldl_sub {α : Type} (p : α → Var) (l : List α) (e : LinExpr) :
    (l.foldl (fun e a => e.subVar (p a)) e).eval X σ =
      e.eval X σ + (l.map (fun a => - (p a).val X σ)).sum :=
  eval_foldl X σ _ _ (fun e a => by simp; ring) l e

@[simp] theorem feasible_nil : Feasible [] X σ := by
  intro op h; cases h

@[simp] theorem feasible_cons (op : Op) (l : List Op) :
    Feasible (op :: l) X σ ↔ op.holds X σ ∧ Feasible l X σ := by
  simp [Feasible]

@[simp] theorem feasible_append (a b : List Op) :
    Feasible (a ++ b) X σ ↔ Feasible a X σ ∧ Feasible b X σ := by
  simp [Feasible, or_imp, forall_and]

@[simp] theorem feasible_map {α : Type} (l : List α) (f : α → Op) :
    Feasible (l.map f) X σ ↔ ∀ a ∈ l, (f a).holds X σ := by
  simp [Feasible]

@[simp] theorem feasible_flatMap {α : Type} (l : List α) (f : α → List Op) :
    Feasible (l.flatMap f) X σ ↔ ∀ a ∈ l, Feasible (f a) X σ := by
  simp only [Feasible, List.mem_flatMap]
  constructor
  · intro h a ha op hop; exact h op ⟨a, ha, hop⟩
  · rintro h op ⟨a, ha, hop⟩; exact h a ha op hop

@[simp] theorem feasible_ite (c : Prop) [Decidable c] (l : List Op) :
    Feasible (if c then [] else l) X σ ↔ (¬ c → Feasible l X σ) := by
  by_cases h : c <;> simp [h]

end Eval

section McfForm

variable {K : Type} [LinearOrderedCommRing K]

theorem feasible_mcf_vars (g : graph) (X : Nat → Nat → K) (σ : Row → Nat → K) :
    Feasible (mcf_vars g) X σ ↔
      ∀ b, b < g.nr_nodes → ∀ e, e < nr_edges g → ∀ a, a < alt_count g.nr_nodes (g.nb b) →
        0 ≤ σ (Row.fe b e) a := by
  simp [mcf_vars, Op.holds]

theorem feasible_mcf_iff (g : graph) (hok : non_nbs_ok g = true) (X : Nat → Nat → K)
    (σ : Row → Nat → K) :
    Feasible (build_mcf g).ops X σ ↔
      (∀ b, b < g.nr_nodes → ∀ e, e < nr_edges g → ∀ a, a < alt_count g.nr_nodes (g.nb b) →
        0 ≤ σ (Row.fe b e) a) ∧
      (∀ b, b < g.nr_nodes → ∀ a, a < alt_count g.nr_nodes (g.nb b) →
        ((g.nb b).map (fun j =>
          σ (Row.fe b ((hash_edges g).index (b * g.nr_nodes + j))) a
          - σ (Row.fe b ((hash_edges g).index (j * g.nr_nodes + b))) a)).sum
        = X ((non_nbs g b).getD a 0) b) ∧
      (∀ b, b < g.nr_nodes → ∀ a, a < alt_count g.nr_nodes (g.nb b) →
        ∀ i, i < g.nr_nodes → ¬ (i = (non_nbs g b).getD a 0 ∨ i = b) →
        ((g.nb i).map (fun j =>
          σ (Row.fe b ((hash_edges g).index (i * g.nr_nodes + j))) a
          - σ (Row.fe b ((hash_edges g).index (j * g.nr_nodes + i))) a)).sum = 0) ∧
      (∀ b, b < g.nr_nodes → ∀ a, a < alt_count g.nr_nodes (g.nb b) →
        ∀ j, j ∈ g.nb b → σ (Row.fe b ((hash_edges g).index (j * g.nr_nodes + b))) a ≤ 0) ∧
      (∀ b, b < g.nr_nodes → ∀ a, a < alt_count g.nr_nodes (g.nb b) →
        ∀ j, j < g.nr_nodes → ¬ j = b →
        ((g.nb j).map (fun i =>
          σ (Row.fe b ((hash_edges g).index (i * g.nr_nodes + j))) a)).sum ≤ X j b) := by
  simp only [build_mcf, hok, if_true, feasible_append, feasible_mcf_vars, feasible_flatMap,
    feasible_map, feasible_ite, feasible_cons, feasible_nil, and_true, List.mem_range,
    Op.holds, Sense.rel, eval_foldl_add_sub, eval_foldl_add, eval_ofConst, eval_ofVar,
    Var.val, Int.cast_zero, zero_add, and_assoc]

end McfForm

/-! ## Flows on a graph: sums over neighbour lists and the cut argument -/

section Cut

variable {K : Type} [LinearOrderedCommRing K]

open Finset in
theorem cut_sum_nonpos (T : Nat → Nat → K) (hT : ∀ i j, 0 ≤ T i j) (S U : Finset Nat)
    (hSU : S ⊆ U) (hcl : ∀ i ∈ S, ∀ j ∈ U, j ∉ S → T i j = 0) :
    ∑ i ∈ S, ∑ j ∈ U, (T i j - T j i) ≤ 0 := by
  have hsplit : ∀ i ∈ S, ∑ j ∈ U, (T i j - T j i)
      = ∑ j ∈ S, (T i j - T j i) + ∑ j ∈ U \ S, (T i j - T j i) := by
    intro i _
    rw [add_comm, Finset.sum_sdiff hSU]
  rw [Finset.sum_congr rfl hsplit, Finset.sum_add_distrib]
  have h1 : ∑ i ∈ S, ∑ j ∈ S, (T i j - T j i) = 0 := by
    simp only [Finset.sum_sub_distrib]
    rw [sub_eq_zero]
    exact Finset.sum_comm
  have h2 : ∑ i ∈ S, ∑ j ∈ U \ S, (T i j - T j i) ≤ 0 := by
    apply Finset.sum_nonpos
    intro i hi
    apply Finset.sum_nonpos
    intro j hj
    have hj2 := Finset.mem_sdiff.mp hj
    rw [hcl i hi j hj2.1 hj2.2]
    have := hT j i
    linarith
  rw [h1]
  linarith

/-- In a non-negative flow `T` on the nodes `0..n-1`, a node `b` with positive net outflow
reaches, along arcs of positive flow, every node `t` such that all other nodes it reaches have
non-negative net outflow. -/
theorem reach_of_net_out (T : Nat → Nat → K) (hT : ∀ i j, 0 ≤ T i j) (n b t : Nat)
    (hbn : b < n)
    (hb : 0 < ∑ j ∈ Finset.range n, (T b j - T j b))
    (hoth : ∀ i, i < n → Relation.ReflTransGen (fun u v => 0 < T u v) b i → i ≠ t →
      0 ≤ ∑ j ∈ Finset.range n, (T i j - T j i)) :
    Relation.ReflTransGen (fun u v => 0 < T u v) b t := by
  classical
  by_contra hnot
  let S : Finset Nat :=
    (Finset.range n).filter (fun v => Relation.ReflTransGen (fun u v => 0 < T u v) b v)
  have hbS : b ∈ S := Finset.mem_filter.mpr ⟨Finset.mem_range.mpr hbn, Relation.ReflTransGen.refl⟩
  have hcut : ∑ i ∈ S, ∑ j ∈ Finset.range n, (T i j - T j i) ≤ 0 := by
    apply cut_sum_nonpos T hT S (Finset.range n) (Finset.filter_subset _ _)
    intro i hi j hj hjS
    by_contra hne
    have hpos : 0 < T i j := lt_of_le_of_ne (hT i j) (Ne.symm hne)
    exact hjS (Finset.mem_filter.mpr ⟨hj, (Finset.mem_filter.mp hi).2.tail hpos⟩)
  have hge : ∑ j ∈ Finset.range n, (T b j - T j b)
      ≤ ∑ i ∈ S, ∑ j ∈ Finset.range n, (T i j - T j i) := by
    apply Finset.single_le_sum (f := fun i => ∑ j ∈ Finset.range n, (T i j - T j i)) _ hbS
    intro i hi
    have hi2 := Finset.mem_filter.mp hi
    apply hoth i (Finset.mem_range.mp hi2.1) hi2.2
    rintro rfl
    exact hnot hi2.2
  linarith

/-- Mirror image of `reach_of_net_out`: a node `t` with positive net inflow is reached, along
arcs of positive flow, from every node `c` such that all other nodes reaching `t` have
non-negative net inflow. -/
theorem reach_of_net_in (T : Nat → Nat → K) (hT : ∀ i j, 0 ≤ T i j) (n c t : Nat)
    (htn : t < n)
    (ht : 0 < ∑ j ∈ Finset.range n, (T j t - T t j))
    (hoth : ∀ i, i < n → Relation.ReflTransGen (fun u v => 0 < T u v) i t → i ≠ c →
      0 ≤ ∑ j ∈ Finset.range n, (T j i - T i j)) :
    Relation.ReflTransGen (fun u v => 0 < T u v) c t := by
  have h := reach_of_net_out (fun i j => T j i) (fun i j => hT j i) n t c htn ht
    (fun i hi hr hne => hoth i hi (Relation.ReflTransGen.swap hr) hne)
  exact Relation.ReflTransGen.swap h

end Cut

section Bridge

variable {K : Type} [LinearOrderedCommRing K]

theorem sum_nb_eq {g : graph} (hr : g.InRange) (hd : g.DupFree) {i : Nat}
    (hi : i < g.nr_nodes) (h H : Nat → K) (h1 : ∀ j ∈ g.nb i, h j = H j)
    (h2 : ∀ j, j < g.nr_nodes → j ∉ g.nb i → H j = 0) :
    ((g.nb i).map h).sum = ∑ j ∈ Finset.range g.nr_nodes, H j := by
  rw [List.map_congr_left h1, ← List.sum_toFinset H (hd i hi)]
  apply Finset.sum_subset
  · intro j hj
    exact Finset.mem_range.mpr (hr i hi j (List.mem_toFinset.mp hj))
  · intro j hj hj2
    exact h2 j (Finset.mem_range.mp hj) (by simpa using hj2)

theorem arc_flow_nonneg {g : graph} {φ : Nat → Nat → K}
    (h : ∀ i, i < g.nr_nodes → ∀ j ∈ g.nb i, 0 ≤ φ i j) (i j : Nat) : 0 ≤ arc_flow g φ i j := by
  unfold arc_flow
  split
  · next hc => exact h i hc.1 j hc.2
  · exact le_refl 0

theorem arc_flow_pos {g : graph} {φ : Nat → Nat → K} {i j : Nat} (h : 0 < arc_flow g φ i j) :
    i < g.nr_nodes ∧ j ∈ g.nb i ∧ 0 < φ i j := by
  unfold arc_flow at h
  split at h
  · next hc => exact ⟨hc.1, hc.2, h⟩
  · exact absurd h (lt_irrefl 0)

theorem arc_flow_arc {g : graph} (φ : Nat → Nat → K) {i j : Nat} (hi : i < g.nr_nodes)
    (hj : j ∈ g.nb i) : arc_flow g φ i j = φ i j := by
  simp [arc_flow, hi, hj]

theorem arc_flow_off {g : graph} (φ : Nat → Nat → K) {i j : Nat} (hj : j ∉ g.nb i) :
    arc_flow g φ i j = 0 := by
  simp [arc_flow, hj]

/-- Net outflow of node `i` as a sum over all nodes. -/
theorem sum_nb_net_out {g : graph} (hr : g.InRange) (hd : g.DupFree) (hsy : g.Symm)
    (φ Φ : Nat → Nat → K) (hφ : ∀ i, i < g.nr_nodes → ∀ j ∈ g.nb i, φ i j = Φ i j)
    (hΦ : ∀ i j, i < g.nr_nodes → j < g.nr_nodes → j ∉ g.nb i → Φ i j = 0)
    {i : Nat} (hi : i < g.nr_nodes) :
    ((g.nb i).map (fun j => φ i j - φ j i)).sum
      = ∑ j ∈ Finset.range g.nr_nodes, (Φ i j - Φ j i) := by
  apply sum_nb_eq hr hd hi
  · intro j hj
    rw [hφ i hi j hj, hφ j (hr i hi j hj) i (hsy i hi j hj)]
  · intro j hj hnj
    have hnj2 : i ∉ g.nb j := fun h => hnj (hsy j hj i h)
    rw [hΦ i j hi hj hnj, hΦ j i hj hi hnj2, sub_zero]

/-- Inflow of node `i` as a sum over all nodes. -/
theorem sum_nb_in {g : graph} (hr : g.InRange) (hd : g.DupFree) (hsy : g.Symm)
    (φ Φ : Nat → Nat → K) (hφ : ∀ i, i < g.nr_nodes → ∀ j ∈ g.nb i, φ i j = Φ i j)
    (hΦ : ∀ i j, i < g.nr_nodes → j < g.nr_nodes → j ∉ g.nb i → Φ i j = 0)
    {i : Nat} (hi : i < g.nr_nodes) :
    ((g.nb i).map (fun j => φ j i)).sum = ∑ j ∈ Finset.range g.nr_nodes, Φ j i := by
  apply sum_nb_eq hr hd hi
  · intro j hj
    rw [hφ j (hr i hi j hj) i (hsy i hi j hj)]
  · intro j hj hnj
    have hnj2 : i ∉ g.nb j := fun h => hnj (hsy j hj i h)
    exact hΦ j i hj hi hnj2

/-- Outflow of node `i` as a sum over all nodes. -/
theorem sum_nb_out {g : graph} (hr : g.InRange) (hd : g.DupFree)
    (φ Φ : Nat → Nat → K) (hφ : ∀ i, i < g.nr_nodes → ∀ j ∈ g.nb i, φ i j = Φ i j)
    (hΦ : ∀ i j, i < g.nr_nodes → j < g.nr_nodes → j ∉ g.nb i → Φ i j = 0)
    {i : Nat} (hi : i < g.nr_nodes) :
    ((g.nb i).map (fun j => φ i j)).sum = ∑ j ∈ Finset.range g.nr_nodes, Φ i j := by
  apply sum_nb_eq hr hd hi
  · intro j hj
    rw [hφ i hi j hj]
  · intro j hj hnj
    exact hΦ i j hi hj hnj

theorem on_arcs_index {g : graph} [Fact (g.nr_nodes ≤ 46340)]
    (hr : g.InRange) (hd : g.DupFree) (Φ : Nat → Nat → K)
    {i j : Nat} (hi : i < g.nr_nodes) (hj : j ∈ g.nb i) :
    on_arcs g Φ ((hash_edges g).index (i * g.nr_nodes + j)) = Φ i j := by
  have h := index_arc hr hd (mem_arcs.mpr (show (i, j).1 < g.nr_nodes ∧ (i, j).2 ∈ g.nb (i, j).1
    from ⟨hi, hj⟩))
  simp only [arc_key] at h
  simp [on_arcs, h]

theorem index_lt_nr {g : graph} [Fact (g.nr_nodes ≤ 46340)] (hr : g.InRange) (hd : g.DupFree)
    {i j : Nat} (hi : i < g.nr_nodes) (hj : j ∈ g.nb i) :
    (hash_edges g).index (i * g.nr_nodes + j) < nr_edges g :=
  index_lt hr hd (mem_arcs.mpr (show (i, j).1 < g.nr_nodes ∧ (i, j).2 ∈ g.nb (i, j).1
    from ⟨hi, hj⟩))

end Bridge

/-! ## Walks inside a district -/

theorem reach_lift {α : Type} {r s : α → α → Prop} {P : α → Prop} {a b : α}
    (h : Relation.ReflTransGen r a b) (ha : P a)
    (hstep : ∀ u v, P u → r u v → P v ∧ s u v) :
    Relation.ReflTransGen s a b ∧ P b := by
  induction h with
  | refl => exact ⟨Relation.ReflTransGen.refl, ha⟩
  | tail _ huv ih =>
    obtain ⟨h1, h2⟩ := hstep _ _ ih.2 huv
    exact ⟨ih.1.tail h2, h1⟩

theorem induced_connected_of_star {g : graph} (hsy : g.Symm) (S : Nat → Prop)
    (hS : ∀ i, S i → i < g.nr_nodes) (b : Nat)
    (h : ∀ t, S t → Relation.ReflTransGen (fun a c => S a ∧ S c ∧ c ∈ g.nb a) b t) :
    InducedConnected g S := by
  intro u v hu hv
  have hsymm : Symmetric (fun a c => S a ∧ S c ∧ c ∈ g.nb a) := by
    intro a c hac
    exact ⟨hac.2.1, hac.1, hsy a (hS a hac.1) c hac.2.2⟩
  exact (Relation.ReflTransGen.symmetric hsymm (h u hu)).trans (h v hv)

section Assign

variable {K : Type} [LinearOrderedCommRing K]

theorem assign_unique {n : Nat} {X : Nat → Nat → K} (hX : AssignInv n X) {i b c : Nat}
    (hi : i < n) (hb : b < n) (hc : c < n) (h1 : X i b = 1) (h2 : X i c = 1) : b = c := by
  obtain ⟨j, _, _, _, hu⟩ := hX.2 i hi
  rw [hu b hb h1, hu c hc h2]

theorem assign_center {n : Nat} {X : Nat → Nat → K} (hX : AssignInv n X) {i b : Nat}
    (hi : i < n) (hb : b < n) (h1 : X i b = 1) : X b b = 1 := by
  obtain ⟨j, _, _, hjj, hu⟩ := hX.2 i hi
  rw [hu b hb h1]
  exact hjj

theorem assign_pos {n : Nat} {X : Nat → Nat → K} (hX : AssignInv n X) {i b : Nat}
    (hi : i < n) (hb : b < n) (h : 0 < X i b) : X i b = 1 := by
  rcases hX.1 i hi b hb with h0 | h1
  · rw [h0] at h; exact absurd h (lt_irrefl 0)
  · exact h1

theorem assign_nonneg {n : Nat} {X : Nat → Nat → K} (hX : AssignInv n X) {i b : Nat}
    (hi : i < n) (hb : b < n) : 0 ≤ X i b := by
  rcases hX.1 i hi b hb with h0 | h1
  · rw [h0]
  · rw [h1]; exact zero_le_one

theorem assign_le_one {n : Nat} {X : Nat → Nat → K} (hX : AssignInv n X) {i b : Nat}
    (hi : i < n) (hb : b < n) : X i b ≤ 1 := by
  rcases hX.1 i hi b hb with h0 | h1
  · rw [h0]; exact zero_le_one
  · rw [h1]

end Assign

/-! ## Soundness of `build_mcf` -/

section McfSound

variable {K : Type} [LinearOrderedCommRing K]

theorem mcf_sound {g : graph} [Fact (g.nr_nodes ≤ 46340)]
    (hn : g.nr_nodes < 2 ^ 31) (hs : g.Simple) {X : Nat → Nat → K}
    (hX : AssignInv g.nr_nodes X) {σ : Row → Nat → K}
    (hf : Feasible (build_mcf g).ops X σ) : Contiguous g X := by
  obtain ⟨f0, fb, fc, fd, fe⟩ := (feasible_mcf_iff g (non_nbs_ok_simple hn hs) X σ).mp hf
  have hr := hs.inRange
  have hd := hs.dupFree
  have hsy := hs.symm
  intro b hb hbb
  apply induced_connected_of_star hsy _ (fun i hi => hi.1) b
  intro t ht
  by_cases htb : t = b
  · subst htb; exact Relation.ReflTransGen.refl
  by_cases hnb : t ∈ g.nb b
  · exact Relation.ReflTransGen.single ⟨⟨hb, hbb⟩, ht, hnb⟩
  -- `t` is a non-neighbour of `b`: use the flow of the pair `(b, t)`
  have htm : t ∈ non_nbs g b := mem_non_nbs.mpr ⟨ht.1, htb, hnb⟩
  obtain ⟨⟨a, ha⟩, hat⟩ := List.mem_iff_get.mp htm
  have hac : a < alt_count g.nr_nodes (g.nb b) := by
    rw [alt_count_simple hn hs hb]; exact ha
  have hgetD : (non_nbs g b).getD a 0 = t := by
    rw [List.getD_eq_getElem?_getD, List.getElem?_eq_getElem ha]
    simpa using hat
  let φ : Nat → Nat → K := fun i j => σ (Row.fe b ((hash_edges g).index (i * g.nr_nodes + j))) a
  have hφ0 : ∀ i, i < g.nr_nodes → ∀ j ∈ g.nb i, 0 ≤ φ i j :=
    fun i hi j hj => f0 b hb _ (index_lt_nr hr hd hi hj) a hac
  have hT := arc_flow_nonneg hφ0
  have hbr1 : ∀ i, i < g.nr_nodes → ∀ j ∈ g.nb i, φ i j = arc_flow g φ i j :=
    fun i hi j hj => (arc_flow_arc φ hi hj).symm
  have hbr2 : ∀ i j, i < g.nr_nodes → j < g.nr_nodes → j ∉ g.nb i → arc_flow g φ i j = 0 :=
    fun i j _ _ hj => arc_flow_off φ hj
  have hout : ∀ i, i < g.nr_nodes →
      ∑ j ∈ Finset.range g.nr_nodes, (arc_flow g φ i j - arc_flow g φ j i)
        = ((g.nb i).map (fun j => φ i j - φ j i)).sum :=
    fun i hi => (sum_nb_net_out hr hd hsy φ _ hbr1 hbr2 hi).symm
  have hreach : Relation.ReflTransGen (fun u v => 0 < arc_flow g φ u v) b t := by
    apply reach_of_net_out _ hT g.nr_nodes b t hb
    · rw [hout b hb, fb b hb a hac, hgetD, ht.2]; exact zero_lt_one
    · intro i hi _ hit
      rw [hout i hi]
      by_cases hib : i = b
      · subst hib; rw [fb i hb a hac, hgetD, ht.2]; exact zero_le_one
      · rw [fc b hb a hac i hi (by rw [hgetD]; tauto)]
  refine (reach_lift hreach (P := fun i => i < g.nr_nodes ∧ X i b = 1) ⟨hb, hbb⟩ ?_).1
  intro u v hu huv
  obtain ⟨hun, hvu, hpos⟩ := arc_flow_pos huv
  have hvn : v < g.nr_nodes := hr u hun v hvu
  have huv2 : u ∈ g.nb v := hsy u hun v hvu
  have hvb : v ≠ b := by
    rintro rfl
    have := fd v hb a hac u huv2
    exact absurd hpos (not_lt.mpr this)
  have hinf : ((g.nb v).map (fun i => φ i v)).sum
      = ∑ i ∈ Finset.range g.nr_nodes, arc_flow g φ i v :=
    sum_nb_in hr hd hsy φ _ hbr1 hbr2 hvn
  have hle : arc_flow g φ u v ≤ ∑ i ∈ Finset.range g.nr_nodes, arc_flow g φ i v :=
    Finset.single_le_sum (f := fun i => arc_flow g φ i v) (fun i _ => hT i v)
      (Finset.mem_range.mpr hun)
  have hXv : 0 < X v b := by
    have := fe b hb a hac v hvn hvb
    rw [hinf] at this
    exact lt_of_lt_of_le (lt_of_lt_of_le huv hle) this
  have hv : v < g.nr_nodes ∧ X v b = 1 := ⟨hvn, assign_pos hX hvn hb hXv⟩
  exact ⟨hv, hu, hv, hvu⟩

end McfSound

/-! ## A spanning forest of the districts -/

section Forest

variable {K : Type} [LinearOrderedCommRing K]

theorem exists_layer {g : graph} {X : Nat → Nat → K} (hX : AssignInv g.nr_nodes X)
    (hc : Contiguous g X) {t : Nat} (ht : t < g.nr_nodes) : ∃ k, layer g X k t := by
  obtain ⟨b, hb, htb, hbb, _⟩ := hX.2 t ht
  have key : ∀ v, Relation.ReflTransGen (fun a c => (a < g.nr_nodes ∧ X a b = 1) ∧
      (c < g.nr_nodes ∧ X c b = 1) ∧ c ∈ g.nb a) b v → ∃ k, layer g X k v := by
    intro v hv
    induction hv with
    | refl => exact ⟨0, hb, hbb⟩
    | tail _ huv ih =>
      obtain ⟨k, hk⟩ := ih
      exact ⟨k + 1, _, hk, huv.1.1, huv.2.1.1, huv.2.2, b, hb, huv.1.2, huv.2.1.2⟩
  exact key t (hc b hb hbb b t ⟨hb, hbb⟩ ⟨ht, htb⟩)

theorem exists_forest {g : graph} {X : Nat → Nat → K} (hX : AssignInv g.nr_nodes X)
    (hc : Contiguous g X) : ∃ π d : Nat → Nat, IsForest g X π d := by
  classical
  let d : Nat → Nat := fun t => if h : ∃ k, layer g X k t then Nat.find h else 0
  have hd : ∀ t, (h : ∃ k, layer g X k t) → d t = Nat.find h := fun t h => dif_pos h
  have hdle : ∀ k t, layer g X k t → d t ≤ k := by
    intro k t hk
    rw [hd t ⟨k, hk⟩]
    exact Nat.find_min' _ hk
  have hdspec : ∀ t, t < g.nr_nodes → layer g X (d t) t := by
    intro t ht
    rw [hd t (exists_layer hX hc ht)]
    exact Nat.find_spec (exists_layer hX hc ht)
  have hpar : ∀ t, ∃ u, t < g.nr_nodes → X t t ≠ 1 →
      u < g.nr_nodes ∧ t ∈ g.nb u ∧ d t = d u + 1 ∧
        ∀ b, b < g.nr_nodes → X t b = 1 → X u b = 1 := by
    intro t
    by_cases ht : t < g.nr_nodes
    swap
    · exact ⟨0, fun h => absurd h ht⟩
    by_cases htt : X t t = 1
    · exact ⟨0, fun _ h => absurd htt h⟩
    have hsp := hdspec t ht
    cases hk : d t with
    | zero =>
      rw [hk] at hsp
      exact absurd hsp.2 htt
    | succ m =>
      rw [hk] at hsp
      obtain ⟨u, hu, hun, _, hnb, b, hb, hub, htb⟩ := hsp
      refine ⟨u, fun _ _ => ⟨hun, hnb, ?_, ?_⟩⟩
      · have h1 : d u ≤ m := hdle m u hu
        have h2 : d t ≤ d u + 1 :=
          hdle (d u + 1) t ⟨u, hdspec u hun, hun, ht, hnb, b, hb, hub, htb⟩
        omega
      · intro b2 hb2 htb2
        rw [assign_unique hX ht hb2 hb htb2 htb]
        exact hub
  choose π hπ using hpar
  refine ⟨π, d, fun t ht => ⟨fun htt => ?_, fun htt => hπ t ht htt⟩⟩
  exact Nat.le_zero.mp (hdle 0 t ⟨ht, htt⟩)

end Forest

/-! ## The unit flow down a tree path -/

section TreeFlow

variable {K : Type} [LinearOrderedCommRing K]

theorem tree_flow_nonneg (π : Nat → Nat) :
    ∀ k t i j, (0 : K) ≤ tree_flow π k t i j := by
  intro k
  induction k with
  | zero => intro t i j; simp [tree_flow]
  | succ k ih =>
    intro t i j
    simp only [tree_flow]
    apply add_nonneg (ih _ _ _)
    split
    · exact zero_le_one
    · exact le_refl 0

theorem forest_not_center {g : graph} {X : Nat → Nat → K} {π d : Nat → Nat}
    (hF : IsForest g X π d) {t k : Nat} (ht : t < g.nr_nodes) (h : d t = k + 1) : X t t ≠ 1 := by
  intro htt
  have := (hF t ht).1 htt
  omega

theorem tree_flow_support {g : graph} {X : Nat → Nat → K} {π d : Nat → Nat}
    (hF : IsForest g X π d) :
    ∀ k t, t < g.nr_nodes → d t = k → ∀ i j, tree_flow π k t i j ≠ (0 : K) →
      j < g.nr_nodes ∧ X j j ≠ 1 ∧ i = π j ∧ d j ≤ d t ∧
        ∀ b, b < g.nr_nodes → X t b = 1 → X j b = 1 := by
  intro k
  induction k with
  | zero => intro t _ _ i j h; exact absurd rfl h
  | succ k ih =>
    intro t ht hdt i j hne
    have htt := forest_not_center hF ht hdt
    obtain ⟨hπn, _, hdp, hsame⟩ := (hF t ht).2 htt
    simp only [tree_flow] at hne
    by_cases hcase : i = π t ∧ j = t
    · obtain ⟨rfl, rfl⟩ := hcase
      exact ⟨ht, htt, rfl, le_refl _, fun _ _ h => h⟩
    · rw [if_neg hcase, add_zero] at hne
      obtain ⟨h1, h2, h3, h4, h5⟩ := ih (π t) hπn (by omega) i j hne
      exact ⟨h1, h2, h3, by omega, fun b hb htb => h5 b hb (hsame b hb htb)⟩

theorem tree_flow_le_one {g : graph} {X : Nat → Nat → K} {π d : Nat → Nat}
    (hF : IsForest g X π d) :
    ∀ k t, t < g.nr_nodes → d t = k → ∀ i j, tree_flow π k t i j ≤ (1 : K) := by
  intro k
  induction k with
  | zero => intro t _ _ i j; simp [tree_flow]
  | succ k ih =>
    intro t ht hdt i j
    have htt := forest_not_center hF ht hdt
    obtain ⟨hπn, _, hdp, _⟩ := (hF t ht).2 htt
    simp only [tree_flow]
    by_cases hcase : i = π t ∧ j = t
    · have h0 : tree_flow π k (π t) i j = (0 : K) := by
        by_contra hne
        have := (tree_flow_support hF k (π t) hπn (by omega) i j hne).2.2.2.1
        rw [hcase.2] at this
        omega
      rw [h0, if_pos hcase, zero_add]
    · rw [if_neg hcase, add_zero]
      exact ih (π t) hπn (by omega) i j

theorem tree_flow_net {g : graph} {X : Nat → Nat → K} {π d : Nat → Nat}
    (hX : AssignInv g.nr_nodes X) (hF : IsForest g X π d) :
    ∀ k t, t < g.nr_nodes → d t = k → ∀ b, b < g.nr_nodes → X t b = 1 → ∀ i,
      ∑ j ∈ Finset.range g.nr_nodes, (tree_flow π k t j i - tree_flow π k t i j)
        = ((if i = t then 1 else 0) - (if i = b then 1 else 0) : K) := by
  intro k
  induction k with
  | zero =>
    intro t ht hdt b hb htb i
    have htt : X t t = 1 := by
      by_contra htt
      have := ((hF t ht).2 htt).2.2.1
      omega
    have hbt : b = t := assign_unique hX ht hb ht htb htt
    simp [tree_flow, hbt]
  | succ k ih =>
    intro t ht hdt b hb htb i
    have htt := forest_not_center hF ht hdt
    obtain ⟨hπn, _, hdp, hsame⟩ := (hF t ht).2 htt
    have hIH := ih (π t) hπn (by omega) b hb (hsame b hb htb) i
    have e1 : ∑ j ∈ Finset.range g.nr_nodes, (if j = π t ∧ i = t then (1 : K) else 0)
        = if i = t then 1 else 0 := by
      by_cases hit : i = t
      · simp [hit, hπn]
      · simp [hit]
    have e2 : ∑ j ∈ Finset.range g.nr_nodes, (if i = π t ∧ j = t then (1 : K) else 0)
        = if i = π t then 1 else 0 := by
      by_cases hit : i = π t
      · simp [hit, ht]
      · simp [hit]
    have e3 : ∀ j, (tree_flow π (k + 1) t j i - tree_flow π (k + 1) t i j : K)
        = (tree_flow π k (π t) j i - tree_flow π k (π t) i j)
          + ((if j = π t ∧ i = t then 1 else 0) - (if i = π t ∧ j = t then 1 else 0)) := by
      intro j
      simp only [tree_flow]
      ring
    simp only [e3, Finset.sum_add_distrib, Finset.sum_sub_distrib, hIH, e1, e2]
    ring

theorem tree_flow_last {g : graph} {X : Nat → Nat → K} {π d : Nat → Nat}
    (hF : IsForest g X π d) {t : Nat} (ht : t < g.nr_nodes) (htt : X t t ≠ 1) :
    tree_flow π (d t) t (π t) t = (1 : K) := by
  obtain ⟨hπn, _, hdp, _⟩ := (hF t ht).2 htt
  rw [hdp]
  simp only [tree_flow, and_self, if_true]
  have h0 : tree_flow π (d (π t)) (π t) (π t) t = (0 : K) := by
    by_contra hne
    have := (tree_flow_support hF _ (π t) hπn rfl _ _ hne).2.2.2.1
    omega
  rw [h0, zero_add]

theorem tree_flow_in_le {g : graph} {X : Nat → Nat → K} {π d : Nat → Nat}
    (hF : IsForest g X π d) {k t : Nat} (ht : t < g.nr_nodes) (hdt : d t = k) (j : Nat) :
    ∑ i ∈ Finset.range g.nr_nodes, tree_flow π k t i j ≤ (1 : K) := by
  have e : ∀ i ∈ Finset.range g.nr_nodes,
      (tree_flow π k t i j : K) = if i = π j then tree_flow π k t (π j) j else 0 := by
    intro i _
    by_cases h : i = π j
    · rw [if_pos h, h]
    · rw [if_neg h]
      by_contra hne
      exact h (tree_flow_support hF k t ht hdt i j hne).2.2.1
  rw [Finset.sum_congr rfl e, Finset.sum_ite_eq']
  split
  · exact tree_flow_le_one hF k t ht hdt _ _
  · exact zero_le_one

end TreeFlow

section TreeFlow2

variable {K : Type} [LinearOrderedCommRing K]

theorem tree_flow_off {g : graph} {X : Nat → Nat → K} {π d : Nat → Nat}
    (hF : IsForest g X π d) {k t : Nat} (ht : t < g.nr_nodes) (hdt : d t = k) {i j : Nat}
    (hj : j ∉ g.nb i) : tree_flow π k t i j = (0 : K) := by
  by_contra hne
  obtain ⟨hjn, hjj, hi, _, _⟩ := tree_flow_support hF k t ht hdt i j hne
  rw [hi] at hj
  exact hj ((hF j hjn).2 hjj).2.1

theorem tree_flow_net_out {g : graph} {X : Nat → Nat → K} {π d : Nat → Nat}
    (hX : AssignInv g.nr_nodes X) (hF : IsForest g X π d) {k t : Nat} (ht : t < g.nr_nodes)
    (hdt : d t = k) {b : Nat} (hb : b < g.nr_nodes) (htb : X t b = 1) (i : Nat) :
    ∑ j ∈ Finset.range g.nr_nodes, (tree_flow π k t i j - tree_flow π k t j i)
      = ((if i = b then 1 else 0) - (if i = t then 1 else 0) : K) := by
  have h := tree_flow_net hX hF k t ht hdt b hb htb i
  have e : ∀ j, (tree_flow π k t i j - tree_flow π k t j i : K)
      = - (tree_flow π k t j i - tree_flow π k t i j) := fun j => by ring
  simp only [e, Finset.sum_neg_distrib, h]
  ring

theorem tree_flow_into_center {g : graph} {X : Nat → Nat → K} {π d : Nat → Nat}
    (hF : IsForest g X π d) {k t : Nat} (ht : t < g.nr_nodes) (hdt : d t = k) {i c : Nat}
    (hc : X c c = 1) : tree_flow π k t i c = (0 : K) := by
  by_contra hne
  exact (tree_flow_support hF k t ht hdt i c hne).2.1 hc

theorem tree_flow_same {g : graph} {X : Nat → Nat → K} {π d : Nat → Nat}
    (hF : IsForest g X π d) {k t : Nat} (ht : t < g.nr_nodes) (hdt : d t = k) {b : Nat}
    (hb : b < g.nr_nodes) (htb : X t b = 1) {i j : Nat} (hj : X j b ≠ 1) :
    tree_flow π k t i j = (0 : K) := by
  by_contra hne
  exact hj ((tree_flow_support hF k t ht hdt i j hne).2.2.2.2 b hb htb)

theorem on_arcs_nonneg (g : graph) {Φ : Nat → Nat → K} (h : ∀ i j, 0 ≤ Φ i j) (e : Nat) :
    0 ≤ on_arcs g Φ e := by
  unfold on_arcs
  split
  · exact h _ _
  · exact le_refl 0

end TreeFlow2

/-! ## Completeness of `build_mcf` -/

section McfComplete

variable {K : Type} [LinearOrderedCommRing K]

theorem mcf_complete {g : graph} [Fact (g.nr_nodes ≤ 46340)]
    (hn : g.nr_nodes < 2 ^ 31) (hs : g.Simple)
    {X : Nat → Nat → K} (hX : AssignInv g.nr_nodes X) (hc : Contiguous g X) :
    ∃ σ : Row → Nat → K, Feasible (build_mcf g).ops X σ := by
  classical
  obtain ⟨π, d, hF⟩ := exists_forest hX hc
  have hr := hs.inRange
  have hd := hs.dupFree
  have hsy := hs.symm
  let tgt : Nat → Nat → Nat := fun b a => (non_nbs g b).getD a 0
  let Φ : Nat → Nat → Nat → Nat → K := fun b a i j =>
    if X (tgt b a) b = 1 then tree_flow π (d (tgt b a)) (tgt b a) i j else 0
  let σ : Row → Nat → K := fun r a =>
    match r with
    | Row.fe b e => on_arcs g (Φ b a) e
    | _ => 0
  have hΦ0 : ∀ b a i j, 0 ≤ Φ b a i j := by
    intro b a i j
    simp only [Φ]
    split
    · exact tree_flow_nonneg _ _ _ _ _
    · exact le_refl 0
  have htgt : ∀ b, b < g.nr_nodes → ∀ a, a < alt_count g.nr_nodes (g.nb b) →
      tgt b a < g.nr_nodes ∧ tgt b a ≠ b := by
    intro b hb a ha
    rw [alt_count_simple hn hs hb] at ha
    have hm : tgt b a ∈ non_nbs g b := by
      simp only [tgt]
      rw [List.getD_eq_getElem?_getD, List.getElem?_eq_getElem ha]
      exact List.getElem_mem _
    have := mem_non_nbs.mp hm
    exact ⟨this.1, this.2.1⟩
  have hσ : ∀ b a i, i < g.nr_nodes → ∀ j ∈ g.nb i,
      σ (Row.fe b ((hash_edges g).index (i * g.nr_nodes + j))) a = Φ b a i j :=
    fun b a i hi j hj => on_arcs_index hr hd (Φ b a) hi hj
  have hoff : ∀ b, b < g.nr_nodes → ∀ a, a < alt_count g.nr_nodes (g.nb b) →
      ∀ i j, i < g.nr_nodes → j < g.nr_nodes → j ∉ g.nb i → Φ b a i j = 0 := by
    intro b hb a ha i j _ _ hj
    simp only [Φ]
    split
    · exact tree_flow_off hF (htgt b hb a ha).1 rfl hj
    · rfl
  rw [show (∃ σ : Row → Nat → K, Feasible (build_mcf g).ops X σ) ↔
    ∃ σ : Row → Nat → K, _ from
      exists_congr (fun σ => feasible_mcf_iff g (non_nbs_ok_simple hn hs) X σ)]
  refine ⟨σ, ?_, ?_, ?_, ?_, ?_⟩
  · intro b _ e _ a _
    exact on_arcs_nonneg g (hΦ0 b a) e
  · intro b hb a ha
    obtain ⟨htn, htb⟩ := htgt b hb a ha
    rw [sum_nb_net_out hr hd hsy _ (Φ b a) (hσ b a) (hoff b hb a ha) hb]
    by_cases h1 : X (tgt b a) b = 1
    · simp only [Φ, if_pos h1]
      rw [tree_flow_net_out hX hF htn rfl hb h1 b, h1]
      simp [Ne.symm htb]
    · simp only [Φ, if_neg h1]
      rcases hX.1 _ htn b hb with h0 | h0
      · simp only [Finset.sum_const_zero, sub_self]
        exact h0.symm
      · exact absurd h0 h1
  · intro b hb a ha i hi hne
    obtain ⟨htn, _⟩ := htgt b hb a ha
    rw [sum_nb_net_out hr hd hsy _ (Φ b a) (hσ b a) (hoff b hb a ha) hi]
    by_cases h1 : X (tgt b a) b = 1
    · simp only [Φ, if_pos h1]
      rw [tree_flow_net_out hX hF htn rfl hb h1 i]
      have h2 : i ≠ tgt b a := fun h => hne (Or.inl h)
      have h3 : i ≠ b := fun h => hne (Or.inr h)
      simp [h2, h3]
    · simp [Φ, if_neg h1]
  · intro b hb a ha j hj
    obtain ⟨htn, _⟩ := htgt b hb a ha
    have hjn : j < g.nr_nodes := hr b hb j hj
    rw [hσ b a j hjn b (hsy b hb j hj)]
    by_cases h1 : X (tgt b a) b = 1
    · simp only [Φ, if_pos h1]
      rw [tree_flow_into_center hF htn rfl (assign_center hX htn hb h1)]
    · simp [Φ, if_neg h1]
  · intro b hb a ha j hj _
    obtain ⟨htn, _⟩ := htgt b hb a ha
    rw [sum_nb_in hr hd hsy _ (Φ b a) (hσ b a) (hoff b hb a ha) hj]
    by_cases h1 : X (tgt b a) b = 1
    · simp only [Φ, if_pos h1]
      by_cases h2 : X j b = 1
      · rw [h2]
        exact tree_flow_in_le hF htn rfl j
      · have : ∀ i ∈ Finset.range g.nr_nodes,
            (tree_flow π (d (tgt b a)) (tgt b a) i j : K) = 0 :=
          fun i _ => tree_flow_same hF htn rfl hb h1 h2
        rw [Finset.sum_congr rfl this, Finset.sum_const_zero]
        exact assign_nonneg hX hj hb
    · simp only [Φ, if_neg h1, Finset.sum_const_zero]
      exact assign_nonneg hX hj hb

end McfComplete

/-! ## The two scenarios on the path graph -/

section Scenario

variable {K : Type} [LinearOrderedCommRing K]

theorem X_good_inv : AssignInv path4.nr_nodes (X_good : Nat → Nat → K) := by
  constructor
  · intro i _ j _
    unfold X_good
    split
    · exact Or.inr rfl
    · exact Or.inl rfl
  · intro i hi
    have hi4 : i < 4 := hi
    have key : ∀ (c : Nat), c < 4 → (X_good i c : K) = 1 → (X_good c c : K) = 1 →
        (∀ j2, j2 < 4 → (X_good i j2 : K) = 1 → j2 = c) →
        ∃ j, j < path4.nr_nodes ∧ (X_good i j : K) = 1 ∧ (X_good j j : K) = 1 ∧
          ∀ j2, j2 < path4.nr_nodes → (X_good i j2 : K) = 1 → j2 = j :=
      fun c hc h1 h2 h3 => ⟨c, hc, h1, h2, h3⟩
    interval_cases i
    · refine key 0 (by norm_num) (by simp [X_good]) (by simp [X_good]) ?_
      intro j2 hj2; interval_cases j2 <;> simp [X_good]
    · refine key 0 (by norm_num) (by simp [X_good]) (by simp [X_good]) ?_
      intro j2 hj2; interval_cases j2 <;> simp [X_good]
    · refine key 3 (by norm_num) (by simp [X_good]) (by simp [X_good]) ?_
      intro j2 hj2; interval_cases j2 <;> simp [X_good]
    · refine key 3 (by norm_num) (by simp [X_good]) (by simp [X_good]) ?_
      intro j2 hj2; interval_cases j2 <;> simp [X_good]

theorem X_good_contiguous : Contiguous path4 (X_good : Nat → Nat → K) := by
  intro b hb hbb
  apply induced_connected_of_star path4_simple.symm _ (fun i hi => hi.1) b
  intro t ht
  obtain ⟨htn, htb⟩ := ht
  have hb4 : b < 4 := hb
  have ht4 : t < 4 := htn
  interval_cases b
  · interval_cases t
    · exact Relation.ReflTransGen.refl
    · exact Relation.ReflTransGen.single ⟨⟨hb, hbb⟩, ⟨htn, htb⟩, by decide⟩
    · simp [X_good] at htb
    · simp [X_good] at htb
  · simp [X_good] at hbb
  · simp [X_good] at hbb
  · interval_cases t
    · simp [X_good] at htb
    · simp [X_good] at htb
    · exact Relation.ReflTransGen.single ⟨⟨hb, hbb⟩, ⟨htn, htb⟩, by decide⟩
    · exact Relation.ReflTransGen.refl

end Scenario

/-! ## C1: soundness and completeness of `build_mcf` -/

/-- C1 as amended. For a symmetric simple graph with at most 46340 nodes (so that the `int` key
`i*n + j` does not overflow) and a 0/1 assignment matrix `X` in
which every node has exactly one center, `build_mcf` raises no error, and the system it emits
(non-negative flow variables, the upper bounds it sets, and its constraints) has a feasible
setting of the flow variables if and only if the nodes assigned to each center induce a
connected subgraph. -/
theorem build_mcf_sound_complete {K : Type} [LinearOrderedCommRing K] (g : graph)
    (hnodes : g.nr_nodes ≤ 46340) (hs : g.Simple) (X : Nat → Nat → K)
    (hX : AssignInv g.nr_nodes X) :
    (build_mcf g).error = none ∧
      ((∃ σ : Row → Nat → K, Feasible (build_mcf g).ops X σ) ↔ Contiguous g X) := by
  haveI : Fact (g.nr_nodes ≤ 46340) := ⟨hnodes⟩
  have hn : g.nr_nodes < 2 ^ 31 := lt_of_le_of_lt hnodes (by norm_num)
  refine ⟨?_, ?_, fun hc => mcf_complete hn hs hX hc⟩
  · simp [build_mcf, non_nbs_ok_simple hn hs]
  · rintro ⟨σ, hσ⟩
    exact mcf_sound hn hs hX hσ

/-- Witness of C1 on the path graph `0 - 1 - 2 - 3` with districts `{0, 1}` and `{2, 3}`, over
the rationals. -/
theorem build_mcf_sound_complete_witness :
    path4.nr_nodes ≤ 46340 ∧ path4.Simple ∧
    AssignInv path4.nr_nodes (X_good : Nat → Nat → ℚ) ∧
    ((∃ σ : Row → Nat → ℚ, Feasible (build_mcf path4).ops X_good σ) ↔
      Contiguous path4 (X_good : Nat → Nat → ℚ)) :=
  ⟨by decide, path4_simple, X_good_inv,
    (build_mcf_sound_complete path4 (by decide) path4_simple X_good X_good_inv).2⟩

/-! ## The system emitted by `build_shir` -/

section ShirForm

variable {K : Type} [LinearOrderedCommRing K]

theorem index_comm (g : graph) (i j : Nat) :
    (hash_edges g).index (g.nr_nodes * i + j) = (hash_edges g).index (i * g.nr_nodes + j) := by
  rw [Nat.mul_comm]

theorem feasible_shir_iff (g : graph) (F0 : Nat → Nat → Bool) (X : Nat → Nat → K)
    (σ : Row → Nat → K) :
    Feasible (build_shir g F0) X σ ↔
      (∀ v, v < (shir_centers g F0).length →
        ∀ e, e < nr_edges g → 0 ≤ σ (Row.f v) e) ∧
      (∀ v, v < (shir_centers g F0).length →
        ∀ i, i < g.nr_nodes →
        ¬ i = (shir_centers g F0).getD v 0 →
        ((g.nb i).map (fun nb_i =>
          σ (Row.f v) ((hash_edges g).index (nb_i * g.nr_nodes + i))
          - σ (Row.f v) ((hash_edges g).index (i * g.nr_nodes + nb_i)))).sum
        = X i ((shir_centers g F0).getD v 0)) ∧
      (∀ v, v < (shir_centers g F0).length →
        ∀ i, i < g.nr_nodes →
        ¬ i = (shir_centers g F0).getD v 0 →
        ((g.nb i).map (fun nb_i =>
          σ (Row.f v) ((hash_edges g).index (nb_i * g.nr_nodes + i)))).sum
        ≤ ((g.nr_nodes : K) - 1)
          * X i ((shir_centers g F0).getD v 0)) ∧
      (∀ v, v < (shir_centers g F0).length →
        ∀ i, i ∈ g.nb ((shir_centers g F0).getD v 0) →
        σ (Row.f v) ((hash_edges g).index
          (i * g.nr_nodes + (shir_centers g F0).getD v 0))
          ≤ 0) := by
  simp only [build_shir, feasible_append, feasible_flatMap,
    feasible_map, feasible_ite, feasible_cons, feasible_nil, and_true, List.mem_range,
    Op.holds, Sense.rel, eval_foldl_add_sub, eval_foldl_add, eval_ofConst, eval_ofVar,
    eval_ofTerm, Var.val, Int.cast_zero, zero_add, and_assoc, index_comm, Int.cast_sub,
    Int.cast_natCast, Int.cast_one]
  simp

end ShirForm

section ShirSound

variable {K : Type} [LinearOrderedCommRing K]

/-- Net inflow of node `i` as a sum over all nodes. -/
theorem sum_nb_net_in {g : graph} (hr : g.InRange) (hd : g.DupFree) (hsy : g.Symm)
    (φ Φ : Nat → Nat → K) (hφ : ∀ i, i < g.nr_nodes → ∀ j ∈ g.nb i, φ i j = Φ i j)
    (hΦ : ∀ i j, i < g.nr_nodes → j < g.nr_nodes → j ∉ g.nb i → Φ i j = 0)
    {i : Nat} (hi : i < g.nr_nodes) :
    ((g.nb i).map (fun j => φ j i - φ i j)).sum
      = ∑ j ∈ Finset.range g.nr_nodes, (Φ j i - Φ i j) := by
  apply sum_nb_eq hr hd hi
  · intro j hj
    rw [hφ i hi j hj, hφ j (hr i hi j hj) i (hsy i hi j hj)]
  · intro j hj hnj
    have hnj2 : i ∉ g.nb j := fun h => hnj (hsy j hj i h)
    rw [hΦ i j hi hj hnj, hΦ j i hj hi hnj2, sub_zero]

theorem mem_shir_centers {g : graph} {F0 : Nat → Nat → Bool} {c : Nat} :
    c ∈ shir_centers g F0 ↔ c < g.nr_nodes ∧ F0 c c = false := by
  simp [shir_centers, List.mem_filter]

theorem shir_centers_getD {g : graph} {F0 : Nat → Nat → Bool} {v : Nat}
    (hv : v < (shir_centers g F0).length) :
    (shir_centers g F0).getD v 0 ∈ shir_centers g F0 := by
  rw [List.getD_eq_getElem?_getD, List.getElem?_eq_getElem hv]
  exact List.getElem_mem _

theorem shir_centers_index {g : graph} {F0 : Nat → Nat → Bool} {c : Nat}
    (hc : c ∈ shir_centers g F0) :
    ∃ v, v < (shir_centers g F0).length ∧ (shir_centers g F0).getD v 0 = c := by
  obtain ⟨⟨v, hv⟩, hget⟩ := List.mem_iff_get.mp hc
  refine ⟨v, hv, ?_⟩
  rw [List.getD_eq_getElem?_getD, List.getElem?_eq_getElem hv]
  simpa using hget

theorem shir_sound {g : graph} [Fact (g.nr_nodes ≤ 46340)] (hs : g.Simple) {X : Nat → Nat → K}
    (hX : AssignInv g.nr_nodes X) {F0 : Nat → Nat → Bool}
    (hF0 : ∀ j, j < g.nr_nodes → X j j = 1 → F0 j j = false) {σ : Row → Nat → K}
    (hf : Feasible (build_shir g F0) X σ) : Contiguous g X := by
  obtain ⟨f0, fb, fc, fd⟩ := (feasible_shir_iff g F0 X σ).mp hf
  have hr := hs.inRange
  have hd := hs.dupFree
  have hsy := hs.symm
  intro b hb hbb
  obtain ⟨v, hv, hvb⟩ := shir_centers_index (mem_shir_centers.mpr ⟨hb, hF0 b hb hbb⟩)
  have f0 := f0 v hv
  have fb := fb v hv
  have fc := fc v hv
  have fd := fd v hv
  rw [hvb] at fb fc fd
  apply induced_connected_of_star hsy _ (fun i hi => hi.1) b
  intro t ht
  by_cases htb : t = b
  · subst htb; exact Relation.ReflTransGen.refl
  let φ : Nat → Nat → K := fun i j => σ (Row.f v) ((hash_edges g).index (i * g.nr_nodes + j))
  have hφ0 : ∀ i, i < g.nr_nodes → ∀ j ∈ g.nb i, 0 ≤ φ i j :=
    fun i hi j hj => f0 _ (index_lt_nr hr hd hi hj)
  have hT := arc_flow_nonneg hφ0
  have hbr1 : ∀ i, i < g.nr_nodes → ∀ j ∈ g.nb i, φ i j = arc_flow g φ i j :=
    fun i hi j hj => (arc_flow_arc φ hi hj).symm
  have hbr2 : ∀ i j, i < g.nr_nodes → j < g.nr_nodes → j ∉ g.nb i → arc_flow g φ i j = 0 :=
    fun i j _ _ hj => arc_flow_off φ hj
  have hnet : ∀ i, i < g.nr_nodes →
      ∑ j ∈ Finset.range g.nr_nodes, (arc_flow g φ j i - arc_flow g φ i j)
        = ((g.nb i).map (fun j => φ j i - φ i j)).sum :=
    fun i hi => (sum_nb_net_in hr hd hsy φ _ hbr1 hbr2 hi).symm
  have hreach : Relation.ReflTransGen (fun u w => 0 < arc_flow g φ u w) b t := by
    apply reach_of_net_in _ hT g.nr_nodes b t ht.1
    · rw [hnet t ht.1, fb t ht.1 htb, ht.2]; exact zero_lt_one
    · intro i hi _ hib
      rw [hnet i hi, fb i hi hib]
      exact assign_nonneg hX hi hb
  refine (reach_lift hreach (P := fun i => i < g.nr_nodes ∧ X i b = 1) ⟨hb, hbb⟩ ?_).1
  intro u w hu huw
  obtain ⟨hun, hwu, hpos⟩ := arc_flow_pos huw
  have hwn : w < g.nr_nodes := hr u hun w hwu
  have huw2 : u ∈ g.nb w := hsy u hun w hwu
  have hwb : w ≠ b := by
    rintro rfl
    have := fd u huw2
    exact absurd hpos (not_lt.mpr this)
  have hinf : ((g.nb w).map (fun i => φ i w)).sum
      = ∑ i ∈ Finset.range g.nr_nodes, arc_flow g φ i w :=
    sum_nb_in hr hd hsy φ _ hbr1 hbr2 hwn
  have hle : arc_flow g φ u w ≤ ∑ i ∈ Finset.range g.nr_nodes, arc_flow g φ i w :=
    Finset.single_le_sum (f := fun i => arc_flow g φ i w) (fun i _ => hT i w)
      (Finset.mem_range.mpr hun)
  have hcap := fc w hwn hwb
  rw [hinf] at hcap
  have hXw : X w b = 1 := by
    rcases hX.1 w hwn b hb with h0 | h1
    · rw [h0, mul_zero] at hcap
      exact absurd (lt_of_lt_of_le (lt_of_lt_of_le huw hle) hcap) (lt_irrefl 0)
    · exact h1
  exact ⟨⟨hwn, hXw⟩, hu, ⟨hwn, hXw⟩, hwu⟩

end ShirSound

section ShirComplete

variable {K : Type} [LinearOrderedCommRing K]

theorem sum_range_ne_one (n c : Nat) (hc : c < n) :
    ∑ t ∈ Finset.range n, (if t ≠ c then (1 : K) else 0) = (n : K) - 1 := by
  have e : ∀ t ∈ Finset.range n, (if t ≠ c then (1 : K) else 0)
      = 1 - (if t = c then 1 else 0) := by
    intro t _
    by_cases h : t = c <;> simp [h]
  rw [Finset.sum_congr rfl e, Finset.sum_sub_distrib, Finset.sum_ite_eq']
  simp [hc]

theorem shir_complete {g : graph} [Fact (g.nr_nodes ≤ 46340)] (hs : g.Simple) {X : Nat → Nat → K}
    (hX : AssignInv g.nr_nodes X) (hc : Contiguous g X) (F0 : Nat → Nat → Bool) :
    ∃ σ : Row → Nat → K, Feasible (build_shir g F0) X σ := by
  classical
  obtain ⟨π, d, hF⟩ := exists_forest hX hc
  have hr := hs.inRange
  have hd := hs.dupFree
  have hsy := hs.symm
  let A : Nat → Nat → Nat → Nat → K := fun c t i j =>
    if t ≠ c ∧ X t c = 1 then tree_flow π (d t) t i j else 0
  let Φ : Nat → Nat → Nat → K := fun c i j => ∑ t ∈ Finset.range g.nr_nodes, A c t i j
  let σ : Row → Nat → K := fun r e =>
    match r with
    | Row.f v => on_arcs g (Φ ((shir_centers g F0).getD v 0)) e
    | _ => 0
  have hA0 : ∀ c t i j, 0 ≤ A c t i j := by
    intro c t i j
    simp only [A]
    split
    · exact tree_flow_nonneg _ _ _ _ _
    · exact le_refl 0
  have hΦ0 : ∀ c i j, 0 ≤ Φ c i j := fun c i j => Finset.sum_nonneg (fun t _ => hA0 c t i j)
  have hσ : ∀ v i, i < g.nr_nodes → ∀ j ∈ g.nb i,
      σ (Row.f v) ((hash_edges g).index (i * g.nr_nodes + j))
        = Φ ((shir_centers g F0).getD v 0) i j :=
    fun v i hi j hj => on_arcs_index hr hd _ hi hj
  have hoff : ∀ c i j, i < g.nr_nodes → j < g.nr_nodes → j ∉ g.nb i → Φ c i j = 0 := by
    intro c i j _ _ hj
    apply Finset.sum_eq_zero
    intro t ht
    simp only [A]
    split
    · exact tree_flow_off hF (Finset.mem_range.mp ht) rfl hj
    · rfl
  have hnet : ∀ c, c < g.nr_nodes → ∀ i, i < g.nr_nodes → i ≠ c →
      ∑ j ∈ Finset.range g.nr_nodes, (Φ c j i - Φ c i j) = X i c := by
    intro c hcn i hi hic
    simp only [Φ]
    simp only [← Finset.sum_sub_distrib]
    rw [Finset.sum_comm]
    have e : ∀ t ∈ Finset.range g.nr_nodes,
        ∑ j ∈ Finset.range g.nr_nodes, (A c t j i - A c t i j)
          = if t = i then X i c else 0 := by
      intro t ht
      have htn := Finset.mem_range.mp ht
      by_cases hcond : t ≠ c ∧ X t c = 1
      · simp only [A, if_pos hcond]
        rw [tree_flow_net hX hF _ t htn rfl c hcn hcond.2 i]
        by_cases hti : t = i
        · subst hti; simp [hic, hcond.2]
        · simp [hti, Ne.symm hti, hic]
      · simp only [A, if_neg hcond, sub_self, Finset.sum_const_zero]
        by_cases hti : t = i
        · subst hti
          rw [if_pos rfl]
          rcases hX.1 t htn c hcn with h0 | h1
          · exact h0.symm
          · exact absurd ⟨hic, h1⟩ hcond
        · rw [if_neg hti]
    rw [Finset.sum_congr rfl e, Finset.sum_ite_eq']
    simp [hi]
  have hcap : ∀ c, c < g.nr_nodes → ∀ i, i < g.nr_nodes →
      ∑ j ∈ Finset.range g.nr_nodes, Φ c j i ≤ ((g.nr_nodes : K) - 1) * X i c := by
    intro c hcn i hi
    simp only [Φ]
    rw [Finset.sum_comm]
    rcases hX.1 i hi c hcn with h0 | h1
    · rw [h0, mul_zero]
      apply le_of_eq
      apply Finset.sum_eq_zero
      intro t ht
      apply Finset.sum_eq_zero
      intro j _
      simp only [A]
      split
      · next hcond =>
        exact tree_flow_same hF (Finset.mem_range.mp ht) rfl hcn hcond.2
          (by rw [h0]; exact zero_ne_one)
      · rfl
    · rw [h1, mul_one, ← sum_range_ne_one g.nr_nodes c hcn]
      apply Finset.sum_le_sum
      intro t ht
      by_cases hcond : t ≠ c ∧ X t c = 1
      · simp only [A, if_pos hcond, if_pos hcond.1]
        exact tree_flow_in_le hF (Finset.mem_range.mp ht) rfl i
      · simp only [A, if_neg hcond, Finset.sum_const_zero]
        split
        · exact zero_le_one
        · exact le_refl 0
  have hub : ∀ c, c < g.nr_nodes → ∀ i, Φ c i c = 0 := by
    intro c hcn i
    apply Finset.sum_eq_zero
    intro t ht
    simp only [A]
    split
    · next hcond =>
      exact tree_flow_into_center hF (Finset.mem_range.mp ht) rfl
        (assign_center hX (Finset.mem_range.mp ht) hcn hcond.2)
    · rfl
  refine ⟨σ, (feasible_shir_iff g F0 X σ).mpr ⟨?_, ?_, ?_, ?_⟩⟩
  · intro v _ e _
    exact on_arcs_nonneg g (hΦ0 _) e
  · intro v hv i hi hne
    have hcn := (mem_shir_centers.mp (shir_centers_getD hv)).1
    rw [sum_nb_net_in hr hd hsy _ _ (hσ v) (hoff _) hi]
    exact hnet _ hcn i hi hne
  · intro v hv i hi hne
    have hcn := (mem_shir_centers.mp (shir_centers_getD hv)).1
    rw [sum_nb_in hr hd hsy _ _ (hσ v) (hoff _) hi]
    exact hcap _ hcn i hi
  · intro v hv i hi
    have hcn := (mem_shir_centers.mp (shir_centers_getD hv)).1
    rw [hσ v i (hr _ hcn i hi) _ (hsy _ hcn i hi), hub _ hcn]

end ShirComplete

/-! ## C2: soundness and completeness of `build_shir` -/

theorem mem_build_shir_setUB (g : graph) (F0 : Nat → Nat → Bool) (var : Var) (ub : Int) :
    Op.setUB var ub ∈ build_shir g F0 ↔
      ∃ v, v < (shir_centers g F0).length ∧ ∃ i, i ∈ g.nb ((shir_centers g F0).getD v 0) ∧
        var = Var.aux (Row.f v) ((hash_edges g).index
          (g.nr_nodes * i + (shir_centers g F0).getD v 0)) ∧ ub = 0 := by
  simp only [build_shir, List.mem_append, List.mem_map, List.mem_flatMap, List.mem_range,
    List.mem_ite_nil_left, List.mem_singleton, Op.setUB.injEq, reduceCtorEq, and_false,
    exists_false, false_or, exists_const]
  constructor
  · rintro ⟨v, hv, i, hi, h1, h2⟩
    exact ⟨v, hv, i, hi, h1.symm, h2.symm⟩
  · rintro ⟨v, hv, i, hi, h1, h2⟩
    exact ⟨v, hv, i, hi, h1.symm, h2.symm⟩

/-- C10 as amended. In a symmetric duplicate-free graph with at most 46340 nodes (so that the
`int` key `i*n + j` does not overflow) and adjacency entries in `0..n-1`, for every candidate
center `c` (`F0[c][c]` false),
with `v` its position in `centers`, and every neighbour `i` of `c`: `build_shir` sets the upper
bound of `f[v][index of arc (i, c)]` to zero, that index belongs to the arc `(i, c)` and to no
other arc, and in every feasible setting the flow of commodity `v` on the arc `(i, c)` is zero.
Conversely every upper bound set by `build_shir` is a zero bound on such a flow variable (an
auxiliary variable, never an assignment variable), and `build_shir` changes no variable
type. -/
theorem shir_forbidden_return {K : Type} [LinearOrderedCommRing K] (g : graph)
    (hnodes : g.nr_nodes ≤ 46340)
    (hr : g.InRange) (hd : g.DupFree) (hsy : g.Symm) (F0 : Nat → Nat → Bool) :
    (∀ c, c < g.nr_nodes → F0 c c = false →
      ∃ v, v < (shir_centers g F0).length ∧ (shir_centers g F0).getD v 0 = c ∧
        ∀ i, i ∈ g.nb c →
          Op.setUB (Var.aux (Row.f v) ((hash_edges g).index (g.nr_nodes * i + c))) 0
            ∈ build_shir g F0 ∧
          (∃ e, (hash_edges g).lookup (int_repr (g.nr_nodes * i + c)) = some e ∧
            e < nr_edges g) ∧
          (∀ i2 j2, i2 < g.nr_nodes → j2 ∈ g.nb i2 →
            (hash_edges g).index (g.nr_nodes * i2 + j2)
              = (hash_edges g).index (g.nr_nodes * i + c) → i2 = i ∧ j2 = c) ∧
          ∀ (X : Nat → Nat → K) (σ : Row → Nat → K), Feasible (build_shir g F0) X σ →
            σ (Row.f v) ((hash_edges g).index (g.nr_nodes * i + c)) = 0) ∧
    (∀ var ub, Op.setUB var ub ∈ build_shir g F0 →
      ub = 0 ∧ ∃ v i, v < (shir_centers g F0).length ∧
        i ∈ g.nb ((shir_centers g F0).getD v 0) ∧
        var = Var.aux (Row.f v) ((hash_edges g).index
          (g.nr_nodes * i + (shir_centers g F0).getD v 0))) ∧
    (∀ var t, Op.setVType var t ∉ build_shir g F0) := by
  haveI : Fact (g.nr_nodes ≤ 46340) := ⟨hnodes⟩
  refine ⟨?_, ?_, ?_⟩
  rotate_left 2
  · intro var t h
    simp only [build_shir, List.mem_append, List.mem_map, List.mem_flatMap, List.mem_range,
      List.mem_ite_nil_left, List.mem_singleton, reduceCtorEq, and_false, exists_false,
      or_self, exists_const] at h
  · intro c hc hF
    obtain ⟨v, hv, hvc⟩ := shir_centers_index (mem_shir_centers.mpr ⟨hc, hF⟩)
    refine ⟨v, hv, hvc, fun i hi => ?_⟩
    have hin : i < g.nr_nodes := hr c hc i hi
    have hci : c ∈ g.nb i := hsy c hc i hi
    obtain ⟨_, harc, hinj, _⟩ := arc_index_facts g hr hd
    refine ⟨?_, ?_, ?_, ?_⟩
    · exact (mem_build_shir_setUB g F0 _ _).mpr ⟨v, hv, i, by rw [hvc]; exact hi, by rw [hvc], rfl⟩
    · rw [Nat.mul_comm]
      exact harc i c hin hci
    · intro i2 j2 hi2 hj2 h
      rw [index_comm, index_comm] at h
      exact hinj i2 j2 i c hi2 hj2 hin hci h
    · intro X σ hf
      have hub : σ (Row.f v) ((hash_edges g).index (g.nr_nodes * i + c)) ≤ 0 := by
        have := hf _ ((mem_build_shir_setUB g F0 _ _).mpr
          ⟨v, hv, i, by rw [hvc]; exact hi, by rw [hvc], rfl⟩)
        simpa [Op.holds, Var.val] using this
      have hlb : 0 ≤ σ (Row.f v) ((hash_edges g).index (g.nr_nodes * i + c)) := by
        have h0 := ((feasible_shir_iff g F0 X σ).mp hf).1 v hv
        rw [index_comm]
        exact h0 _ (index_lt_nr hr hd hin hci)
      exact le_antisymm hub hlb
  · intro var ub h
    obtain ⟨v, hv, i, hi, h1, h2⟩ := (mem_build_shir_setUB g F0 var ub).mp h
    exact ⟨h2, v, i, hv, hi, h1⟩

/-! ## The system emitted by `build_scf` -/

section ScfForm

variable {K : Type} [LinearOrderedCommRing K]

theorem feasible_scf_iff (g : graph) (X : Nat → Nat → K) (σ : Row → Nat → K) :
    Feasible (build_scf g) X σ ↔
      (∀ i, i < g.nr_nodes → ∀ k, k < g.nr_nodes →
        0 ≤ σ (Row.y i) k ∧ (σ (Row.y i) k = 0 ∨ σ (Row.y i) k = 1)) ∧
      (∀ i, i < g.nr_nodes → ∀ k, k < g.nr_nodes → 0 ≤ σ (Row.f i) k) ∧
      (∀ i, i < g.nr_nodes →
        ((g.nb i).map (fun j => σ (Row.y j) i)).sum + X i i = 1) ∧
      (∀ i, i < g.nr_nodes →
        ((g.nb i).map (fun j => σ (Row.f i) j - σ (Row.f j) i)).sum
          + ((List.range g.nr_nodes).map (fun j => - X j i)).sum = -1) ∧
      (∀ i, i < g.nr_nodes → ∀ j, j ∈ g.nb i →
        σ (Row.f i) j - σ (Row.y i) j ≥ 0 ∧
        σ (Row.f i) j - (g.nr_nodes : K) * σ (Row.y i) j ≤ 0) ∧
      (∀ v, v < g.nr_nodes → ∀ i, i < g.nr_nodes → ∀ j, j ∈ g.nb i →
        X i v + σ (Row.y i) j - X j v ≤ 1) := by
  simp only [build_scf, feasible_append, feasible_flatMap,
    feasible_map, feasible_ite, feasible_cons, feasible_nil, and_true, List.mem_range,
    Op.holds, Sense.rel, eval_foldl_add_sub, eval_foldl_add, eval_foldl_sub, eval_ofConst,
    eval_ofVar, eval_ofTerm, eval_addVar, eval_subVar, eval_subTerm, Var.val, Int.cast_zero,
    zero_add, and_assoc, Int.cast_sub, Int.cast_natCast, Int.cast_one, Int.cast_neg,
    reduceCtorEq, false_implies, true_implies, forall_const]

end ScfForm

/-! ## Soundness of `build_scf` -/

section ScfSound

variable {K : Type} [LinearOrderedCommRing K]

theorem list_range_sum (n : Nat) (f : Nat → K) :
    ((List.range n).map f).sum = ∑ j ∈ Finset.range n, f j := by
  rw [← List.sum_toFinset f (List.nodup_range n)]
  congr 1
  ext j
  simp

theorem assign_noncenter_col {n : Nat} {X : Nat → Nat → K} (hX : AssignInv n X) {i : Nat}
    (hi : i < n) (hii : X i i ≠ 1) {j : Nat} (hj : j < n) : X j i = 0 := by
  rcases hX.1 j hj i hi with h0 | h1
  · exact h0
  · exact absurd (assign_center hX hj hi h1) hii

theorem scf_sound {g : graph} (hs : g.Simple) {X : Nat → Nat → K}
    (hX : AssignInv g.nr_nodes X) {σ : Row → Nat → K}
    (hf : Feasible (build_scf g) X σ) : Contiguous g X := by
  obtain ⟨fy, ff, _, f16c, f16d, fA⟩ := (feasible_scf_iff g X σ).mp hf
  have hr := hs.inRange
  have hd := hs.dupFree
  have hsy := hs.symm
  let φ : Nat → Nat → K := fun i j => σ (Row.f i) j
  have hφ0 : ∀ i, i < g.nr_nodes → ∀ j ∈ g.nb i, 0 ≤ φ i j :=
    fun i hi j hj => ff i hi j (hr i hi j hj)
  have hT := arc_flow_nonneg hφ0
  have hbr1 : ∀ i, i < g.nr_nodes → ∀ j ∈ g.nb i, φ i j = arc_flow g φ i j :=
    fun i hi j hj => (arc_flow_arc φ hi hj).symm
  have hbr2 : ∀ i j, i < g.nr_nodes → j < g.nr_nodes → j ∉ g.nb i → arc_flow g φ i j = 0 :=
    fun i j _ _ hj => arc_flow_off φ hj
  -- a node that is not a center has net inflow 1
  have hnet : ∀ i, i < g.nr_nodes → X i i ≠ 1 →
      ∑ j ∈ Finset.range g.nr_nodes, (arc_flow g φ j i - arc_flow g φ i j) = 1 := by
    intro i hi hii
    have h1 := f16c i hi
    rw [sum_nb_net_out hr hd hsy φ _ hbr1 hbr2 hi] at h1
    have h2 : ((List.range g.nr_nodes).map (fun j => - X j i)).sum = 0 := by
      apply List.sum_eq_zero
      intro x hx
      obtain ⟨j, hj, rfl⟩ := List.mem_map.mp hx
      rw [assign_noncenter_col hX hi hii (List.mem_range.mp hj), neg_zero]
    rw [h2, add_zero] at h1
    have e : ∀ j, (arc_flow g φ j i - arc_flow g φ i j)
        = - (arc_flow g φ i j - arc_flow g φ j i) := fun j => by ring
    simp only [e, Finset.sum_neg_distrib, h1, neg_neg]
  -- an arc with positive flow joins two nodes of one district
  have hsame : ∀ u w b, b < g.nr_nodes → 0 < arc_flow g φ u w →
      (X u b = 1 ↔ X w b = 1) := by
    intro u w b hb huw
    obtain ⟨hun, hwu, hpos⟩ := arc_flow_pos huw
    have hwn : w < g.nr_nodes := hr u hun w hwu
    have hy : σ (Row.y u) w = 1 := by
      rcases (fy u hun w hwn).2 with h0 | h1
      · have := (f16d u hun w hwu).2
        rw [h0, mul_zero, sub_zero] at this
        exact absurd hpos (not_lt.mpr this)
      · exact h1
    have hstep : ∀ v, v < g.nr_nodes → X u v = 1 → X w v = 1 := by
      intro v hv huv
      have hA := fA v hv u hun w hwu
      rw [hy, huv] at hA
      have h1 := assign_le_one hX hwn hv
      rcases hX.1 w hwn v hv with h0 | h1
      · rw [h0] at hA
        exact absurd hA (by norm_num)
      · exact h1
    constructor
    · exact hstep b hb
    · intro hwb
      obtain ⟨c, hc, huc, _, _⟩ := hX.2 u hun
      have := assign_unique hX hwn hb hc hwb (hstep c hc huc)
      rw [this]
      exact huc
  intro b hb hbb
  apply induced_connected_of_star hsy _ (fun i hi => hi.1) b
  intro t ht
  by_cases htb : t = b
  · subst htb; exact Relation.ReflTransGen.refl
  have hnc : ∀ i, i < g.nr_nodes → X i b = 1 → i ≠ b → X i i ≠ 1 :=
    fun i hi hib hne hii => hne (assign_unique hX hi hi hb hii hib)
  have hback : ∀ i, Relation.ReflTransGen (fun u w => 0 < arc_flow g φ u w) i t →
      X i b = 1 := by
    intro i hi
    induction hi using Relation.ReflTransGen.head_induction_on with
    | refl => exact ht.2
    | head huw _ ih => exact (hsame _ _ b hb huw).mpr ih
  have hreach : Relation.ReflTransGen (fun u w => 0 < arc_flow g φ u w) b t := by
    apply reach_of_net_in _ hT g.nr_nodes b t ht.1
    · rw [hnet t ht.1 (hnc t ht.1 ht.2 htb)]; exact zero_lt_one
    · intro i hi hit hib
      rw [hnet i hi (hnc i hi (hback i hit) hib)]
      exact zero_le_one
  refine (reach_lift hreach (P := fun i => i < g.nr_nodes ∧ X i b = 1) ⟨hb, hbb⟩ ?_).1
  intro u w hu huw
  obtain ⟨hun, hwu, _⟩ := arc_flow_pos huw
  have hw : w < g.nr_nodes ∧ X w b = 1 := ⟨hr u hun w hwu, (hsame u w b hb huw).mp hu.2⟩
  exact ⟨hw, hu, hw, hwu⟩

end ScfSound

/-! ## Completeness of `build_scf` -/

section ScfComplete

variable {K : Type} [LinearOrderedCommRing K]

theorem assign_indicator {n : Nat} {X : Nat → Nat → K} (hX : AssignInv n X) {t b i : Nat}
    (ht : t < n) (hb : b < n) (htb : X t b = 1) (hi : i < n) :
    X t i = if i = b then 1 else 0 := by
  by_cases h : i = b
  · rw [if_pos h, h, htb]
  · rw [if_neg h]
    rcases hX.1 t ht i hi with h0 | h1
    · exact h0
    · exact absurd (assign_unique hX ht hi hb h1 htb) h

theorem scf_complete {g : graph} (hs : g.Simple) {X : Nat → Nat → K}
    (hX : AssignInv g.nr_nodes X) (hc : Contiguous g X) :
    ∃ σ : Row → Nat → K, Feasible (build_scf g) X σ := by
  classical
  obtain ⟨π, d, hF⟩ := exists_forest hX hc
  have hr := hs.inRange
  have hd := hs.dupFree
  have hsy := hs.symm
  let Y : Nat → Nat → K := fun i j =>
    if j < g.nr_nodes ∧ X j j ≠ 1 ∧ i = π j then 1 else 0
  let A : Nat → Nat → Nat → K := fun t i j =>
    if X t t ≠ 1 then tree_flow π (d t) t i j else 0
  let F : Nat → Nat → K := fun i j => ∑ t ∈ Finset.range g.nr_nodes, A t i j
  let σ : Row → Nat → K := fun r k =>
    match r with
    | Row.y i => Y i k
    | Row.f i => F i k
    | _ => 0
  have hA0 : ∀ t i j, 0 ≤ A t i j := by
    intro t i j
    simp only [A]
    split
    · exact tree_flow_nonneg _ _ _ _ _
    · exact le_refl 0
  have hA1 : ∀ t, t < g.nr_nodes → ∀ i j, A t i j ≤ 1 := by
    intro t ht i j
    simp only [A]
    split
    · exact tree_flow_le_one hF _ t ht rfl i j
    · exact zero_le_one
  have hF0 : ∀ i j, 0 ≤ F i j := fun i j => Finset.sum_nonneg (fun t _ => hA0 t i j)
  have hY : ∀ i j, Y i j = 0 ∨ Y i j = 1 := by
    intro i j
    simp only [Y]
    split
    · exact Or.inr rfl
    · exact Or.inl rfl
  -- flow is carried by selected arcs only
  have hFY : ∀ i j, Y i j = 0 → F i j = 0 := by
    intro i j hy
    apply Finset.sum_eq_zero
    intro t ht
    simp only [A]
    split
    · by_contra hne
      obtain ⟨h1, h2, h3, _⟩ := tree_flow_support hF _ t (Finset.mem_range.mp ht) rfl i j hne
      simp only [Y, if_pos (And.intro h1 (And.intro h2 h3))] at hy
      exact one_ne_zero hy
    · rfl
  have hFoff : ∀ i j, i < g.nr_nodes → j < g.nr_nodes → j ∉ g.nb i → F i j = 0 := by
    intro i j _ _ hj
    apply Finset.sum_eq_zero
    intro t ht
    simp only [A]
    split
    · exact tree_flow_off hF (Finset.mem_range.mp ht) rfl hj
    · rfl
  refine ⟨σ, (feasible_scf_iff g X σ).mpr ⟨?_, ?_, ?_, ?_, ?_, ?_⟩⟩
  · intro i _ k _
    refine ⟨?_, hY i k⟩
    rcases hY i k with h | h <;> simp only [σ, h] <;> norm_num
  · intro i _ k _
    exact hF0 i k
  · -- (16b)
    intro i hi
    have e1 : ((g.nb i).map (fun j => σ (Row.y j) i)).sum
        = ∑ j ∈ Finset.range g.nr_nodes, Y j i := by
      apply sum_nb_eq hr hd hi
      · intro j _; rfl
      · intro j _ hj
        simp only [Y]
        rw [if_neg]
        rintro ⟨_, h2, h3⟩
        have := ((hF i hi).2 h2).2.1
        rw [← h3] at this
        exact hj (hsy j (by assumption) i this)
    rw [e1]
    by_cases hii : X i i = 1
    · have : ∀ j ∈ Finset.range g.nr_nodes, Y j i = 0 := by
        intro j _
        simp only [Y]
        rw [if_neg]
        rintro ⟨_, h2, _⟩
        exact h2 hii
      rw [Finset.sum_congr rfl this, Finset.sum_const_zero, zero_add, hii]
    · have e2 : ∀ j ∈ Finset.range g.nr_nodes, Y j i = if j = π i then 1 else 0 := by
        intro j _
        simp only [Y, hi, hii, ne_eq, not_false_eq_true, true_and]
      rw [Finset.sum_congr rfl e2, Finset.sum_ite_eq']
      have hπ := ((hF i hi).2 hii).1
      rcases hX.1 i hi i hi with h0 | h1
      · simp [hπ, h0]
      · exact absurd h1 hii
  · -- (16c)
    intro i hi
    have e1 := sum_nb_net_out hr hd hsy (fun a b => σ (Row.f a) b) F (fun _ _ _ _ => rfl)
      hFoff hi
    rw [e1, list_range_sum]
    simp only [F]
    simp only [← Finset.sum_sub_distrib]
    rw [Finset.sum_comm, ← Finset.sum_add_distrib]
    have e2 : ∀ t ∈ Finset.range g.nr_nodes,
        ∑ j ∈ Finset.range g.nr_nodes, (A t i j - A t j i) + - X t i
          = - (if t = i then 1 else 0) := by
      intro t ht
      have htn := Finset.mem_range.mp ht
      obtain ⟨b, hb, htb, hbb, _⟩ := hX.2 t htn
      rw [assign_indicator hX htn hb htb hi]
      by_cases htt : X t t = 1
      · have hbt : b = t := assign_unique hX htn hb htn htb htt
        simp only [A, htt, ne_eq, not_true_eq_false, if_false, sub_self,
          Finset.sum_const_zero, zero_add, hbt]
        by_cases h : i = t
        · simp [h]
        · simp [h, Ne.symm h]
      · simp only [A, htt, ne_eq, not_false_eq_true, if_true]
        rw [tree_flow_net_out hX hF htn rfl hb htb i]
        by_cases h : t = i
        · simp only [h, if_true]; ring
        · simp only [h, Ne.symm h, if_false]; ring
    rw [Finset.sum_congr rfl e2, Finset.sum_neg_distrib, Finset.sum_ite_eq']
    simp [hi]
  · -- (16d)
    intro i hi j hj
    have hjn := hr i hi j hj
    show F i j - Y i j ≥ 0 ∧ F i j - (g.nr_nodes : K) * Y i j ≤ 0
    rcases hY i j with h | h
    · rw [h, hFY i j h]; simp
    · rw [h]
      have hy : j < g.nr_nodes ∧ X j j ≠ 1 ∧ i = π j := by
        by_contra hn
        simp only [Y, if_neg hn] at h
        exact zero_ne_one h
      constructor
      · have h1 : A j i j ≤ F i j :=
          Finset.single_le_sum (f := fun t => A t i j) (fun t _ => hA0 t i j)
            (Finset.mem_range.mpr hjn)
        have h2 : A j i j = 1 := by
          simp only [A, if_pos hy.2.1]
          rw [hy.2.2]
          exact tree_flow_last hF hjn hy.2.1
        rw [h2] at h1
        linarith
      · have h1 : F i j ≤ ∑ _t ∈ Finset.range g.nr_nodes, (1 : K) :=
          Finset.sum_le_sum (fun t ht => hA1 t (Finset.mem_range.mp ht) i j)
        simp only [Finset.sum_const, Finset.card_range, nsmul_eq_mul, mul_one] at h1
        linarith
  · -- (Austin)
    intro v hv i hi j hj
    have hjn := hr i hi j hj
    show X i v + Y i j - X j v ≤ 1
    rcases hY i j with h | h
    · rw [h]
      have h1 := assign_le_one hX hi hv
      have h2 := assign_nonneg hX hjn hv
      linarith
    · rw [h]
      have hy : j < g.nr_nodes ∧ X j j ≠ 1 ∧ i = π j := by
        by_contra hn
        simp only [Y, if_neg hn] at h
        exact zero_ne_one h
      rcases hX.1 i hi v hv with h0 | h1
      · rw [h0]
        have h2 := assign_nonneg hX hjn hv
        linarith
      · obtain ⟨b, hb, hjb, _, _⟩ := hX.2 j hjn
        have hib : X i b = 1 := by
          rw [hy.2.2]
          exact ((hF j hjn).2 hy.2.1).2.2.2 b hb hjb
        have hvb : v = b := assign_unique hX hi hv hb h1 hib
        rw [h1, hvb, hjb]
        norm_num

end ScfComplete

/-! ## C3: soundness and completeness of `build_scf` -/

/-- C3. For a symmetric simple graph and a 0/1 assignment matrix `X` in which every node has
exactly one center, the system emitted by `build_scf` (binary arc selections `y`, non-negative
flows `f`, incoming-selection balance, flow balance, capacity coupling and the strengthening
inequality `X[i][v] + y[i][j] - X[j][v] <= 1`) has a feasible setting of `y` and `f` if and
only if the nodes assigned to each center induce a connected subgraph; in particular the
strengthening inequality excludes no contiguous assignment. -/
theorem build_scf_sound_complete {K : Type} [LinearOrderedCommRing K] (g : graph)
    (hs : g.Simple) (X : Nat → Nat → K) (hX : AssignInv g.nr_nodes X) :
    (∃ σ : Row → Nat → K, Feasible (build_scf g) X σ) ↔ Contiguous g X := by
  constructor
  · rintro ⟨σ, hσ⟩
    exact scf_sound hs hX hσ
  · intro hc
    exact scf_complete hs hX hc

/-- Witness of C3 on the path graph `0 - 1 - 2 - 3` with districts `{0, 1}` and `{2, 3}`, over
the rationals. -/
theorem build_scf_sound_complete_witness :
    path4.Simple ∧ AssignInv path4.nr_nodes (X_good : Nat → Nat → ℚ) ∧
    ((∃ σ : Row → Nat → ℚ, Feasible (build_scf path4) X_good σ) ↔
      Contiguous path4 (X_good : Nat → Nat → ℚ)) :=
  ⟨path4_simple, X_good_inv, build_scf_sound_complete path4 path4_simple X_good X_good_inv⟩

/-- Witness of C10 on the path graph `0 - 1 - 2 - 3` with candidate centers 0 and 3: every
upper bound set by `build_shir` is a zero bound on a flow variable. -/
theorem shir_forbidden_return_witness :
    path4.nr_nodes ≤ 46340 ∧ path4.InRange ∧ path4.DupFree ∧ path4.Symm ∧
    (∀ var ub, Op.setUB var ub ∈ build_shir path4 F0_scen →
      ub = 0 ∧ ∃ v i, v < (shir_centers path4 F0_scen).length ∧
        i ∈ path4.nb ((shir_centers path4 F0_scen).getD v 0) ∧
        var = Var.aux (Row.f v) ((hash_edges path4).index
          (path4.nr_nodes * i + (shir_centers path4 F0_scen).getD v 0))) :=
  ⟨by decide, path4_inRange, path4_dupFree, path4_simple.symm,
    (@shir_forbidden_return ℚ _ path4 (by decide) path4_inRange path4_dupFree
      path4_simple.symm F0_scen).2.1⟩

/-! ## The system emitted by `build_mcf2` -/

section Mcf2Form

variable {K : Type} [LinearOrderedCommRing K]

theorem feasible_mcf2_iff (g : graph) (hok : non_nbs_ok g = true) (X : Nat → Nat → K)
    (σ : Row → Nat → K) :
    Feasible (build_mcf2 g).ops X σ ↔
      (∀ b, b < g.nr_nodes → ∀ e, e < nr_edges g → ∀ a, a < alt_count g.nr_nodes (g.nb b) →
        0 ≤ σ (Row.fe b e) a) ∧
      (∀ b, b < g.nr_nodes → ∀ a, a < alt_count g.nr_nodes (g.nb b) →
        ((g.nb b).map (fun j =>
          σ (Row.fe b ((hash_edges g).index (b * g.nr_nodes + j))) a
          - σ (Row.fe b ((hash_edges g).index (j * g.nr_nodes + b))) a)).sum
        - X ((non_nbs g b).getD a 0) b = 0) ∧
      (∀ b, b < g.nr_nodes → ∀ a, a < alt_count g.nr_nodes (g.nb b) →
        ∀ i, i < g.nr_nodes → ¬ (i = (non_nbs g b).getD a 0 ∨ i = b) →
        ((g.nb i).map (fun j =>
          σ (Row.fe b ((hash_edges g).index (i * g.nr_nodes + j))) a
          - σ (Row.fe b ((hash_edges g).index (j * g.nr_nodes + i))) a)).sum = 0) ∧
      (∀ b, b < g.nr_nodes → ∀ a, a < alt_count g.nr_nodes (g.nb b) →
        ((g.nb b).map (fun j =>
          σ (Row.fe b ((hash_edges g).index (j * g.nr_nodes + b))) a)).sum = 0) ∧
      (∀ b, b < g.nr_nodes → ∀ a, a < alt_count g.nr_nodes (g.nb b) →
        ∀ j, j < g.nr_nodes → ¬ j = b →
        ((g.nb j).map (fun i =>
          - σ (Row.fe b ((hash_edges g).index (i * g.nr_nodes + j))) a)).sum - X j b ≤ 0) := by
  simp only [build_mcf2, hok, if_true, feasible_append, feasible_mcf_vars, feasible_flatMap,
    feasible_map, feasible_ite, feasible_cons, feasible_nil, and_true, List.mem_range,
    Op.holds, Sense.rel, eval_foldl_add_sub, eval_foldl_add, eval_foldl_sub, eval_ofConst,
    eval_ofVar, eval_subVar, Var.val, Int.cast_zero, zero_add, and_assoc]

end Mcf2Form

/-! ## Settings of `build_mcf2` given by flows -/

section Mcf2Flow

variable {K : Type} [LinearOrderedCommRing K]

theorem flow_setting_index {g : graph} [Fact (g.nr_nodes ≤ 46340)] (hr : g.InRange) (hd : g.DupFree)
    (Φ : Nat → Nat → Nat → Nat → K) (b a : Nat) {i j : Nat} (hi : i < g.nr_nodes)
    (hj : j ∈ g.nb i) :
    flow_setting g Φ (Row.fe b ((hash_edges g).index (i * g.nr_nodes + j))) a = Φ b a i j :=
  on_arcs_index hr hd (Φ b a) hi hj

theorem mcf2_feasible_of_flow {g : graph} [Fact (g.nr_nodes ≤ 46340)]
    (hn : g.nr_nodes < 2 ^ 31) (hs : g.Simple)
    {X : Nat → Nat → K} (hX0 : ∀ i j, 0 ≤ X i j) (Φ : Nat → Nat → Nat → Nat → K)
    (h0 : ∀ b a i j, 0 ≤ Φ b a i j)
    (hoff : ∀ b a i j, i < g.nr_nodes → j < g.nr_nodes → j ∉ g.nb i → Φ b a i j = 0)
    (hb : ∀ b, b < g.nr_nodes → ∀ a, a < (non_nbs g b).length →
      ∑ j ∈ Finset.range g.nr_nodes, (Φ b a b j - Φ b a j b) = X ((non_nbs g b).getD a 0) b)
    (hc : ∀ b, b < g.nr_nodes → ∀ a, a < (non_nbs g b).length → ∀ i, i < g.nr_nodes →
      i ≠ (non_nbs g b).getD a 0 → i ≠ b →
      ∑ j ∈ Finset.range g.nr_nodes, (Φ b a i j - Φ b a j i) = 0)
    (hd : ∀ b, b < g.nr_nodes → ∀ a, a < (non_nbs g b).length →
      ∑ j ∈ Finset.range g.nr_nodes, Φ b a j b = 0) :
    Feasible (build_mcf2 g).ops X (flow_setting g Φ) := by
  have hr := hs.inRange
  have hdf := hs.dupFree
  have hsy := hs.symm
  have hσ : ∀ b a i, i < g.nr_nodes → ∀ j ∈ g.nb i,
      flow_setting g Φ (Row.fe b ((hash_edges g).index (i * g.nr_nodes + j))) a = Φ b a i j :=
    fun b a i hi j hj => flow_setting_index hr hdf Φ b a hi hj
  refine (feasible_mcf2_iff g (non_nbs_ok_simple hn hs) X _).mpr ⟨?_, ?_, ?_, ?_, ?_⟩
  · intro b _ e _ a _
    exact on_arcs_nonneg g (h0 b a) e
  · intro b hbn a ha
    rw [alt_count_simple hn hs hbn] at ha
    rw [sum_nb_net_out hr hdf hsy _ (Φ b a) (hσ b a) (hoff b a) hbn, hb b hbn a ha, sub_self]
  · intro b hbn a ha i hi hne
    rw [alt_count_simple hn hs hbn] at ha
    rw [sum_nb_net_out hr hdf hsy _ (Φ b a) (hσ b a) (hoff b a) hi]
    exact hc b hbn a ha i hi (fun h => hne (Or.inl h)) (fun h => hne (Or.inr h))
  · intro b hbn a ha
    rw [alt_count_simple hn hs hbn] at ha
    rw [sum_nb_in hr hdf hsy _ (Φ b a) (hσ b a) (hoff b a) hbn]
    exact hd b hbn a ha
  · intro b hbn a _ j hj _
    have e : ((g.nb j).map (fun i =>
        - flow_setting g Φ (Row.fe b ((hash_edges g).index (i * g.nr_nodes + j))) a)).sum
        = - ((g.nb j).map (fun i =>
          flow_setting g Φ (Row.fe b ((hash_edges g).index (i * g.nr_nodes + j))) a)).sum := by
      induction g.nb j with
      | nil => simp
      | cons x l ih => simp only [List.map_cons, List.sum_cons, ih]; ring
    rw [e, sum_nb_in hr hdf hsy _ (Φ b a) (hσ b a) (hoff b a) hj]
    have h1 : 0 ≤ ∑ i ∈ Finset.range g.nr_nodes, Φ b a i j :=
      Finset.sum_nonneg (fun i _ => h0 b a i j)
    have h2 := hX0 j b
    linarith

end Mcf2Flow

/-! ## The sink bound of `build_mcf2` on a path of three nodes -/

theorem non_nbs_path3 :
    non_nbs path3 0 = [2] ∧ non_nbs path3 1 = [] ∧ non_nbs path3 2 = [0] := by decide

section Path3

variable {K : Type} [LinearOrderedCommRing K]

theorem X_split_nonneg (i j : Nat) : (0 : K) ≤ X_split i j := by
  unfold X_split; split <;> norm_num

theorem flow_split_nonneg (b a i j : Nat) : (0 : K) ≤ flow_split b a i j := by
  unfold flow_split; split <;> norm_num

theorem split_feasible_mcf2 :
    Feasible (build_mcf2 path3).ops (X_split : Nat → Nat → K)
      (flow_setting path3 flow_split) := by
  apply mcf2_feasible_of_flow (by decide) path3_simple X_split_nonneg flow_split
    flow_split_nonneg
  · intro b a i j hi hj hnb
    have hi3 : i < 3 := hi
    have hj3 : j < 3 := hj
    interval_cases i <;> interval_cases j <;> simp [flow_split, path3] at hnb ⊢
  · intro b hb a ha
    have hb3 : b < 3 := hb
    interval_cases b
    · rw [non_nbs_path3.1] at ha ⊢
      have ha0 : a = 0 := by simpa using ha
      subst ha0
      simp [path3, Finset.sum_range_succ, flow_split, X_split]
    · rw [non_nbs_path3.2.1] at ha
      simp at ha
    · rw [non_nbs_path3.2.2] at ha ⊢
      have ha0 : a = 0 := by simpa using ha
      subst ha0
      simp [path3, Finset.sum_range_succ, flow_split, X_split]
  · intro b hb a ha i hi hit hib
    have hb3 : b < 3 := hb
    have hi3 : i < 3 := hi
    interval_cases b
    · rw [non_nbs_path3.1] at ha hit
      have ha0 : a = 0 := by simpa using ha
      subst ha0
      interval_cases i <;> simp [path3, Finset.sum_range_succ, flow_split] at hit hib ⊢
    · rw [non_nbs_path3.2.1] at ha
      simp at ha
    · rw [non_nbs_path3.2.2] at ha hit
      have ha0 : a = 0 := by simpa using ha
      subst ha0
      interval_cases i <;> simp [path3, Finset.sum_range_succ, flow_split] at hit hib ⊢
  · intro b hb a ha
    have hb3 : b < 3 := hb
    interval_cases b
    · rw [non_nbs_path3.1] at ha
      have ha0 : a = 0 := by simpa using ha
      subst ha0
      simp [path3, Finset.sum_range_succ, flow_split]
    · rw [non_nbs_path3.2.1] at ha
      simp at ha
    · rw [non_nbs_path3.2.2] at ha
      have ha0 : a = 0 := by simpa using ha
      subst ha0
      simp [path3, Finset.sum_range_succ, flow_split]

end Path3

theorem arcs_path3 : arcs path3 = [(0, 1), (1, 0), (1, 2), (2, 1)] := by decide

section Path3b

variable {K : Type} [LinearOrderedCommRing K]

theorem X_split_inv : AssignInv path3.nr_nodes (X_split : Nat → Nat → K) := by
  constructor
  · intro i _ j _
    unfold X_split
    split
    · exact Or.inr rfl
    · exact Or.inl rfl
  · intro i hi
    have hi3 : i < 3 := hi
    have key : ∀ (c : Nat), c < 3 → (X_split i c : K) = 1 → (X_split c c : K) = 1 →
        (∀ j2, j2 < 3 → (X_split i j2 : K) = 1 → j2 = c) →
        ∃ j, j < path3.nr_nodes ∧ (X_split i j : K) = 1 ∧ (X_split j j : K) = 1 ∧
          ∀ j2, j2 < path3.nr_nodes → (X_split i j2 : K) = 1 → j2 = j :=
      fun c hc h1 h2 h3 => ⟨c, hc, h1, h2, h3⟩
    interval_cases i
    · refine key 0 (by norm_num) (by simp [X_split]) (by simp [X_split]) ?_
      intro j2 hj2; interval_cases j2 <;> simp [X_split]
    · refine key 1 (by norm_num) (by simp [X_split]) (by simp [X_split]) ?_
      intro j2 hj2; interval_cases j2 <;> simp [X_split]
    · refine key 0 (by norm_num) (by simp [X_split]) (by simp [X_split]) ?_
      intro j2 hj2; interval_cases j2 <;> simp [X_split]

theorem flow_split_values :
    flow_setting path3 (flow_split : Nat → Nat → Nat → Nat → K) (Row.fe 0 0) 0 = 1 ∧
    flow_setting path3 (flow_split : Nat → Nat → Nat → Nat → K) (Row.fe 0 3) 0 = 0 := by
  simp [flow_setting, on_arcs, arcs_path3, flow_split]

end Path3b

/-! ## C8, C9: the sink bound of `build_mcf2` -/

/-- C8 at a failing input. On the path `0 - 1 - 2` with nodes 0 and 2 assigned to center 0 and
node 1 its own center, the constraint that `build_mcf2` emits for base 0, alternate index 0 and
node 1 is `- f[0][(0,1)][0] - f[0][(2,1)][0] - x[1][0] <= 0`: it does not bound the inflow of
node 1 above by `x[1][0]`.  The setting that sends one unit along `0 → 1 → 2` satisfies the
whole emitted system although `x[1][0] = 0` and node 1 receives one unit of flow on the network
of base 0. -/
theorem mcf2_sink_bound_sign :
    Op.addConstr ⟨0, [(-1, Var.aux (Row.fe 0 0) 0), (-1, Var.aux (Row.fe 0 3) 0),
        (-1, Var.x 1 0)]⟩ Sense.le ⟨0, []⟩ ∈ (build_mcf2 path3).ops ∧
    (hash_edges path3).index (0 * path3.nr_nodes + 1) = 0 ∧
    (hash_edges path3).index (2 * path3.nr_nodes + 1) = 3 ∧
    AssignInv path3.nr_nodes (X_split : Nat → Nat → ℚ) ∧
    Feasible (build_mcf2 path3).ops (X_split : Nat → Nat → ℚ)
      (flow_setting path3 flow_split) ∧
    (X_split 1 0 : ℚ) = 0 ∧
    flow_setting path3 (flow_split : Nat → Nat → Nat → Nat → ℚ) (Row.fe 0 0) 0
      + flow_setting path3 (flow_split : Nat → Nat → Nat → Nat → ℚ) (Row.fe 0 3) 0 = 1 := by
  refine ⟨by decide, by decide, by decide, X_split_inv, split_feasible_mcf2, ?_, ?_⟩
  · simp [X_split]
  · rw [flow_split_values.1, flow_split_values.2, add_zero]

/-- C9 at a failing input. On the path `0 - 1 - 2` with nodes 0 and 2 assigned to center 0 and
node 1 its own center, the non-negative setting that sends one unit along `0 → 1 → 2` on the
network of base 0 satisfies every constraint emitted by `build_mcf2` but violates the sink
bound `f[0][(0,1)][0] + f[0][(2,1)][0] <= X(1,0)` emitted by `build_mcf`: the two systems do
not have the same solutions. -/
theorem mcf_mcf2_not_equivalent :
    path3.Simple ∧
    (∀ r k, (0 : ℚ) ≤ flow_setting path3 flow_split r k) ∧
    Feasible (build_mcf2 path3).ops (X_split : Nat → Nat → ℚ)
      (flow_setting path3 flow_split) ∧
    Op.addConstr ⟨0, [(1, Var.aux (Row.fe 0 0) 0), (1, Var.aux (Row.fe 0 3) 0)]⟩ Sense.le
      (LinExpr.ofVar (Var.x 1 0)) ∈ (build_mcf path3).ops ∧
    ¬ Feasible (build_mcf path3).ops (X_split : Nat → Nat → ℚ)
      (flow_setting path3 flow_split) := by
  have hmem : Op.addConstr ⟨0, [(1, Var.aux (Row.fe 0 0) 0), (1, Var.aux (Row.fe 0 3) 0)]⟩
      Sense.le (LinExpr.ofVar (Var.x 1 0)) ∈ (build_mcf path3).ops := by decide
  refine ⟨path3_simple, ?_, split_feasible_mcf2, hmem, ?_⟩
  · intro r k
    cases r with
    | fe b e => exact on_arcs_nonneg path3 (flow_split_nonneg b k) e
    | y i => exact le_refl 0
    | f i => exact le_refl 0
  · intro hf
    have h := hf _ hmem
    simp only [Op.holds, Sense.rel, LinExpr.eval, List.map_cons, List.map_nil, List.sum_cons,
      List.sum_nil, Var.val, LinExpr.ofVar, flow_split_values.1, flow_split_values.2] at h
    norm_num [X_split] at h

/-! ## Every solution of `build_mcf` solves `build_mcf2` -/

section McfImp

variable {K : Type} [LinearOrderedCommRing K]

theorem list_sum_neg {α : Type} (l : List α) (f : α → K) :
    (l.map (fun a => - f a)).sum = - (l.map f).sum := by
  induction l with
  | nil => simp
  | cons x l ih => simp only [List.map_cons, List.sum_cons, ih]; ring

theorem mcf_imp_mcf2 {g : graph} [Fact (g.nr_nodes ≤ 46340)]
    (hn : g.nr_nodes < 2 ^ 31) (hs : g.Simple)
    {X : Nat → Nat → K} (hX0 : ∀ i, i < g.nr_nodes → ∀ j, j < g.nr_nodes → 0 ≤ X i j)
    {σ : Row → Nat → K} (hf : Feasible (build_mcf g).ops X σ) :
    Feasible (build_mcf2 g).ops X σ := by
  have hok := non_nbs_ok_simple hn hs
  obtain ⟨f0, fb, fc, fd, _⟩ := (feasible_mcf_iff g hok X σ).mp hf
  have hpos : ∀ b, b < g.nr_nodes → ∀ a, a < alt_count g.nr_nodes (g.nb b) →
      ∀ j, j < g.nr_nodes → ∀ i ∈ g.nb j,
      0 ≤ σ (Row.fe b ((hash_edges g).index (i * g.nr_nodes + j))) a := by
    intro b hb a ha j hj i hi
    exact f0 b hb _ (index_lt_nr hs.inRange hs.dupFree (hs.inRange j hj i hi)
      (hs.symm j hj i hi)) a ha
  refine (feasible_mcf2_iff g hok X σ).mpr ⟨f0, ?_, fc, ?_, ?_⟩
  · intro b hb a ha
    rw [fb b hb a ha, sub_self]
  · intro b hb a ha
    apply List.sum_eq_zero
    intro x hx
    obtain ⟨j, hj, rfl⟩ := List.mem_map.mp hx
    exact le_antisymm (fd b hb a ha j hj) (hpos b hb a ha b hb j hj)
  · intro b hb a ha j hj _
    rw [list_sum_neg]
    have h1 : 0 ≤ ((g.nb j).map (fun i =>
        σ (Row.fe b ((hash_edges g).index (i * g.nr_nodes + j))) a)).sum := by
      apply List.sum_nonneg
      intro x hx
      obtain ⟨i, hi, rfl⟩ := List.mem_map.mp hx
      exact hpos b hb a ha j hj i hi
    have h2 := hX0 j hj b hb
    linarith

end McfImp

/-! ## The system emitted by `build_mcf1` and its completeness -/

section Mcf1

variable {K : Type} [LinearOrderedCommRing K]

theorem feasible_ite_nil_right (X : Nat → Nat → K) (σ : Row → Nat → K) (c : Prop)
    [Decidable c] (l : List Op) :
    Feasible (if c then l else []) X σ ↔ (c → Feasible l X σ) := by
  by_cases h : c <;> simp [h]

theorem feasible_mcf1_iff (g : graph) (X : Nat → Nat → K) (σ : Row → Nat → K) :
    Feasible (build_mcf1 g) X σ ↔
      (∀ v, v < g.nr_nodes → ∀ e, e < nr_edges g → 0 ≤ σ (Row.f v) e) ∧
      (∀ v, v < g.nr_nodes → ∀ i, i < g.nr_nodes → ∀ j, j ∈ g.nb i → v = j →
        σ (Row.f v) ((hash_edges g).index (i * g.nr_nodes + j)) = 0 ∨
        σ (Row.f v) ((hash_edges g).index (i * g.nr_nodes + j)) = 1) ∧
      (∀ i, i < g.nr_nodes → ∀ j, j < g.nr_nodes → ¬ i = j →
        ((g.nb j).map (fun nb_j =>
          σ (Row.f i) ((hash_edges g).index (j * g.nr_nodes + nb_j))
          - σ (Row.f i) ((hash_edges g).index (nb_j * g.nr_nodes + j)))).sum - X i j = 0) ∧
      (∀ i, i < g.nr_nodes →
        ((g.nb i).map (fun nb_i =>
          σ (Row.f i) ((hash_edges g).index (i * g.nr_nodes + nb_i)))).sum = 0) ∧
      (∀ i, i < g.nr_nodes → ∀ j, j ∈ g.nb i → ∀ v, v < g.nr_nodes → ¬ (v = i ∨ v = j) →
        σ (Row.f v) ((hash_edges g).index (i * g.nr_nodes + j))
          - σ (Row.f j) ((hash_edges g).index (i * g.nr_nodes + j)) ≤ 0) := by
  simp only [build_mcf1, feasible_append, feasible_flatMap,
    feasible_map, feasible_ite, feasible_ite_nil_right, feasible_cons, feasible_nil, and_true,
    List.mem_range, Op.holds, Sense.rel, eval_foldl_add_sub, eval_foldl_add, eval_ofConst,
    eval_ofVar, eval_subVar, Var.val, Int.cast_zero, zero_add, and_assoc, index_comm,
    reduceCtorEq, false_implies, true_implies, forall_const]

end Mcf1

section Mcf1Complete

variable {K : Type} [LinearOrderedCommRing K]

theorem tree_flow_binary {g : graph} {X : Nat → Nat → K} {π d : Nat → Nat}
    (hF : IsForest g X π d) :
    ∀ k t, t < g.nr_nodes → d t = k → ∀ i j,
      tree_flow π k t i j = (0 : K) ∨ tree_flow π k t i j = (1 : K) := by
  intro k
  induction k with
  | zero => intro t _ _ i j; exact Or.inl rfl
  | succ k ih =>
    intro t ht hdt i j
    have htt := forest_not_center hF ht hdt
    obtain ⟨hπn, _, hdp, _⟩ := (hF t ht).2 htt
    simp only [tree_flow]
    by_cases hcase : i = π t ∧ j = t
    · have h0 : tree_flow π k (π t) i j = (0 : K) := by
        by_contra hne
        have := (tree_flow_support hF k (π t) hπn (by omega) i j hne).2.2.2.1
        rw [hcase.2] at this
        omega
      rw [h0, if_pos hcase, zero_add]
      exact Or.inr rfl
    · rw [if_neg hcase, add_zero]
      exact ih (π t) hπn (by omega) i j

theorem mcf1_complete {g : graph} [Fact (g.nr_nodes ≤ 46340)] (hs : g.Simple) {X : Nat → Nat → K}
    (hX : AssignInv g.nr_nodes X) (hc : Contiguous g X) :
    ∃ σ : Row → Nat → K, Feasible (build_mcf1 g) X σ := by
  classical
  obtain ⟨π, d, hF⟩ := exists_forest hX hc
  have hr := hs.inRange
  have hd := hs.dupFree
  have hsy := hs.symm
  let Φ : Nat → Nat → Nat → K := fun v i j =>
    if v < g.nr_nodes ∧ X v v ≠ 1 then tree_flow π (d v) v i j else 0
  let σ : Row → Nat → K := fun r e =>
    match r with
    | Row.f v => on_arcs g (Φ v) e
    | _ => 0
  have hΦ0 : ∀ v i j, 0 ≤ Φ v i j := by
    intro v i j
    simp only [Φ]
    split
    · exact tree_flow_nonneg _ _ _ _ _
    · exact le_refl 0
  have hΦ1 : ∀ v i j, Φ v i j ≤ 1 := by
    intro v i j
    simp only [Φ]
    split
    · next h => exact tree_flow_le_one hF _ v h.1 rfl i j
    · exact zero_le_one
  have hσ : ∀ v i, i < g.nr_nodes → ∀ j ∈ g.nb i,
      σ (Row.f v) ((hash_edges g).index (i * g.nr_nodes + j)) = Φ v i j :=
    fun v i hi j hj => on_arcs_index hr hd _ hi hj
  have hoff : ∀ v i j, i < g.nr_nodes → j < g.nr_nodes → j ∉ g.nb i → Φ v i j = 0 := by
    intro v i j _ _ hj
    simp only [Φ]
    split
    · next h => exact tree_flow_off hF h.1 rfl hj
    · rfl
  refine ⟨σ, (feasible_mcf1_iff g X σ).mpr ⟨?_, ?_, ?_, ?_, ?_⟩⟩
  · intro v _ e _
    exact on_arcs_nonneg g (hΦ0 v) e
  · intro v hv i hi j hj _
    rw [hσ v i hi j hj]
    simp only [Φ]
    split
    · exact tree_flow_binary hF _ v hv rfl i j
    · exact Or.inl rfl
  · -- (16b)
    intro i hi j hj hij
    rw [sum_nb_net_out hr hd hsy _ (Φ i) (hσ i) (hoff i) hj, sub_eq_zero]
    obtain ⟨b, hb, hib, hbb, _⟩ := hX.2 i hi
    rw [assign_indicator hX hi hb hib hj]
    by_cases hii : X i i = 1
    · have hbi : b = i := assign_unique hX hi hb hi hib hii
      simp only [Φ, hii, ne_eq, not_true_eq_false, and_false, if_false, sub_self,
        Finset.sum_const_zero]
      rw [if_neg]
      rw [hbi]
      exact fun h => hij h.symm
    · simp only [Φ, hi, hii, ne_eq, not_false_eq_true, and_self, if_true]
      rw [tree_flow_net_out hX hF hi rfl hb hib j]
      simp [Ne.symm hij]
  · -- (16c)
    intro i hi
    rw [sum_nb_out hr hd _ (Φ i) (hσ i) (hoff i) hi]
    apply Finset.sum_eq_zero
    intro j _
    simp only [Φ]
    split
    · by_contra hne
      obtain ⟨hjn, hjj, hπ, hle, _⟩ := tree_flow_support hF _ i hi rfl i j hne
      have := ((hF j hjn).2 hjj).2.2.1
      rw [← hπ] at this
      omega
    · rfl
  · -- (16d)
    intro i hi j hj v _ _
    have hjn := hr i hi j hj
    rw [hσ v i hi j hj, hσ j i hi j hj, sub_nonpos]
    by_cases h0 : Φ v i j = 0
    · rw [h0]; exact hΦ0 j i j
    · have hv : v < g.nr_nodes ∧ X v v ≠ 1 := by
        by_contra hn
        exact h0 (by simp only [Φ, if_neg hn])
      have hne : tree_flow π (d v) v i j ≠ (0 : K) := by
        simpa only [Φ, if_pos hv] using h0
      obtain ⟨_, hjj, hπ, _, _⟩ := tree_flow_support hF _ v hv.1 rfl i j hne
      have h1 : Φ j i j = 1 := by
        simp only [Φ, if_pos (And.intro hjn hjj)]
        rw [hπ]
        exact tree_flow_last hF hjn hjj
      rw [h1]
      exact hΦ1 v i j

end Mcf1Complete

/-! ## C4: the connected scenario -/

/-- C4. On the path graph `0 - 1 - 2 - 3` with centers 0 and 3 (candidate centers `{0, 3}` for
`build_shir`) and the assignment `X[0][0] = X[1][0] = X[2][3] = X[3][3] = 1`, all other entries
0, the system emitted by each of `build_scf`, `build_mcf1`, `build_mcf2`, `build_shir` and
`build_mcf` has a feasible setting of its auxiliary variables, and
the two builders with a size check raise no error. -/
theorem scenario_connected_feasible {K : Type} [LinearOrderedCommRing K] :
    (∃ σ : Row → Nat → K, Feasible (build_scf path4) X_good σ) ∧
    (∃ σ : Row → Nat → K, Feasible (build_mcf1 path4) X_good σ) ∧
    ((build_mcf2 path4).error = none ∧
      ∃ σ : Row → Nat → K, Feasible (build_mcf2 path4).ops X_good σ) ∧
    (∃ σ : Row → Nat → K, Feasible (build_shir path4 F0_scen) X_good σ) ∧
    ((build_mcf path4).error = none ∧
      ∃ σ : Row → Nat → K, Feasible (build_mcf path4).ops X_good σ) := by
  have hn : path4.nr_nodes < 2 ^ 31 := by decide
  have hX : AssignInv path4.nr_nodes (X_good : Nat → Nat → K) := X_good_inv
  have hmcf := mcf_complete hn path4_simple hX X_good_contiguous
  refine ⟨scf_complete path4_simple hX X_good_contiguous,
    mcf1_complete path4_simple hX X_good_contiguous, ⟨by decide, ?_⟩,
    shir_complete path4_simple hX X_good_contiguous F0_scen, ⟨by decide, hmcf⟩⟩
  obtain ⟨σ, hσ⟩ := hmcf
  exact ⟨σ, mcf_imp_mcf2 hn path4_simple (fun i hi j hj => assign_nonneg hX hi hj) hσ⟩

/-! ## C5: the disconnected scenario -/

theorem non_nbs_path4 :
    non_nbs path4 0 = [2, 3] ∧ non_nbs path4 1 = [3] ∧ non_nbs path4 2 = [0] ∧
      non_nbs path4 3 = [0, 1] := by decide

theorem index_path4 :
    (hash_edges path4).index 1 = 0 ∧ (hash_edges path4).index 4 = 1 ∧
    (hash_edges path4).index 6 = 2 ∧ (hash_edges path4).index 9 = 3 ∧
    (hash_edges path4).index 11 = 4 ∧ (hash_edges path4).index 14 = 5 ∧
    nr_edges path4 = 6 := by decide

section Path4

variable {K : Type} [LinearOrderedCommRing K]

theorem X_bad_nonneg (i j : Nat) : (0 : K) ≤ X_bad i j := by
  unfold X_bad; split <;> norm_num

theorem flow_bad_nonneg (b a i j : Nat) : (0 : K) ≤ flow_bad b a i j := by
  unfold flow_bad; split <;> norm_num

theorem X_bad_inv : AssignInv path4.nr_nodes (X_bad : Nat → Nat → K) := by
  constructor
  · intro i _ j _
    unfold X_bad
    split
    · exact Or.inr rfl
    · exact Or.inl rfl
  · intro i hi
    have hi4 : i < 4 := hi
    have key : ∀ (c : Nat), c < 4 → (X_bad i c : K) = 1 → (X_bad c c : K) = 1 →
        (∀ j2, j2 < 4 → (X_bad i j2 : K) = 1 → j2 = c) →
        ∃ j, j < path4.nr_nodes ∧ (X_bad i j : K) = 1 ∧ (X_bad j j : K) = 1 ∧
          ∀ j2, j2 < path4.nr_nodes → (X_bad i j2 : K) = 1 → j2 = j :=
      fun c hc h1 h2 h3 => ⟨c, hc, h1, h2, h3⟩
    interval_cases i
    · refine key 0 (by norm_num) (by simp [X_bad]) (by simp [X_bad]) ?_
      intro j2 hj2; interval_cases j2 <;> simp [X_bad]
    · refine key 3 (by norm_num) (by simp [X_bad]) (by simp [X_bad]) ?_
      intro j2 hj2; interval_cases j2 <;> simp [X_bad]
    · refine key 0 (by norm_num) (by simp [X_bad]) (by simp [X_bad]) ?_
      intro j2 hj2; interval_cases j2 <;> simp [X_bad]
    · refine key 3 (by norm_num) (by simp [X_bad]) (by simp [X_bad]) ?_
      intro j2 hj2; interval_cases j2 <;> simp [X_bad]

theorem F0_scen_bad :
    ∀ j, j < path4.nr_nodes → (X_bad j j : K) = 1 → F0_scen j j = false := by
  intro j hj h
  have hj4 : j < 4 := hj
  interval_cases j
  · rfl
  · simp [X_bad] at h
  · simp [X_bad] at h
  · rfl

theorem X_bad_not_contiguous : ¬ Contiguous path4 (X_bad : Nat → Nat → K) := by
  intro hc
  have h := hc 0 (by decide) (by simp [X_bad]) 0 2 ⟨by decide, by simp [X_bad]⟩
    ⟨by decide, by simp [X_bad]⟩
  rcases Relation.ReflTransGen.cases_head h with h0 | ⟨c, hstep, _⟩
  · exact absurd h0 (by decide)
  · obtain ⟨_, ⟨_, hc1⟩, hmem⟩ := hstep
    have hc2 : c = 1 := by simpa [path4] using hmem
    rw [hc2] at hc1
    simp [X_bad] at hc1

theorem bad_feasible_mcf2 :
    Feasible (build_mcf2 path4).ops (X_bad : Nat → Nat → K)
      (flow_setting path4 flow_bad) := by
  apply mcf2_feasible_of_flow (by decide) path4_simple X_bad_nonneg flow_bad flow_bad_nonneg
  · intro b a i j hi hj hnb
    have hi4 : i < 4 := hi
    have hj4 : j < 4 := hj
    interval_cases i <;> interval_cases j <;> simp [flow_bad, path4] at hnb ⊢
  · intro b hb a ha
    have hb4 : b < 4 := hb
    interval_cases b
    · rw [non_nbs_path4.1] at ha ⊢
      have ha2 : a < 2 := by simpa using ha
      interval_cases a <;> simp [path4, Finset.sum_range_succ, flow_bad, X_bad]
    · rw [non_nbs_path4.2.1] at ha ⊢
      have ha2 : a < 1 := by simpa using ha
      interval_cases a
      simp [path4, Finset.sum_range_succ, flow_bad, X_bad]
    · rw [non_nbs_path4.2.2.1] at ha ⊢
      have ha2 : a < 1 := by simpa using ha
      interval_cases a
      simp [path4, Finset.sum_range_succ, flow_bad, X_bad]
    · rw [non_nbs_path4.2.2.2] at ha ⊢
      have ha2 : a < 2 := by simpa using ha
      interval_cases a <;> simp [path4, Finset.sum_range_succ, flow_bad, X_bad]
  · intro b hb a ha i hi hit hib
    have hb4 : b < 4 := hb
    have hi4 : i < 4 := hi
    interval_cases b
    · rw [non_nbs_path4.1] at ha hit
      have ha2 : a < 2 := by simpa using ha
      interval_cases a <;> interval_cases i <;>
        simp [path4, Finset.sum_range_succ, flow_bad] at hit hib ⊢
    · rw [non_nbs_path4.2.1] at ha hit
      have ha2 : a < 1 := by simpa using ha
      interval_cases a
      interval_cases i <;>
        simp [path4, Finset.sum_range_succ, flow_bad] at hit hib ⊢
    · rw [non_nbs_path4.2.2.1] at ha hit
      have ha2 : a < 1 := by simpa using ha
      interval_cases a
      interval_cases i <;>
        simp [path4, Finset.sum_range_succ, flow_bad] at hit hib ⊢
    · rw [non_nbs_path4.2.2.2] at ha hit
      have ha2 : a < 2 := by simpa using ha
      interval_cases a <;> interval_cases i <;>
        simp [path4, Finset.sum_range_succ, flow_bad] at hit hib ⊢
  · intro b hb a ha
    have hb4 : b < 4 := hb
    interval_cases b
    · rw [non_nbs_path4.1] at ha
      have ha2 : a < 2 := by simpa using ha
      interval_cases a <;> simp [path4, Finset.sum_range_succ, flow_bad]
    · rw [non_nbs_path4.2.1] at ha
      have ha2 : a < 1 := by simpa using ha
      interval_cases a
      simp [path4, Finset.sum_range_succ, flow_bad]
    · rw [non_nbs_path4.2.2.1] at ha
      have ha2 : a < 1 := by simpa using ha
      interval_cases a
      simp [path4, Finset.sum_range_succ, flow_bad]
    · rw [non_nbs_path4.2.2.2] at ha
      have ha2 : a < 2 := by simpa using ha
      interval_cases a <;> simp [path4, Finset.sum_range_succ, flow_bad]

theorem bad_infeasible_mcf1 (σ : Row → Nat → K) :
    ¬ Feasible (build_mcf1 path4) (X_bad : Nat → Nat → K) σ := by
  intro hf
  obtain ⟨f0, _, f16b, f16c, f16d⟩ := (feasible_mcf1_iff path4 X_bad σ).mp hf
  have hn : path4.nr_nodes = 4 := rfl
  have hnb0 : path4.nb 0 = [1] := rfl
  have hnb1 : path4.nb 1 = [0, 2] := rfl
  have h1 := f16b 2 (by decide) 0 (by decide) (by decide)
  have h2 := f16d 0 (by decide) 1 (by decide) 2 (by decide) (by decide)
  have h3 := f16b 1 (by decide) 0 (by decide) (by decide)
  have h4 := f16c 1 (by decide)
  have p1 := f0 2 (by decide) 1 (by rw [index_path4.2.2.2.2.2.2]; decide)
  have p2 := f0 1 (by decide) 2 (by rw [index_path4.2.2.2.2.2.2]; decide)
  simp only [hn, hnb0, hnb1, List.map_cons, List.map_nil, List.sum_cons, List.sum_nil,
    Nat.zero_mul, Nat.one_mul, Nat.zero_add, Nat.add_zero, Nat.reduceAdd, Nat.reduceMul,
    index_path4.1, index_path4.2.1, index_path4.2.2.1, add_zero] at h1 h2 h3 h4
  have x1 : (X_bad 2 0 : K) = 1 := by simp [X_bad]
  have x2 : (X_bad 1 0 : K) = 0 := by simp [X_bad]
  rw [x1] at h1
  rw [x2] at h3
  linarith

end Path4


/-- C5 at the failing input. On the path graph `0 - 1 - 2 - 3` with the disconnected assignment
`X[0][0] = X[2][0] = X[1][3] = X[3][3] = 1`, the system emitted by `build_mcf2` is feasible:
one unit along `0 → 1 → 2` for base 0 and one unit along `3 → 2 → 1` for base 3 satisfy all its
constraints, because its sink bound is emitted as `- inflow - x <= 0`.  The systems of the
other four builders (`build_scf`, `build_mcf1`, `build_shir` with candidate centers 0 and 3,
`build_mcf`) have no feasible setting. -/
theorem scenario_disconnected_mcf2_feasible :
    AssignInv path4.nr_nodes (X_bad : Nat → Nat → ℚ) ∧
    ¬ Contiguous path4 (X_bad : Nat → Nat → ℚ) ∧
    (build_mcf2 path4).error = none ∧
    Feasible (build_mcf2 path4).ops (X_bad : Nat → Nat → ℚ) (flow_setting path4 flow_bad) ∧
    (¬ ∃ σ : Row → Nat → ℚ, Feasible (build_scf path4) X_bad σ) ∧
    (¬ ∃ σ : Row → Nat → ℚ, Feasible (build_mcf1 path4) X_bad σ) ∧
    (¬ ∃ σ : Row → Nat → ℚ, Feasible (build_shir path4 F0_scen) X_bad σ) ∧
    (¬ ∃ σ : Row → Nat → ℚ, Feasible (build_mcf path4).ops X_bad σ) := by
  refine ⟨X_bad_inv, X_bad_not_contiguous, by decide, bad_feasible_mcf2, ?_, ?_, ?_, ?_⟩
  · rintro ⟨σ, hσ⟩
    exact X_bad_not_contiguous (scf_sound path4_simple X_bad_inv hσ)
  · rintro ⟨σ, hσ⟩
    exact bad_infeasible_mcf1 σ hσ
  · rintro ⟨σ, hσ⟩
    exact X_bad_not_contiguous (shir_sound path4_simple X_bad_inv F0_scen_bad hσ)
  · rintro ⟨σ, hσ⟩
    exact X_bad_not_contiguous (mcf_sound (by decide) path4_simple X_bad_inv hσ)

/-! ## Variable counts -/

theorem var_count_append (a b : List Op) : var_count (a ++ b) = var_count a + var_count b := by
  induction a with
  | nil => simp [var_count]
  | cons op a ih => cases op <;> simp [var_count, ih, Nat.add_assoc]

theorem var_count_flatMap {α : Type} (l : List α) (f : α → List Op) :
    var_count (l.flatMap f) = (l.map (fun a => var_count (f a))).sum := by
  induction l with
  | nil => simp [var_count]
  | cons a l ih => simp [List.flatMap_cons, var_count_append, ih]

theorem var_count_map_addVars {α : Type} (l : List α) (r : α → Row) (c : α → Nat)
    (t : α → VType) :
    var_count (l.map (fun a => Op.addVars (r a) (c a) (t a))) = (l.map c).sum := by
  induction l with
  | nil => simp [var_count]
  | cons a l ih => simp [var_count, ih]

theorem var_count_map_addConstr {α : Type} (l : List α) (p : α → LinExpr) (s : α → Sense)
    (q : α → LinExpr) :
    var_count (l.map (fun a => Op.addConstr (p a) (s a) (q a))) = 0 := by
  induction l with
  | nil => simp [var_count]
  | cons a l ih => simp [var_count, ih]

theorem var_count_map_setUB {α : Type} (l : List α) (p : α → Var) (u : α → Int) :
    var_count (l.map (fun a => Op.setUB (p a) (u a))) = 0 := by
  induction l with
  | nil => simp [var_count]
  | cons a l ih => simp [var_count, ih]

theorem var_count_ite_left (c : Prop) [Decidable c] (l : List Op) :
    var_count (if c then [] else l) = if c then 0 else var_count l := by
  by_cases h : c <;> simp [h, var_count]

theorem var_count_ite_right (c : Prop) [Decidable c] (l : List Op) :
    var_count (if c then l else []) = if c then var_count l else 0 := by
  by_cases h : c <;> simp [h, var_count]

theorem sum_map_zero {α : Type} (l : List α) : (l.map (fun _ => 0)).sum = 0 := by
  induction l with
  | nil => rfl
  | cons a l ih => simp

theorem var_count_scf (g : graph) :
    var_count (build_scf g) = 2 * (g.nr_nodes * g.nr_nodes) := by
  simp only [build_scf, var_count_append, var_count_flatMap, var_count_map_addVars,
    var_count_map_addConstr, var_count, sum_map_zero, List.map_const', List.sum_replicate,
    List.length_range, smul_eq_mul, Nat.add_zero]
  simp
  ring

theorem var_count_mcf1 (g : graph) :
    var_count (build_mcf1 g) = g.nr_nodes * nr_edges g := by
  simp only [build_mcf1, var_count_append, var_count_flatMap, var_count_map_addVars,
    var_count_map_addConstr, var_count_ite_left, var_count_ite_right, var_count, sum_map_zero,
    List.map_const', List.sum_replicate, ite_self,
    List.length_range, smul_eq_mul, Nat.add_zero]
  simp

theorem var_count_shir (g : graph) (F0 : Nat → Nat → Bool) :
    var_count (build_shir g F0) = (shir_centers g F0).length * nr_edges g := by
  simp only [build_shir, var_count_append, var_count_flatMap, var_count_map_addVars,
    var_count_map_addConstr, var_count_map_setUB, var_count_ite_left, var_count_ite_right,
    var_count, sum_map_zero,
    List.map_const', List.sum_replicate, ite_self,
    List.length_range, smul_eq_mul, Nat.add_zero]
  simp

theorem var_count_mcf_vars (g : graph) :
    var_count (mcf_vars g) = ((List.range g.nr_nodes).map (fun i =>
      nr_edges g * alt_count g.nr_nodes (g.nb i))).sum := by
  simp only [mcf_vars, var_count_flatMap, var_count_map_addVars,
    List.map_const', List.sum_replicate, List.length_range, smul_eq_mul]

theorem var_count_mcf2 (g : graph) :
    var_count (build_mcf2 g).ops = var_count (mcf_vars g) := by
  unfold build_mcf2
  split
  · simp only [var_count_append, var_count_flatMap,
      var_count_map_addConstr, var_count_map_setUB, var_count_ite_left, var_count_ite_right,
      var_count, sum_map_zero, List.map_const', List.sum_replicate, ite_self,
      List.length_range, smul_eq_mul, Nat.add_zero, Nat.mul_zero]
  · rfl

theorem var_count_mcf (g : graph) :
    var_count (build_mcf g).ops = var_count (mcf_vars g) := by
  unfold build_mcf
  split
  · simp only [var_count_append, var_count_flatMap,
      var_count_map_addConstr, var_count_map_setUB, var_count_ite_left, var_count_ite_right,
      var_count, sum_map_zero, List.map_const', List.sum_replicate, ite_self,
      List.length_range, smul_eq_mul, Nat.add_zero, Nat.mul_zero]
  · rfl

/-! ## C14, C15: how many variables the builders create -/

theorem mem_build_scf_addVars (g : graph) (r : Row) (c : Nat) (t : VType) :
    Op.addVars r c t ∈ build_scf g ↔
      ∃ i, i < g.nr_nodes ∧ c = g.nr_nodes ∧
        ((r = Row.y i ∧ t = VType.binary) ∨ (r = Row.f i ∧ t = VType.continuous)) := by
  simp only [build_scf, List.mem_append, List.mem_map, List.mem_flatMap, List.mem_range,
    List.mem_singleton, List.mem_cons, Op.addVars.injEq, reduceCtorEq, and_false,
    exists_false, or_false, exists_const, List.not_mem_nil, false_or]
  constructor
  · rintro (⟨i, hi, h1, h2, h3⟩ | ⟨i, hi, h1, h2, h3⟩)
    · exact ⟨i, hi, h2.symm, Or.inl ⟨h1.symm, h3.symm⟩⟩
    · exact ⟨i, hi, h2.symm, Or.inr ⟨h1.symm, h3.symm⟩⟩
  · rintro ⟨i, hi, h2, (⟨h1, h3⟩ | ⟨h1, h3⟩)⟩
    · exact Or.inl ⟨i, hi, h1.symm, h2.symm, h3.symm⟩
    · exact Or.inr ⟨i, hi, h1.symm, h2.symm, h3.symm⟩

/-- C14 refuted as stated. On the path graph `0 - 1 - 2 - 3`, which has 6 arcs, `build_scf`
creates 32 auxiliary variables, not `2 * 6 = 12`: among them the whole array `y[0]` of 4 binary
variables, although node 0 has the single arc `(0, 1)`. -/
theorem scf_var_count_counterexample :
    ((List.range path4.nr_nodes).map (fun i => (path4.nb i).length)).sum = 6 ∧
    var_count (build_scf path4) = 32 ∧
    var_count (build_scf path4)
      ≠ 2 * ((List.range path4.nr_nodes).map (fun i => (path4.nb i).length)).sum ∧
    Op.addVars (Row.y 0) 4 VType.binary ∈ build_scf path4 ∧ path4.nb 0 = [1] := by
  decide

/-- C14 as amended. For every graph with `n` nodes, `build_scf` creates exactly `2 * n * n`
auxiliary variables: for every node `i` an array `y[i]` of `n` binary variables and an array
`f[i]` of `n` continuous variables, and no other variable; there is one `y` and one `f` for
every ordered pair of nodes, arc or not. -/
theorem scf_var_count (g : graph) :
    var_count (build_scf g) = 2 * (g.nr_nodes * g.nr_nodes) ∧
    (∀ r c t, Op.addVars r c t ∈ build_scf g ↔
      ∃ i, i < g.nr_nodes ∧ c = g.nr_nodes ∧
        ((r = Row.y i ∧ t = VType.binary) ∨ (r = Row.f i ∧ t = VType.continuous))) :=
  ⟨var_count_scf g, mem_build_scf_addVars g⟩

theorem shir_centers_length_le (g : graph) (F0 : Nat → Nat → Bool) :
    (shir_centers g F0).length ≤ g.nr_nodes := by
  unfold shir_centers
  exact (List.length_filter_le _ _).trans (by simp)

/-- C15 as amended. For a simple graph with `n <= 46340` nodes (so that the `int` key `i*n + j`
does not overflow) and `|E|` arcs (the total number of
adjacency entries): `build_mcf1` creates `n * |E|` flow variables, `build_mcf2` and
`build_mcf` each create the sum over the nodes `i` of `|E| * (n - 1 - |nb(i)|)` flow variables,
and `build_shir` creates `|C| * |E|` flow variables, where `C`, the list `centers`, holds
exactly the nodes `i` with `F0[i][i]` false, each once, so `|C| <= n`. -/
theorem multi_commodity_var_counts (g : graph) (hnodes : g.nr_nodes ≤ 46340) (hs : g.Simple)
    (F0 : Nat → Nat → Bool) :
    var_count (build_mcf1 g)
      = g.nr_nodes * ((List.range g.nr_nodes).map (fun i => (g.nb i).length)).sum ∧
    var_count (build_mcf2 g).ops
      = ((List.range g.nr_nodes).map (fun i =>
          ((List.range g.nr_nodes).map (fun k => (g.nb k).length)).sum
            * (g.nr_nodes - 1 - (g.nb i).length))).sum ∧
    var_count (build_mcf g).ops
      = ((List.range g.nr_nodes).map (fun i =>
          ((List.range g.nr_nodes).map (fun k => (g.nb k).length)).sum
            * (g.nr_nodes - 1 - (g.nb i).length))).sum ∧
    var_count (build_shir g F0)
      = (shir_centers g F0).length
          * ((List.range g.nr_nodes).map (fun i => (g.nb i).length)).sum ∧
    (shir_centers g F0).length ≤ g.nr_nodes ∧ (shir_centers g F0).Nodup ∧
    (∀ i, i ∈ shir_centers g F0 ↔ i < g.nr_nodes ∧ F0 i i = false) := by
  haveI : Fact (g.nr_nodes ≤ 46340) := ⟨hnodes⟩
  have hn : g.nr_nodes < 2 ^ 31 := lt_of_le_of_lt hnodes (by norm_num)
  have hE := (arc_index_facts g hs.inRange hs.dupFree).1
  have hv : var_count (mcf_vars g) = ((List.range g.nr_nodes).map (fun i =>
      ((List.range g.nr_nodes).map (fun k => (g.nb k).length)).sum
        * (g.nr_nodes - 1 - (g.nb i).length))).sum := by
    rw [var_count_mcf_vars]
    congr 1
    apply List.map_congr_left
    intro i hi
    have hi2 := List.mem_range.mp hi
    have hlen := non_nbs_length hs.inRange hs.dupFree hs.loopless hi2
    rw [hE, alt_count_eq hn (by omega)]
  refine ⟨?_, ?_, ?_, ?_, shir_centers_length_le g F0, ?_, fun i => mem_shir_centers⟩
  · rw [var_count_mcf1, hE]
  · rw [var_count_mcf2, hv]
  · rw [var_count_mcf, hv]
  · rw [var_count_shir, hE]
  · exact (List.nodup_range _).filter _

/-- Witness of C15 on the path graph `0 - 1 - 2 - 3` with candidate centers 0 and 3. -/
theorem multi_commodity_var_counts_witness :
    path4.nr_nodes ≤ 46340 ∧ path4.Simple ∧
    var_count (build_mcf1 path4)
      = path4.nr_nodes * ((List.range path4.nr_nodes).map (fun i => (path4.nb i).length)).sum :=
  ⟨by decide, path4_simple,
    (multi_commodity_var_counts path4 (by decide) path4_simple F0_scen).1⟩

/-! ## C19: capacity coupling of `build_scf` -/

section Coupling

variable {K : Type} [LinearOrderedCommRing K]

theorem mem_build_scf_coupling (g : graph) {i j : Nat} (hi : i < g.nr_nodes)
    (hj : j ∈ g.nb i) :
    Op.addConstr ((LinExpr.ofVar (Var.aux (Row.f i) j)).subVar (Var.aux (Row.y i) j)) Sense.ge
      (LinExpr.ofConst 0) ∈ build_scf g ∧
    Op.addConstr ((LinExpr.ofVar (Var.aux (Row.f i) j)).subTerm g.nr_nodes
      (Var.aux (Row.y i) j)) Sense.le (LinExpr.ofConst 0) ∈ build_scf g := by
  simp only [build_scf, List.mem_append, List.mem_map, List.mem_flatMap, List.mem_range,
    List.mem_cons]
  constructor
  · exact Or.inl (Or.inl (Or.inr ⟨i, hi, j, hj, Or.inl rfl⟩))
  · exact Or.inl (Or.inl (Or.inr ⟨i, hi, j, hj, Or.inr (Or.inl rfl)⟩))

end Coupling

/-- C19. For every graph and every arc `(i, j)`, `build_scf` emits `f[i][j] - y[i][j] >= 0` and
`f[i][j] - n*y[i][j] <= 0`.  Hence in every setting that satisfies the emitted constraints and
in which `y[i][j]` is 0 or 1: the flow on an unselected arc is 0, the flow on a selected arc
lies between 1 and `n`, and in either case the flow is at most `n`.  In a feasible setting
`y[i][j]` is 0 or 1 as soon as `j` is a node `0..n-1`. -/
theorem scf_capacity_coupling {K : Type} [LinearOrderedCommRing K] (g : graph) (i j : Nat)
    (hi : i < g.nr_nodes) (hj : j ∈ g.nb i) :
    Op.addConstr ((LinExpr.ofVar (Var.aux (Row.f i) j)).subVar (Var.aux (Row.y i) j)) Sense.ge
      (LinExpr.ofConst 0) ∈ build_scf g ∧
    Op.addConstr ((LinExpr.ofVar (Var.aux (Row.f i) j)).subTerm g.nr_nodes
      (Var.aux (Row.y i) j)) Sense.le (LinExpr.ofConst 0) ∈ build_scf g ∧
    (∀ (X : Nat → Nat → K) (σ : Row → Nat → K), SatisfiesConstrs (build_scf g) X σ →
      (σ (Row.y i) j = 0 ∨ σ (Row.y i) j = 1) →
      (σ (Row.y i) j = 0 → σ (Row.f i) j = 0) ∧
      (σ (Row.y i) j = 1 → 1 ≤ σ (Row.f i) j ∧ σ (Row.f i) j ≤ (g.nr_nodes : K)) ∧
      σ (Row.f i) j ≤ (g.nr_nodes : K)) ∧
    (∀ (X : Nat → Nat → K) (σ : Row → Nat → K), Feasible (build_scf g) X σ →
      j < g.nr_nodes → σ (Row.y i) j = 0 ∨ σ (Row.y i) j = 1) := by
  obtain ⟨m1, m2⟩ := mem_build_scf_coupling g hi hj
  refine ⟨m1, m2, ?_, ?_⟩
  · intro X σ hs hy
    have h1 := hs _ _ _ m1
    have h2 := hs _ _ _ m2
    simp only [Sense.rel, eval_subVar, eval_subTerm, eval_ofVar, eval_ofConst, Var.val,
      Int.cast_zero, Int.cast_natCast, ge_iff_le, sub_nonneg, sub_nonpos] at h1 h2
    have hn0 : (0 : K) ≤ (g.nr_nodes : K) := Nat.cast_nonneg _
    refine ⟨fun h0 => ?_, fun h1y => ?_, ?_⟩
    · rw [h0] at h1 h2
      rw [mul_zero] at h2
      exact le_antisymm h2 h1
    · rw [h1y] at h1 h2
      rw [mul_one] at h2
      exact ⟨h1, h2⟩
    · rcases hy with h0 | h1y
      · rw [h0, mul_zero] at h2
        exact le_trans h2 hn0
      · rw [h1y, mul_one] at h2
        exact h2
  · intro X σ hf hjn
    exact (((feasible_scf_iff g X σ).mp hf).1 i hi j hjn).2

/-- Witness of C19 on the arc `(0, 1)` of the path graph `0 - 1 - 2 - 3`. -/
theorem scf_capacity_coupling_witness :
    0 < path4.nr_nodes ∧ 1 ∈ path4.nb 0 ∧
    Op.addConstr ((LinExpr.ofVar (Var.aux (Row.f 0) 1)).subVar (Var.aux (Row.y 0) 1)) Sense.ge
      (LinExpr.ofConst 0) ∈ build_scf path4 :=
  ⟨by decide, by decide, (@scf_capacity_coupling ℚ _ path4 0 1 (by decide) (by decide)).1⟩

/-! ## C18: commodity domination in `build_mcf1` -/

section Domination

variable {K : Type} [LinearOrderedCommRing K]

end Domination

theorem mcf1_zero_feasible {K : Type} [LinearOrderedCommRing K] (g : graph) :
    Feasible (build_mcf1 g) (fun _ _ => (0 : K)) (fun _ _ => (0 : K)) := by
  rw [feasible_mcf1_iff]
  simp

theorem non_nbs_length_card {g : graph} (hr : g.InRange) {b : Nat} (hb : b < g.nr_nodes) :
    (non_nbs g b).length + (insert b (g.nb b).toFinset).card = g.nr_nodes := by
  rw [non_nbs_eq]
  have h1 : ((List.range g.nr_nodes).filter (fun j => decide (j ≠ b ∧ j ∉ g.nb b))).length
      = ((Finset.range g.nr_nodes).filter (fun j => j ≠ b ∧ j ∉ g.nb b)).card := by
    rw [← List.toFinset_card_of_nodup ((List.nodup_range _).filter _)]
    congr 1
    ext j
    simp [List.mem_filter]
  have h2 : (Finset.range g.nr_nodes).filter (fun j => j ≠ b ∧ j ∉ g.nb b)
      = Finset.range g.nr_nodes \ insert b (g.nb b).toFinset := by
    ext j
    simp only [Finset.mem_filter, Finset.mem_range, Finset.mem_sdiff, Finset.mem_insert,
      List.mem_toFinset, not_or]
  have h3 : insert b (g.nb b).toFinset ⊆ Finset.range g.nr_nodes := by
    intro j hj
    rcases Finset.mem_insert.mp hj with h | h
    · subst h; exact Finset.mem_range.mpr hb
    · exact Finset.mem_range.mpr (hr b hb j (List.mem_toFinset.mp h))
  rw [h1, h2, Finset.card_sdiff h3, Finset.card_range]
  have := Finset.card_le_card h3
  rw [Finset.card_range] at this
  omega

theorem non_nbs_length_le (g : graph) (b : Nat) : (non_nbs g b).length ≤ g.nr_nodes := by
  rw [non_nbs_eq]
  exact (List.length_filter_le _ _).trans (by simp)

theorem card_insert_eq_iff (l : List Nat) (b : Nat) :
    (insert b l.toFinset).card = l.length + 1 ↔ b ∉ l ∧ l.Nodup := by
  have hle := List.toFinset_card_le l
  constructor
  · intro h
    have hb : b ∉ l := by
      intro hb
      rw [Finset.card_insert_of_mem (List.mem_toFinset.mpr hb)] at h
      omega
    refine ⟨hb, ?_⟩
    rw [Finset.card_insert_of_not_mem (by simpa using hb), List.card_toFinset] at h
    have := (List.dedup_sublist l).eq_of_length (by omega)
    exact List.dedup_eq_self.mp this
  · rintro ⟨hb, hnd⟩
    rw [Finset.card_insert_of_not_mem (by simpa using hb), List.toFinset_card_of_nodup hnd]

theorem size_check_iff_int {g : graph} (hn : g.nr_nodes < 2 ^ 31) {b : Nat}
    (hlen : (g.nb b).length < 2 ^ 62) :
    (non_nbs g b).length = alt_count g.nr_nodes (g.nb b) ↔
      ((non_nbs g b).length : Int) = (g.nr_nodes : Int) - 1 - ((g.nb b).length : Int) := by
  have hle := non_nbs_length_le g b
  unfold alt_count
  by_cases hz : (0 : Int) ≤ (g.nr_nodes : Int) - 1 - ((g.nb b).length : Int)
  · rw [Int.emod_eq_of_lt hz (by omega)]
    omega
  · have hz2 := not_le.mp hz
    have e : ((g.nr_nodes : Int) - 1 - ((g.nb b).length : Int)) % 2 ^ 64
        = (g.nr_nodes : Int) - 1 - ((g.nb b).length : Int) + 2 ^ 64 := by
      rw [← Int.add_emod_self, Int.emod_eq_of_lt (by omega) (by omega)]
    rw [e]
    omega

theorem non_nbs_ok_false_iff (g : graph) :
    non_nbs_ok g = false ↔
      ∃ b, b < g.nr_nodes ∧ (non_nbs g b).length ≠ alt_count g.nr_nodes (g.nb b) := by
  unfold non_nbs_ok
  rw [List.all_eq_false]
  simp only [List.mem_range, beq_iff_eq]

theorem build_mcf2_error (g : graph) :
    ((build_mcf2 g).error = some non_nb_error ↔ non_nbs_ok g = false) ∧
    ((build_mcf2 g).error = none ∨
      ((build_mcf2 g).error = some non_nb_error ∧ (build_mcf2 g).ops = mcf_vars g)) := by
  unfold build_mcf2
  cases h : non_nbs_ok g <;> simp

theorem build_mcf_error (g : graph) :
    ((build_mcf g).error = some non_nb_error ↔ non_nbs_ok g = false) ∧
    ((build_mcf g).error = none ∨
      ((build_mcf g).error = some non_nb_error ∧ (build_mcf g).ops = mcf_vars g)) := by
  unfold build_mcf
  cases h : non_nbs_ok g <;> simp

theorem mcf_vars_only_addVars (g : graph) :
    ∀ op ∈ mcf_vars g, ∃ r c t, op = Op.addVars r c t := by
  intro op hop
  simp only [mcf_vars, List.mem_flatMap, List.mem_map] at hop
  obtain ⟨i, _, j, _, rfl⟩ := hop
  exact ⟨_, _, _, rfl⟩

/-- C12. Let the node count be an `int` and the adjacency lists be vectors (fewer than `2^62`
entries).  `build_mcf2` and `build_mcf` raise `Internal Error : non nb size for mcf2` if and
only if for some node `b` the length of `non_nbs[b]` differs from `n - 1 - |nb(b)|`; when the
adjacency entries are nodes `0..n-1` this happens if and only if some adjacency list contains
its own node or a repeated entry.  No other error is raised, and when the error is raised the
only operations performed on the model are the creations of variables: no constraint has been
added and no bound set. -/
theorem size_check_error (g : graph) (hn : g.nr_nodes < 2 ^ 31)
    (hlen : ∀ b, b < g.nr_nodes → (g.nb b).length < 2 ^ 62) :
    ((build_mcf2 g).error = some non_nb_error ↔
      ∃ b, b < g.nr_nodes ∧
        ((non_nbs g b).length : Int) ≠ (g.nr_nodes : Int) - 1 - ((g.nb b).length : Int)) ∧
    ((build_mcf g).error = some non_nb_error ↔
      ∃ b, b < g.nr_nodes ∧
        ((non_nbs g b).length : Int) ≠ (g.nr_nodes : Int) - 1 - ((g.nb b).length : Int)) ∧
    (g.InRange →
      ((∃ b, b < g.nr_nodes ∧
        ((non_nbs g b).length : Int) ≠ (g.nr_nodes : Int) - 1 - ((g.nb b).length : Int)) ↔
      ∃ b, b < g.nr_nodes ∧ (b ∈ g.nb b ∨ ¬ (g.nb b).Nodup))) ∧
    ((build_mcf2 g).error = none ∨ ((build_mcf2 g).error = some non_nb_error ∧
      ∀ op ∈ (build_mcf2 g).ops, ∃ r c t, op = Op.addVars r c t)) ∧
    ((build_mcf g).error = none ∨ ((build_mcf g).error = some non_nb_error ∧
      ∀ op ∈ (build_mcf g).ops, ∃ r c t, op = Op.addVars r c t)) := by
  have key : non_nbs_ok g = false ↔ ∃ b, b < g.nr_nodes ∧
      ((non_nbs g b).length : Int) ≠ (g.nr_nodes : Int) - 1 - ((g.nb b).length : Int) := by
    rw [non_nbs_ok_false_iff]
    constructor
    · rintro ⟨b, hb, h⟩
      exact ⟨b, hb, fun h2 => h ((size_check_iff_int hn (hlen b hb)).mpr h2)⟩
    · rintro ⟨b, hb, h⟩
      exact ⟨b, hb, fun h2 => h ((size_check_iff_int hn (hlen b hb)).mp h2)⟩
  refine ⟨(build_mcf2_error g).1.trans key, (build_mcf_error g).1.trans key, ?_, ?_, ?_⟩
  · intro hr
    constructor
    · rintro ⟨b, hb, h⟩
      refine ⟨b, hb, ?_⟩
      by_contra hcon
      push_neg at hcon
      have h1 := (card_insert_eq_iff (g.nb b) b).mpr hcon
      have h2 := non_nbs_length_card hr hb
      exact h (by omega)
    · rintro ⟨b, hb, h⟩
      refine ⟨b, hb, fun heq => ?_⟩
      have h2 := non_nbs_length_card hr hb
      have h3 : (insert b (g.nb b).toFinset).card = (g.nb b).length + 1 := by omega
      have h4 := (card_insert_eq_iff (g.nb b) b).mp h3
      rcases h with h | h
      · exact h4.1 h
      · exact h h4.2
  · rcases (build_mcf2_error g).2 with h | ⟨h1, h2⟩
    · exact Or.inl h
    · exact Or.inr ⟨h1, by rw [h2]; exact mcf_vars_only_addVars g⟩
  · rcases (build_mcf_error g).2 with h | ⟨h1, h2⟩
    · exact Or.inl h
    · exact Or.inr ⟨h1, by rw [h2]; exact mcf_vars_only_addVars g⟩

/-- Witness of C12 on a graph with a self-loop: both builders raise the error. -/
theorem size_check_error_witness :
    loop2.nr_nodes < 2 ^ 31 ∧ (∀ b, b < loop2.nr_nodes → (loop2.nb b).length < 2 ^ 62) ∧
    (build_mcf2 loop2).error = some non_nb_error ∧ (build_mcf loop2).error = some non_nb_error :=
  ⟨by decide, by decide,
    (size_check_error loop2 (by decide) (by decide)).1.mpr ⟨0, by decide, by decide⟩,
    (size_check_error loop2 (by decide) (by decide)).2.1.mpr ⟨0, by decide, by decide⟩⟩

/-! ## C17: enumeration order of the arc index -/

theorem indexOf_map_inj_on {α β : Type} [DecidableEq α] [DecidableEq β] (f : α → β) :
    ∀ (l : List α), (∀ x ∈ l, ∀ y ∈ l, f x = f y → x = y) → ∀ a ∈ l,
      (l.map f).indexOf (f a) = l.indexOf a := by
  intro l
  induction l with
  | nil => intro _ a ha; cases ha
  | cons x l ih =>
    intro hinj a ha
    by_cases hax : a = x
    · subst hax; simp
    · have hne : f a ≠ f x := fun h =>
        hax (hinj a ha x (List.mem_cons_self _ _) h)
      have hal : a ∈ l := by
        rcases List.mem_cons.mp ha with h | h
        · exact absurd h hax
        · exact h
      rw [List.map_cons, List.indexOf_cons_ne _ (Ne.symm hne),
        List.indexOf_cons_ne _ (Ne.symm hax),
        ih (fun u hu w hw h => hinj u (List.mem_cons_of_mem _ hu) w (List.mem_cons_of_mem _ hw) h)
          a hal]

theorem indexOf_arcs_upto (g : graph) : ∀ (m i j : Nat), i < m → j ∈ g.nb i →
    @List.indexOf (Nat × Nat) instBEqOfDecidableEq (i, j)
        ((List.range m).flatMap (fun i => (g.nb i).map (fun j => (i, j))))
      = ((List.range i).map (fun k => (g.nb k).length)).sum + (g.nb i).indexOf j := by
  intro m
  induction m with
  | zero => intro i j hi; omega
  | succ m ih =>
    intro i j hi hj
    rw [List.range_succ, List.flatMap_append]
    by_cases him : i < m
    · have hmem : (i, j) ∈ (List.range m).flatMap (fun i => (g.nb i).map (fun j => (i, j))) := by
        simp only [List.mem_flatMap, List.mem_range, List.mem_map, Prod.mk.injEq]
        exact ⟨i, him, j, hj, rfl, rfl⟩
      rw [List.indexOf_append_of_mem hmem]
      exact ih i j him hj
    · have him2 : i = m := by omega
      subst him2
      have hnot : (i, j) ∉ (List.range i).flatMap (fun i => (g.nb i).map (fun j => (i, j))) := by
        simp only [List.mem_flatMap, List.mem_range, List.mem_map, Prod.mk.injEq, not_exists,
          not_and]
        intro k hk _ _ hki
        omega
      rw [List.indexOf_append_of_not_mem hnot, List.length_flatMap]
      congr 1
      · congr 1
        apply List.map_congr_left
        intro k _
        simp
      · simp only [List.flatMap_cons, List.flatMap_nil, List.append_nil]
        exact indexOf_map_inj_on (fun j => (i, j)) (g.nb i)
          (fun x _ y _ h => by simpa using h) j hj

theorem index_formula {g : graph} [Fact (g.nr_nodes ≤ 46340)]
    (hr : g.InRange) (hd : g.DupFree) {i j : Nat}
    (hi : i < g.nr_nodes) (hj : j ∈ g.nb i) :
    (hash_edges g).index (i * g.nr_nodes + j)
      = ((List.range i).map (fun k => (g.nb k).length)).sum + (g.nb i).indexOf j := by
  have ha : (i, j) ∈ arcs g :=
    mem_arcs.mpr (show (i, j).1 < g.nr_nodes ∧ (i, j).2 ∈ g.nb (i, j).1 from ⟨hi, hj⟩)
  have hk : arc_key g.nr_nodes (i, j) ∈ (arcs g).map (arc_key g.nr_nodes) :=
    List.mem_map_of_mem _ ha
  have h := lookup_zip_range ((arcs g).map (arc_key g.nr_nodes)) 0 (arc_key g.nr_nodes (i, j))
  rw [if_pos hk, List.length_map, ← hash_edges_eq hr hd] at h
  have e : (hash_edges g).index (i * g.nr_nodes + j)
      = ((arcs g).map (arc_key g.nr_nodes)).indexOf (arc_key g.nr_nodes (i, j)) := by
    have hrepr := int_repr_arc_key hr ha
    simp only [arc_key] at h hrepr
    simp [EdgeMap.index, hrepr, h, arc_key]
  rw [e, indexOf_map_inj_on (arc_key g.nr_nodes) (arcs g)
    (fun x hx y hy h => arc_key_inj hr hx hy h) (i, j) ha]
  exact indexOf_arcs_upto g g.nr_nodes i j hi hj

theorem hash_edges_congr {g g2 : graph} (hn : g2.nr_nodes = g.nr_nodes)
    (hnb : ∀ i, i < g.nr_nodes → g2.nb i = g.nb i) : hash_edges g2 = hash_edges g := by
  unfold hash_edges hash_edges_loop
  rw [hn]
  congr 1
  apply List.foldl_ext
  intro st i hi
  rw [hnb i (List.mem_range.mp hi)]

/-- C17 as amended. For a graph with at most 46340 nodes (so that the `int` key `i*n + j` does
not overflow) whose adjacency lists are duplicate-free with entries in `0..n-1`, the index
of the arc `(i, j)` is the number of adjacency entries of the nodes `k < i` plus the position
of `j` in `nb(i)`.  The table depends on the node count and the adjacency lists only: any
invocation on a graph with the same node count and the same adjacency lists builds the same
table (all four builders build it by the same loop). -/
theorem arc_index_order (g : graph) (hnodes : g.nr_nodes ≤ 46340) (hr : g.InRange)
    (hd : g.DupFree) :
    (∀ i j, i < g.nr_nodes → j ∈ g.nb i →
      (hash_edges g).index (i * g.nr_nodes + j)
        = ((List.range i).map (fun k => (g.nb k).length)).sum + (g.nb i).indexOf j) ∧
    (∀ g2 : graph, g2.nr_nodes = g.nr_nodes → (∀ i, i < g.nr_nodes → g2.nb i = g.nb i) →
      hash_edges g2 = hash_edges g) := by
  haveI : Fact (g.nr_nodes ≤ 46340) := ⟨hnodes⟩
  exact ⟨fun _ _ hi hj => index_formula hr hd hi hj, fun _ hn hnb => hash_edges_congr hn hnb⟩

/-- Witness of C17 on the path graph `0 - 1 - 2 - 3`: the arc `(2, 3)` has index
`1 + 2 + 1 = 4`. -/
theorem arc_index_order_witness :
    path4.nr_nodes ≤ 46340 ∧ path4.InRange ∧ path4.DupFree ∧
    (hash_edges path4).index (2 * path4.nr_nodes + 3)
      = ((List.range 2).map (fun k => (path4.nb k).length)).sum + (path4.nb 2).indexOf 3 :=
  ⟨by decide, path4_inRange, path4_dupFree,
    (arc_index_order path4 (by decide) path4_inRange path4_dupFree).1 2 3 (by decide)
      (by decide)⟩

/-! ## C20: every looked-up key is the key of an arc -/

theorem lookup_insert_self (m : EdgeMap) (k v : Nat) :
    ((m.put k v).lookup k).isSome = true := by
  unfold EdgeMap.put
  split
  · assumption
  · rw [List.lookup_append]
    simp [List.lookup_cons]

theorem lookup_insert_of_isSome (m : EdgeMap) (k v a : Nat)
    (h : (m.lookup a).isSome = true) : ((m.put k v).lookup a).isSome = true := by
  unfold EdgeMap.put
  split
  · exact h
  · rw [List.lookup_append]
    cases hl : List.lookup a m with
    | none => rw [hl] at h; cases h
    | some x => simp

theorem insert_all_present (ks : List Nat) : ∀ (st : EdgeMap × Nat) (k : Nat),
    (k ∈ ks ∨ (st.1.lookup k).isSome = true) →
    ((insert_all ks st).1.lookup k).isSome = true := by
  induction ks with
  | nil =>
    intro st k h
    rcases h with h | h
    · cases h
    · exact h
  | cons a r ih =>
    intro st k h
    have step : insert_all (a :: r) st = insert_all r (st.1.put a st.2, st.2 + 1) := rfl
    rw [step]
    apply ih
    rcases h with h | h
    · rcases List.mem_cons.mp h with h1 | h1
      · subst h1
        exact Or.inr (lookup_insert_self _ _ _)
      · exact Or.inl h1
    · exact Or.inr (lookup_insert_of_isSome _ _ _ _ h)

theorem arc_key_present (g : graph) {i j : Nat} (hi : i < g.nr_nodes) (hj : j ∈ g.nb i) :
    ((hash_edges g).lookup (int_repr (i * g.nr_nodes + j))).isSome = true := by
  unfold hash_edges
  rw [hash_edges_loop_eq]
  apply insert_all_present
  left
  exact List.mem_map.mpr ⟨(i, j), mem_arcs.mpr ⟨hi, hj⟩, rfl⟩

theorem subscript_of_isSome (m : EdgeMap) (k : Nat)
    (h : (m.lookup (int_repr k)).isSome = true) : m.subscript k = (m.index k, m) := by
  unfold EdgeMap.subscript EdgeMap.index
  cases hl : List.lookup (int_repr k) m with
  | none => rw [hl] at h; cases h
  | some x => simp

theorem after_lookups_of_present (m : EdgeMap) (keys : List Nat)
    (h : ∀ k ∈ keys, (m.lookup (int_repr k)).isSome = true) : m.after_lookups keys = m := by
  unfold EdgeMap.after_lookups
  induction keys with
  | nil => rfl
  | cons a r ih =>
    rw [List.foldl_cons, subscript_of_isSome m a (h a (List.mem_cons_self _ _))]
    exact ih (fun k hk => h k (List.mem_cons_of_mem _ hk))

theorem mcf1_keys_arcs {g : graph} (hr : g.InRange) (hsy : g.Symm) :
    ∀ k ∈ mcf1_keys g, ∃ i j, i < g.nr_nodes ∧ j ∈ g.nb i ∧ k = i * g.nr_nodes + j := by
  intro k hk
  simp only [mcf1_keys, List.mem_append, List.mem_flatMap, List.mem_map, List.mem_range,
    List.mem_ite_nil_left, List.mem_ite_nil_right, List.mem_cons, List.mem_singleton,
    List.not_mem_nil, or_false, or_self] at hk
  rcases hk with ((⟨v, _, i, hi, j, hj, _, rfl⟩ | ⟨i, _, j, hj, _, nb, hnb, (rfl | rfl)⟩) |
    ⟨i, hi, nb, hnb, rfl⟩) | ⟨i, hi, j, hj, v, _, _, rfl⟩
  · exact ⟨i, j, hi, hj, Nat.mul_comm _ _ ▸ rfl⟩
  · exact ⟨j, nb, hj, hnb, Nat.mul_comm _ _ ▸ rfl⟩
  · exact ⟨nb, j, hr j hj nb hnb, hsy j hj nb hnb, Nat.mul_comm _ _ ▸ rfl⟩
  · exact ⟨i, nb, hi, hnb, Nat.mul_comm _ _ ▸ rfl⟩
  · exact ⟨i, j, hi, hj, Nat.mul_comm _ _ ▸ rfl⟩


theorem mcf2_keys_arcs {g : graph} (hr : g.InRange) (hsy : g.Symm) :
    ∀ k ∈ mcf2_keys g, ∃ i j, i < g.nr_nodes ∧ j ∈ g.nb i ∧ k = i * g.nr_nodes + j := by
  intro k hk
  unfold mcf2_keys at hk
  split at hk
  swap
  · cases hk
  simp only [List.mem_append, List.mem_flatMap, List.mem_map, List.mem_range,
    List.mem_ite_nil_left, List.mem_ite_nil_right, List.mem_cons, List.mem_singleton,
    List.not_mem_nil, or_false, or_self] at hk
  rcases hk with ((⟨b, hb, a, _, j, hj, (rfl | rfl)⟩ |
    ⟨b, _, a, _, i, hi, _, j, hj, (rfl | rfl)⟩) | ⟨b, hb, a, _, j, hj, rfl⟩) |
    ⟨b, _, a, _, j, hj, _, i, hi, rfl⟩
  · exact ⟨b, j, hb, hj, rfl⟩
  · exact ⟨j, b, hr b hb j hj, hsy b hb j hj, rfl⟩
  · exact ⟨i, j, hi, hj, rfl⟩
  · exact ⟨j, i, hr i hi j hj, hsy i hi j hj, rfl⟩
  · exact ⟨j, b, hr b hb j hj, hsy b hb j hj, rfl⟩
  · exact ⟨i, j, hr j hj i hi, hsy j hj i hi, rfl⟩

theorem mcf_keys_arcs {g : graph} (hr : g.InRange) (hsy : g.Symm) :
    ∀ k ∈ mcf_keys g, ∃ i j, i < g.nr_nodes ∧ j ∈ g.nb i ∧ k = i * g.nr_nodes + j := by
  intro k hk
  unfold mcf_keys at hk
  split at hk
  swap
  · cases hk
  simp only [List.mem_append, List.mem_flatMap, List.mem_map, List.mem_range,
    List.mem_ite_nil_left, List.mem_ite_nil_right, List.mem_cons, List.mem_singleton,
    List.not_mem_nil, or_false, or_self] at hk
  rcases hk with ((⟨b, hb, a, _, j, hj, (rfl | rfl)⟩ |
    ⟨b, _, a, _, i, hi, _, j, hj, (rfl | rfl)⟩) | ⟨b, hb, a, _, j, hj, rfl⟩) |
    ⟨b, _, a, _, j, hj, _, i, hi, rfl⟩
  · exact ⟨b, j, hb, hj, rfl⟩
  · exact ⟨j, b, hr b hb j hj, hsy b hb j hj, rfl⟩
  · exact ⟨i, j, hi, hj, rfl⟩
  · exact ⟨j, i, hr i hi j hj, hsy i hi j hj, rfl⟩
  · exact ⟨j, b, hr b hb j hj, hsy b hb j hj, rfl⟩
  · exact ⟨i, j, hr j hj i hi, hsy j hj i hi, rfl⟩

theorem shir_keys_arcs {g : graph} (hr : g.InRange) (hsy : g.Symm) (F0 : Nat → Nat → Bool) :
    ∀ k ∈ shir_keys g F0, ∃ i j, i < g.nr_nodes ∧ j ∈ g.nb i ∧ k = i * g.nr_nodes + j := by
  intro k hk
  simp only [shir_keys, List.mem_append, List.mem_flatMap, List.mem_map, List.mem_range,
    List.mem_ite_nil_left, List.mem_ite_nil_right, List.mem_cons, List.mem_singleton,
    List.not_mem_nil, or_false, or_self] at hk
  rcases hk with (⟨v, _, i, hi, _, nb, hnb, (rfl | rfl)⟩ | ⟨v, _, i, hi, _, nb, hnb, rfl⟩) |
    ⟨v, hv, i, hi, rfl⟩
  · exact ⟨nb, i, hr i hi nb hnb, hsy i hi nb hnb, Nat.mul_comm _ _ ▸ rfl⟩
  · exact ⟨i, nb, hi, hnb, Nat.mul_comm _ _ ▸ rfl⟩
  · exact ⟨nb, i, hr i hi nb hnb, hsy i hi nb hnb, Nat.mul_comm _ _ ▸ rfl⟩
  · have hc := (mem_shir_centers.mp (shir_centers_getD hv)).1
    exact ⟨i, _, hr _ hc i hi, hsy _ hc i hi, Nat.mul_comm _ _ ▸ rfl⟩

/-- C20. In a symmetric graph with adjacency entries in `0..n-1`, every key that `build_mcf1`,
`build_mcf2`, `build_shir` and `build_mcf` look up in `hash_edges`, the reverse-arc keys
included, is the key `i*n + j` of an arc `(i, j)` and is present in the table (under its 32-bit
representation, as it was inserted).  Hence operator
`[]` inserts nothing: after all the lookups of a builder the table is the one the indexing loop
built, and each lookup returns the index of the arc. -/
theorem lookup_safety (g : graph) (hr : g.InRange) (hsy : g.Symm) (F0 : Nat → Nat → Bool) :
    (∀ k, k ∈ mcf1_keys g ++ mcf2_keys g ++ shir_keys g F0 ++ mcf_keys g →
      (∃ i j, i < g.nr_nodes ∧ j ∈ g.nb i ∧ k = i * g.nr_nodes + j) ∧
      ((hash_edges g).lookup (int_repr k)).isSome = true ∧
      (hash_edges g).subscript k = ((hash_edges g).index k, hash_edges g)) ∧
    (hash_edges g).after_lookups (mcf1_keys g) = hash_edges g ∧
    (hash_edges g).after_lookups (mcf2_keys g) = hash_edges g ∧
    (hash_edges g).after_lookups (shir_keys g F0) = hash_edges g ∧
    (hash_edges g).after_lookups (mcf_keys g) = hash_edges g := by
  have hp : ∀ k, (∃ i j, i < g.nr_nodes ∧ j ∈ g.nb i ∧ k = i * g.nr_nodes + j) →
      ((hash_edges g).lookup (int_repr k)).isSome = true := by
    rintro k ⟨i, j, hi, hj, rfl⟩
    exact arc_key_present g hi hj
  have h1 := mcf1_keys_arcs hr hsy
  have h2 := mcf2_keys_arcs hr hsy
  have h3 := shir_keys_arcs hr hsy F0
  have h4 := mcf_keys_arcs hr hsy
  refine ⟨?_, after_lookups_of_present _ _ (fun k hk => hp k (h1 k hk)),
    after_lookups_of_present _ _ (fun k hk => hp k (h2 k hk)),
    after_lookups_of_present _ _ (fun k hk => hp k (h3 k hk)),
    after_lookups_of_present _ _ (fun k hk => hp k (h4 k hk))⟩
  intro k hk
  have harc : ∃ i j, i < g.nr_nodes ∧ j ∈ g.nb i ∧ k = i * g.nr_nodes + j := by
    simp only [List.mem_append] at hk
    rcases hk with ((hk | hk) | hk) | hk
    · exact h1 k hk
    · exact h2 k hk
    · exact h3 k hk
    · exact h4 k hk
  exact ⟨harc, hp k harc, subscript_of_isSome _ _ (hp k harc)⟩

/-- Witness of C20 on the path graph `0 - 1 - 2 - 3` with candidate centers 0 and 3. -/
theorem lookup_safety_witness :
    path4.InRange ∧ path4.Symm ∧
    (hash_edges path4).after_lookups (shir_keys path4 F0_scen) = hash_edges path4 :=
  ⟨path4_inRange, path4_simple.symm,
    (lookup_safety path4 path4_inRange path4_simple.symm F0_scen).2.2.2.1⟩

/-! ## C13: commits -/

theorem commit_ok_from_vars (vars rest : List Op)
    (hv : ∀ op ∈ vars, ∃ r c t, op = Op.addVars r c t) :
    ∀ pending, commit_ok_from pending (vars ++ Op.update :: rest) = commit_ok_from [] rest := by
  induction vars with
  | nil => intro pending; rfl
  | cons op vars ih =>
    intro pending
    obtain ⟨r, c, t, rfl⟩ := hv _ (List.mem_cons_self _ _)
    rw [List.cons_append, commit_ok_from]
    exact ih (fun op hop => hv op (List.mem_cons_of_mem _ hop)) _

theorem commit_ok_from_nil (rest : List Op)
    (hr : ∀ op ∈ rest, ∀ r c t, op ≠ Op.addVars r c t) : commit_ok_from [] rest = true := by
  induction rest with
  | nil => rfl
  | cons op rest ih =>
    have ih2 := ih (fun op hop => hr op (List.mem_cons_of_mem _ hop))
    cases op with
    | addVars r c t => exact absurd rfl (hr _ (List.mem_cons_self _ _) r c t)
    | update => simpa [commit_ok_from] using ih2
    | addConstr l s r => simp [commit_ok_from, ih2]
    | setUB v u => simp [commit_ok_from, ih2]
    | setVType v t => simp [commit_ok_from, ih2]
    | write f => simp [commit_ok_from, ih2]

theorem build_scf_split (g : graph) :
    ∃ vars rest, build_scf g = vars ++ Op.update :: rest ∧
      (∀ op ∈ vars, ∃ r c t, op = Op.addVars r c t) ∧
      (∀ op ∈ rest, (∃ l s r, op = Op.addConstr l s r) ∨ op = Op.update ∨
        ∃ f, op = Op.write f) := by
  simp only [build_scf, List.append_assoc, List.singleton_append]
  rw [← List.append_assoc]
  refine ⟨_, _, rfl, ?_, ?_⟩
  · intro op hop
    simp only [List.mem_append, List.mem_map] at hop
    rcases hop with ⟨i, _, rfl⟩ | ⟨i, _, rfl⟩ <;> exact ⟨_, _, _, rfl⟩
  · intro op hop
    simp only [List.append_eq, List.mem_append, List.mem_map, List.mem_flatMap, List.mem_cons,
      List.mem_singleton, List.not_mem_nil, or_false] at hop
    rcases hop with ⟨i, _, rfl⟩ | ⟨i, _, rfl⟩ | ⟨i, _, j, _, (rfl | rfl)⟩ |
      ⟨v, _, i, _, j, _, rfl⟩ | rfl | rfl
    · exact Or.inl ⟨_, _, _, rfl⟩
    · exact Or.inl ⟨_, _, _, rfl⟩
    · exact Or.inl ⟨_, _, _, rfl⟩
    · exact Or.inl ⟨_, _, _, rfl⟩
    · exact Or.inl ⟨_, _, _, rfl⟩
    · exact Or.inr (Or.inl rfl)
    · exact Or.inr (Or.inr ⟨_, rfl⟩)

theorem build_mcf1_split (g : graph) :
    ∃ vars types rest, build_mcf1 g = vars ++ (types ++ Op.update :: rest) ∧
      (∀ op ∈ vars, ∃ r c t, op = Op.addVars r c t) ∧
      (∀ op ∈ types, ∃ v t, op = Op.setVType v t) ∧
      (∀ op ∈ rest, (∃ l s r, op = Op.addConstr l s r) ∨ op = Op.update ∨
        ∃ f, op = Op.write f) := by
  simp only [build_mcf1, List.append_assoc, List.singleton_append]
  refine ⟨_, _, _, rfl, ?_, ?_, ?_⟩
  · intro op hop
    simp only [List.mem_map] at hop
    obtain ⟨i, _, rfl⟩ := hop
    exact ⟨_, _, _, rfl⟩
  · intro op hop
    simp only [List.mem_flatMap, List.mem_ite_nil_right, List.mem_singleton] at hop
    obtain ⟨v, _, i, _, j, _, _, rfl⟩ := hop
    exact ⟨_, _, rfl⟩
  · intro op hop
    simp only [List.append_eq, List.mem_append, List.mem_map, List.mem_flatMap, List.mem_cons,
      List.mem_singleton, List.not_mem_nil, or_false, List.mem_ite_nil_left] at hop
    rcases hop with ⟨i, _, j, _, _, rfl⟩ | ⟨i, _, rfl⟩ | ⟨i, _, j, _, v, _, _, rfl⟩ |
      rfl | rfl
    · exact Or.inl ⟨_, _, _, rfl⟩
    · exact Or.inl ⟨_, _, _, rfl⟩
    · exact Or.inl ⟨_, _, _, rfl⟩
    · exact Or.inr (Or.inl rfl)
    · exact Or.inr (Or.inr ⟨_, rfl⟩)

theorem no_update_shir (g : graph) (F0 : Nat → Nat → Bool) : Op.update ∉ build_shir g F0 := by
  simp only [build_shir, List.mem_append, List.mem_map, List.mem_flatMap, List.mem_range,
    List.mem_ite_nil_left, List.mem_singleton, reduceCtorEq, and_false, exists_false,
    or_self, exists_const, not_false_eq_true]

theorem no_update_mcf_vars (g : graph) : Op.update ∉ mcf_vars g := by
  simp only [mcf_vars, List.mem_map, List.mem_flatMap, reduceCtorEq, and_false, exists_false,
    exists_const, not_false_eq_true]

theorem no_update_mcf2 (g : graph) : Op.update ∉ (build_mcf2 g).ops := by
  unfold build_mcf2
  split
  · simp only [List.mem_append, List.mem_map, List.mem_flatMap, List.mem_range,
      List.mem_ite_nil_left, List.mem_singleton, reduceCtorEq, and_false, exists_false,
      or_self, exists_const, not_false_eq_true, no_update_mcf_vars, false_or]
  · exact no_update_mcf_vars g

theorem no_update_mcf (g : graph) : Op.update ∉ (build_mcf g).ops := by
  unfold build_mcf
  split
  · simp only [List.mem_append, List.mem_map, List.mem_flatMap, List.mem_range,
      List.mem_ite_nil_left, List.mem_singleton, reduceCtorEq, and_false, exists_false,
      or_self, exists_const, not_false_eq_true, no_update_mcf_vars, false_or]
  · exact no_update_mcf_vars g

/-- C13 refuted as stated. On the path graph `0 - 1 - 2 - 3`, the operations of `build_mcf1`,
`build_mcf2`, `build_shir` and `build_mcf` break the commit discipline: each sets an attribute
of, or adds a constraint on, a variable created since the last `update` (the last three
perform no `update` at all, although they add constraints). -/
theorem commit_order_counterexample :
    commit_ok (build_mcf1 path4) = false ∧ commit_ok (build_mcf2 path4).ops = false ∧
    commit_ok (build_shir path4 F0_scen) = false ∧ commit_ok (build_mcf path4).ops = false ∧
    Op.update ∉ build_shir path4 F0_scen ∧
    Op.addConstr ⟨0, [(1, Var.aux (Row.f 0) 0), (-1, Var.aux (Row.f 0) 1),
      (1, Var.aux (Row.f 0) 3), (-1, Var.aux (Row.f 0) 2)]⟩ Sense.eq
      (LinExpr.ofVar (Var.x 1 0)) ∈ build_shir path4 F0_scen := by
  decide

/-- C13 as amended. For every graph: `build_scf` creates its variables, commits (`update`), and
only then adds constraints, so it keeps the commit discipline.  `build_mcf1` creates its
variables, then sets variable types, then commits, and only then adds constraints: every
constraint follows the commit, the type settings precede it.  `build_mcf2`, `build_shir` and
`build_mcf` perform no commit at all. -/
theorem commit_order (g : graph) (F0 : Nat → Nat → Bool) :
    commit_ok (build_scf g) = true ∧
    (∃ vars rest, build_scf g = vars ++ Op.update :: rest ∧
      (∀ op ∈ vars, ∃ r c t, op = Op.addVars r c t) ∧
      (∀ op ∈ rest, (∃ l s r, op = Op.addConstr l s r) ∨ op = Op.update ∨
        ∃ f, op = Op.write f)) ∧
    (∃ vars types rest, build_mcf1 g = vars ++ (types ++ Op.update :: rest) ∧
      (∀ op ∈ vars, ∃ r c t, op = Op.addVars r c t) ∧
      (∀ op ∈ types, ∃ v t, op = Op.setVType v t) ∧
      (∀ op ∈ rest, (∃ l s r, op = Op.addConstr l s r) ∨ op = Op.update ∨
        ∃ f, op = Op.write f)) ∧
    Op.update ∉ (build_mcf2 g).ops ∧ Op.update ∉ build_shir g F0 ∧
    Op.update ∉ (build_mcf g).ops := by
  refine ⟨?_, build_scf_split g, build_mcf1_split g, no_update_mcf2 g, no_update_shir g F0,
    no_update_mcf g⟩
  obtain ⟨vars, rest, he, hv, hr⟩ := build_scf_split g
  unfold commit_ok
  rw [he, commit_ok_from_vars vars rest hv]
  apply commit_ok_from_nil
  intro op hop r c t h
  rcases hr op hop with ⟨l, s, r2, h2⟩ | h2 | ⟨f, h2⟩ <;> rw [h2] at h <;> cases h

/-! ## C16: dispatch -/

theorem main_dispatch_unknown (name : String)
    (h : name ∉ ["hess", "shir", "mcf", "cut", "lcut"]) :
    main_dispatch name = [MainStep.create_model, MainStep.build_hess, MainStep.branch_priority,
      MainStep.report_unknown name, MainStep.exit_status 1] := by
  simp only [List.mem_cons, List.mem_singleton, List.not_mem_nil, or_false, not_or] at h
  obtain ⟨h1, h2, h3, h4, h5⟩ := h
  simp [main_dispatch, h1, h2, h3, h4, h5]

/-- C16 refuted as stated. For the unsupported name `"foo"` the run does report the error and
exits with status 1 without a contiguity builder, but a partial model has been built by then:
`build_hess` has already filled the model when the name is examined. -/
theorem dispatch_unknown_counterexample :
    "foo" ∉ ["hess", "shir", "mcf", "cut", "lcut"] ∧
    main_dispatch "foo" = [MainStep.create_model, MainStep.build_hess,
      MainStep.branch_priority, MainStep.report_unknown "foo", MainStep.exit_status 1] ∧
    (main_dispatch "foo").any MainStep.builds = true := by
  decide

/-- C16 as amended. For every model name other than "hess", "shir", "mcf", "cut" and "lcut",
the dispatch builds the base model (`build_hess`), then reports the unknown name and exits with
status 1; it invokes no contiguity builder and nothing follows the exit.  For each supported
name exactly the corresponding builder (none for "hess") is invoked after `build_hess`. -/
theorem dispatch_unknown (name : String)
    (h : name ∉ ["hess", "shir", "mcf", "cut", "lcut"]) :
    main_dispatch name = [MainStep.create_model, MainStep.build_hess, MainStep.branch_priority,
      MainStep.report_unknown name, MainStep.exit_status 1] ∧
    (main_dispatch name).any MainStep.contiguity = false ∧
    (main_dispatch name).filter MainStep.builds = [MainStep.build_hess] ∧
    (main_dispatch "hess").filter MainStep.builds = [MainStep.build_hess] ∧
    (main_dispatch "shir").filter MainStep.builds = [MainStep.build_hess, MainStep.build_shir] ∧
    (main_dispatch "mcf").filter MainStep.builds = [MainStep.build_hess, MainStep.build_mcf] ∧
    (main_dispatch "cut").filter MainStep.builds = [MainStep.build_hess, MainStep.build_cut] ∧
    (main_dispatch "lcut").filter MainStep.builds = [MainStep.build_hess, MainStep.build_lcut] ∧
    (∀ s, s ∈ ["hess", "shir", "mcf", "cut", "lcut"] →
      (main_dispatch s).getLast? = some MainStep.solve ∧
      ∀ m c, MainStep.report_unknown m ∉ main_dispatch s ∧
        MainStep.exit_status c ∉ main_dispatch s) := by
  rw [main_dispatch_unknown name h]
  refine ⟨rfl, by simp [MainStep.contiguity], by simp [MainStep.builds], by decide, by decide,
    by decide, by decide, by decide, ?_⟩
  intro s hs
  simp only [List.mem_cons, List.mem_singleton, List.not_mem_nil, or_false] at hs
  rcases hs with rfl | rfl | rfl | rfl | rfl <;>
    exact ⟨by decide, fun m c => ⟨by simp [main_dispatch], by simp [main_dispatch]⟩⟩

/-- Instance of `dispatch_unknown` at the name `"foo"`. -/
theorem dispatch_unknown_witness :
    "foo" ∉ ["hess", "shir", "mcf", "cut", "lcut"] ∧
    (main_dispatch "foo").filter MainStep.builds = [MainStep.build_hess] :=
  ⟨by decide, (dispatch_unknown "foo" (by decide)).2.2.1⟩

/-! ## C11: demand constraints of `build_mcf1` -/

theorem xs_ofConst (c : Int) : (LinExpr.ofConst c).xs = [] := rfl

theorem xs_ofVar_aux (r : Row) (k : Nat) : (LinExpr.ofVar (Var.aux r k)).xs = [] := rfl

theorem xs_addVar_aux (e : LinExpr) (r : Row) (k : Nat) : (e.addVar (Var.aux r k)).xs = e.xs := by
  simp [LinExpr.xs, LinExpr.addVar, Var.xs]

theorem xs_subVar_aux (e : LinExpr) (r : Row) (k : Nat) : (e.subVar (Var.aux r k)).xs = e.xs := by
  simp [LinExpr.xs, LinExpr.subVar, Var.xs]

theorem xs_subVar_x (e : LinExpr) (i j : Nat) : (e.subVar (Var.x i j)).xs = e.xs ++ [(i, j)] := by
  simp [LinExpr.xs, LinExpr.subVar, Var.xs]

theorem xs_foldl_aux {α : Type} (step : LinExpr → α → LinExpr)
    (hs : ∀ e a, (step e a).xs = e.xs) (l : List α) (e : LinExpr) :
    (l.foldl step e).xs = e.xs := by
  induction l generalizing e with
  | nil => rfl
  | cons a l ih => rw [List.foldl_cons, ih, hs]

theorem xs_mcf1_demand (g : graph) (i j : Nat) : (mcf1_demand g i j).xs = [(i, j)] := by
  simp only [mcf1_demand, Op.xs, xs_subVar_x, xs_ofConst, List.append_nil]
  rw [xs_foldl_aux _ (fun e a => by rw [xs_subVar_aux, xs_addVar_aux]), xs_ofConst]
  rfl

theorem mcf1_demand_inj (g : graph) {i j a b : Nat}
    (h : mcf1_demand g i j = mcf1_demand g a b) : i = a ∧ j = b := by
  have h2 := congrArg Op.xs h
  rw [xs_mcf1_demand, xs_mcf1_demand] at h2
  simpa using h2

theorem count_flatMap_range_zero {α : Type} [DecidableEq α] (f : Nat → List α) (a : α) (n : Nat)
    (h : ∀ k, k < n → a ∉ f k) : ((List.range n).flatMap f).count a = 0 := by
  apply List.count_eq_zero_of_not_mem
  simp only [List.mem_flatMap, List.mem_range, not_exists, not_and]
  exact h

theorem count_flatMap_range_single {α : Type} [DecidableEq α] (f : Nat → List α) (a : α)
    (i : Nat) : ∀ n, i < n → (∀ k, k < n → k ≠ i → a ∉ f k) →
      ((List.range n).flatMap f).count a = (f i).count a := by
  intro n
  induction n with
  | zero => intro h; omega
  | succ n ih =>
    intro hi h
    rw [List.range_succ, List.flatMap_append, List.count_append]
    simp only [List.flatMap_cons, List.flatMap_nil, List.append_nil]
    by_cases hin : i = n
    · subst hin
      rw [count_flatMap_range_zero f a i (fun k hk => h k (by omega) (by omega))]
      omega
    · rw [ih (by omega) (fun k hk hki => h k (by omega) hki),
        List.count_eq_zero_of_not_mem (h n (by omega) (fun e => hin e.symm))]
      omega

theorem count_mcf1_demands (g : graph) {i j : Nat} (hi : i < g.nr_nodes) (hj : j < g.nr_nodes)
    (hij : i ≠ j) : (mcf1_demands g).count (mcf1_demand g i j) = 1 := by
  unfold mcf1_demands
  rw [count_flatMap_range_single _ _ i _ hi, count_flatMap_range_single _ _ j _ hj]
  · simp [hij]
  · intro k _ hk hm
    by_cases hik : i = k
    · simp [hik] at hm
    · simp only [hik, if_false, List.mem_singleton] at hm
      exact hk (mcf1_demand_inj g hm).2.symm
  · intro k _ hk hm
    simp only [List.mem_flatMap, List.mem_range] at hm
    obtain ⟨b, _, hb⟩ := hm
    by_cases hkb : k = b
    · simp [hkb] at hb
    · simp only [hkb, if_false, List.mem_singleton] at hb
      exact hk (mcf1_demand_inj g hb).1.symm

theorem build_mcf1_demands (g : graph) :
    ∃ pre post, build_mcf1 g = pre ++ (mcf1_demands g ++ post) ∧
      (∀ op ∈ pre, op.xs = []) ∧ (∀ op ∈ post, op.xs = []) := by
  simp only [build_mcf1, mcf1_demands, mcf1_demand, List.append_assoc]
  rw [← List.append_assoc, ← List.append_assoc]
  refine ⟨_, _, rfl, ?_, ?_⟩
  · intro op hop
    simp only [List.append_eq, List.mem_append, List.mem_map, List.mem_flatMap,
      List.mem_singleton, List.mem_ite_nil_right] at hop
    rcases hop with (⟨i, _, rfl⟩ | ⟨v, _, i, _, j, _, _, rfl⟩) | rfl <;> rfl
  · intro op hop
    simp only [List.append_eq, List.mem_append, List.mem_map, List.mem_flatMap, List.mem_cons,
      List.mem_singleton, List.not_mem_nil, or_false, List.mem_ite_nil_left] at hop
    rcases hop with ⟨i, _, rfl⟩ | ⟨i, _, j, _, v, _, _, rfl⟩ | rfl | rfl
    · simp only [Op.xs, xs_ofConst, List.append_nil]
      rw [xs_foldl_aux _ (fun e a => by rw [xs_addVar_aux]), xs_ofConst]
    · rfl
    · rfl
    · rfl

theorem list_sum_map_sub {K : Type} [LinearOrderedCommRing K] {α : Type} (l : List α)
    (p q : α → K) :
    (l.map (fun a => p a - q a)).sum = (l.map p).sum - (l.map q).sum := by
  induction l with
  | nil => simp
  | cons a l ih => simp only [List.map_cons, List.sum_cons, ih]; ring

theorem mcf1_demand_holds {K : Type} [LinearOrderedCommRing K] (g : graph) (i j : Nat)
    (X : Nat → Nat → K) (σ : Row → Nat → K) :
    (mcf1_demand g i j).holds X σ ↔
      ((g.nb j).map (fun u => σ (Row.f i) ((hash_edges g).index (g.nr_nodes * j + u)))).sum -
      ((g.nb j).map (fun u => σ (Row.f i) ((hash_edges g).index (g.nr_nodes * u + j)))).sum
        = X i j := by
  simp only [mcf1_demand, Op.holds, Sense.rel, eval_foldl_add_sub, eval_ofConst, eval_subVar,
    Var.val, Int.cast_zero, zero_add, list_sum_map_sub]
  constructor <;> intro h <;> linarith

theorem mcf1_demand_facts (g : graph) (i j : Nat) (hi : i < g.nr_nodes) (hj : j < g.nr_nodes)
    (hij : i ≠ j) :
    (build_mcf1 g).count (mcf1_demand g i j) = 1 ∧
    (∀ op ∈ build_mcf1 g, (i, j) ∈ op.xs → op = mcf1_demand g i j) := by
  obtain ⟨pre, post, he, hpre, hpost⟩ := build_mcf1_demands g
  have hx : (mcf1_demand g i j).xs ≠ [] := by rw [xs_mcf1_demand]; simp
  constructor
  · rw [he, List.count_append, List.count_append, count_mcf1_demands g hi hj hij,
      List.count_eq_zero_of_not_mem (fun h => hx (hpre _ h)),
      List.count_eq_zero_of_not_mem (fun h => hx (hpost _ h))]
  · intro op hop hm
    rw [he] at hop
    rcases List.mem_append.mp hop with h | h
    · rw [hpre op h] at hm; cases hm
    · rcases List.mem_append.mp h with h | h
      · simp only [mcf1_demands, List.mem_flatMap, List.mem_range] at h
        obtain ⟨a, _, b, _, hab⟩ := h
        by_cases hab2 : a = b
        · simp [hab2] at hab
        · simp only [hab2, if_false, List.mem_singleton] at hab
          subst hab
          rw [xs_mcf1_demand] at hm
          simp only [List.mem_singleton, Prod.mk.injEq] at hm
          rw [hm.1, hm.2]
      · rw [hpost op h] at hm; cases hm

/-- C11 refuted as stated. On the path graph `0 - 1 - 2 - 3` with the assignment
`X[0][0] = X[1][0] = X[2][3] = X[3][3] = 1`, the system of `build_mcf1` (which contains the
demand constraint of the pair `(1, 0)`) has a feasible setting in which the net flow of
commodity 1 into node 0, arcs entering 0 minus arcs leaving 0, is `-1`, while
`X[1][0] = 1`. -/
theorem mcf1_demand_counterexample :
    mcf1_demand path4 1 0 ∈ build_mcf1 path4 ∧ (X_good 1 0 : ℚ) = 1 ∧
    ∃ σ : Row → Nat → ℚ, Feasible (build_mcf1 path4) X_good σ ∧
      ((path4.nb 0).map (fun u => σ (Row.f 1) ((hash_edges path4).index (u * 4 + 0)))).sum -
      ((path4.nb 0).map (fun u => σ (Row.f 1) ((hash_edges path4).index (0 * 4 + u)))).sum
        = -1 := by
  refine ⟨by decide, by simp [X_good], ?_⟩
  obtain ⟨σ, hσ⟩ := mcf1_complete (K := ℚ) path4_simple X_good_inv X_good_contiguous
  refine ⟨σ, hσ, ?_⟩
  have h := hσ _ (show mcf1_demand path4 1 0 ∈ build_mcf1 path4 by decide)
  rw [mcf1_demand_holds] at h
  have hx : (X_good 1 0 : ℚ) = 1 := by simp [X_good]
  rw [hx] at h
  have e1 : path4.nr_nodes = 4 := rfl
  simp only [e1, Nat.mul_comm 4] at h
  linarith

/-- C11 as amended. For every pair of distinct nodes `i` and `j`, `build_mcf1` emits exactly
one constraint referring to `X[i][j]`, and it states that the net flow of commodity `i` out of
`j` (the sum of commodity-`i` flow on arcs leaving `j` minus the sum on arcs entering `j`)
equals `X[i][j]`. -/
theorem mcf1_demand_outflow {K : Type} [LinearOrderedCommRing K] (g : graph) (i j : Nat)
    (hi : i < g.nr_nodes) (hj : j < g.nr_nodes) (hij : i ≠ j) :
    (build_mcf1 g).count (mcf1_demand g i j) = 1 ∧
    (∀ op ∈ build_mcf1 g, (i, j) ∈ op.xs → op = mcf1_demand g i j) ∧
    (∀ (X : Nat → Nat → K) (σ : Row → Nat → K), (mcf1_demand g i j).holds X σ ↔
      ((g.nb j).map (fun u => σ (Row.f i) ((hash_edges g).index (g.nr_nodes * j + u)))).sum -
      ((g.nb j).map (fun u => σ (Row.f i) ((hash_edges g).index (g.nr_nodes * u + j)))).sum
        = X i j) :=
  ⟨(mcf1_demand_facts g i j hi hj hij).1, (mcf1_demand_facts g i j hi hj hij).2,
    mcf1_demand_holds g i j⟩

/-- Instance of `mcf1_demand_outflow` on `path4` for the pair `(1, 0)`. -/
theorem mcf1_demand_outflow_witness :
    1 < path4.nr_nodes ∧ 0 < path4.nr_nodes ∧ (1 : Nat) ≠ 0 ∧
    (build_mcf1 path4).count (mcf1_demand path4 1 0) = 1 :=
  ⟨by decide, by decide, by decide,
    (mcf1_demand_outflow (K := ℚ) path4 1 0 (by decide) (by decide) (by decide)).1⟩

/-! ## C21: key arithmetic -/

theorem wrap_int_id (x : Int) (h0 : 0 ≤ x) (h1 : x ≤ INT_MAX) : wrap_int x = x := by
  unfold wrap_int
  unfold INT_MAX at h1
  omega

theorem key_bound {n i j : Nat} (hn : n ≤ 46340) (hi : i < n) (hj : j < n) :
    i * n + j < 2147395600 := by
  have h1 : i * n ≤ 46339 * 46340 := Nat.mul_le_mul (by omega) hn
  omega

theorem key_int_exact {n i j : Nat} (hn : n ≤ 46340) (hi : i < n) (hj : j < n) :
    wrap_int ((i : Int) * (n : Int)) = ((i * n : Nat) : Int) ∧
    key_int i n j = ((arc_key n (i, j) : Nat) : Int) := by
  have hb := key_bound hn hi hj
  have hp : wrap_int ((i : Int) * (n : Int)) = ((i * n : Nat) : Int) := by
    rw [wrap_int_id]
    · push_cast; rfl
    · positivity
    · unfold INT_MAX
      have : ((i * n : Nat) : Int) < 2147395600 := by exact_mod_cast (by omega : i * n < 2147395600)
      push_cast at this
      omega
  refine ⟨hp, ?_⟩
  unfold key_int
  rw [hp, wrap_int_id]
  · simp only [arc_key]; push_cast; rfl
  · exact Int.add_nonneg (Int.ofNat_nonneg _) (Int.ofNat_nonneg _)
  · unfold INT_MAX
    have : ((i * n + j : Nat) : Int) < 2147395600 := by exact_mod_cast hb
    push_cast at this
    omega

theorem arc_key_inj_lt {n i j i2 j2 : Nat} (hj : j < n) (hj2 : j2 < n)
    (h : arc_key n (i, j) = arc_key n (i2, j2)) : i = i2 ∧ j = j2 := by
  simp only [arc_key] at h
  have hpos : 0 < n := by omega
  have h1 : (i * n + j) / n = (i2 * n + j2) / n := by rw [h]
  rw [Nat.mul_comm i, Nat.mul_comm i2, Nat.mul_add_div hpos, Nat.mul_add_div hpos,
    Nat.div_eq_of_lt hj, Nat.div_eq_of_lt hj2] at h1
  have hi : i = i2 := by omega
  subst hi
  exact ⟨rfl, by omega⟩

/-- C21. The key `i*n + j` is computed in 32-bit `int`.  For every `n <= 46340` and all `i`,
`j` in `0..n-1` neither the product nor the sum overflows: the `int` value is the exact value
`i*n + j`, it lies in `0 .. 2^31 - 1`, and distinct pairs have distinct keys.  For `n = 46341`
the exact key of the arc `(46340, 46339)` is `2147488279`, above `2^31 - 1 = 2147483647`, and
the 32-bit value differs from it. -/
theorem key_arithmetic (n i j : Nat) (hn : n ≤ 46340) (hi : i < n) (hj : j < n) :
    wrap_int ((i : Int) * (n : Int)) = ((i * n : Nat) : Int) ∧
    key_int i n j = ((arc_key n (i, j) : Nat) : Int) ∧
    0 ≤ key_int i n j ∧ key_int i n j ≤ INT_MAX ∧
    (∀ i2 j2, i2 < n → j2 < n → key_int i n j = key_int i2 n j2 → i = i2 ∧ j = j2) ∧
    ((arc_key 46341 (46340, 46339) : Nat) : Int) = 2147488279 ∧
    INT_MAX = 2147483647 ∧
    INT_MAX < ((arc_key 46341 (46340, 46339) : Nat) : Int) ∧
    key_int 46340 46341 46339 = -2147479017 := by
  have he := key_int_exact hn hi hj
  have hb := key_bound hn hi hj
  refine ⟨he.1, he.2, ?_, ?_, ?_, by decide, by decide, by decide, by decide⟩
  · rw [he.2]; positivity
  · rw [he.2]
    unfold INT_MAX
    have : ((arc_key n (i, j) : Nat) : Int) < 2147395600 := by
      exact_mod_cast (show arc_key n (i, j) < 2147395600 from hb)
    omega
  · intro i2 j2 hi2 hj2 h
    rw [he.2, (key_int_exact hn hi2 hj2).2] at h
    exact arc_key_inj_lt hj hj2 (by exact_mod_cast h)

/-- Instance of `key_arithmetic` at the largest admissible input, `n = 46340` and the pair
`(46339, 46339)`. -/
theorem key_arithmetic_witness :
    46340 ≤ 46340 ∧ 46339 < 46340 ∧ key_int 46339 46340 46339 ≤ INT_MAX :=
  ⟨by decide, by decide,
    (key_arithmetic 46340 46339 46339 (by decide) (by decide) (by decide)).2.2.2.1⟩

/-! ## C22: repeated adjacency entries -/

theorem arcs_length (g : graph) :
    (arcs g).length = ((List.range g.nr_nodes).map (fun i => (g.nb i).length)).sum := by
  unfold arcs
  rw [List.length_flatMap]
  simp [Function.comp_def]

theorem flatMap_range_skip {α : Type} (f : Nat → List α) (a : Nat) :
    ∀ b, a ≤ b → (∀ i, a ≤ i → i < b → f i = []) →
      (List.range b).flatMap f = (List.range a).flatMap f := by
  intro b hab
  induction b, hab using Nat.le_induction with
  | base => intro _; rfl
  | succ b hb ih =>
    intro h
    rw [List.range_succ, List.flatMap_append, ih (fun i h1 h2 => h i h1 (by omega)),
      List.flatMap_cons, List.flatMap_nil, h b hb (by omega)]
    simp

theorem arcs_wide3 : arcs wide3 = [(0, 65536), (1, 65536), (65536, 0), (65536, 1)] := by
  unfold arcs
  have h1 : wide3.nr_nodes = 65536 + 1 := rfl
  rw [h1, List.range_succ, List.flatMap_append,
    flatMap_range_skip _ 2 65536 (by norm_num) (fun i h1 h2 => by
      have e : wide3.nb i = [] := by
        simp only [wide3]
        rw [if_neg (by omega), if_neg (by omega), if_neg (by omega)]
      rw [e]; rfl)]
  rfl

theorem hash_edges_loop_wide3 :
    hash_edges_loop wide3 = ([(65536, 0), (131073, 1), (65537, 3)], 4) := by
  rw [hash_edges_loop_eq, arcs_wide3]
  decide

theorem hash_edges_of_loop {g : graph} {L : EdgeMap} {c : Nat}
    (h : hash_edges_loop g = (L, c)) : hash_edges g = L := by
  unfold hash_edges
  rw [h]

theorem index_of_table {g : graph} {L : EdgeMap} (h : hash_edges g = L) (k : Nat) :
    (hash_edges g).index k = (L.lookup (int_repr k)).getD 0 := by
  rw [h]
  rfl

theorem nr_edges_of_table {g : graph} {L : EdgeMap} (h : hash_edges g = L) :
    nr_edges g = L.length := by
  unfold nr_edges
  rw [h]

theorem hash_edges_wide3 : hash_edges wide3 = [(65536, 0), (131073, 1), (65537, 3)] :=
  hash_edges_of_loop hash_edges_loop_wide3

theorem index_wide3 :
    (hash_edges wide3).index (0 * wide3.nr_nodes + 65536) = 0 ∧
    (hash_edges wide3).index (1 * wide3.nr_nodes + 65536) = 1 ∧
    (hash_edges wide3).index (65536 * wide3.nr_nodes + 0) = 0 ∧
    (hash_edges wide3).index (65536 * wide3.nr_nodes + 1) = 3 ∧
    nr_edges wide3 = 3 := by
  rw [index_of_table hash_edges_wide3, index_of_table hash_edges_wide3,
    index_of_table hash_edges_wide3, index_of_table hash_edges_wide3,
    nr_edges_of_table hash_edges_wide3]
  decide

theorem wide3_simple : wide3.Simple := by
  have hnb : ∀ i j, j ∈ wide3.nb i →
      (i = 0 ∧ j = 65536) ∨ (i = 1 ∧ j = 65536) ∨ (i = 65536 ∧ (j = 0 ∨ j = 1)) := by
    intro i j hj
    simp only [wide3] at hj
    split_ifs at hj with h0 h1 h2 <;> simp at hj <;> omega
  refine ⟨?_, ?_, ?_, ?_⟩
  · intro i _ j hj
    have h : wide3.nr_nodes = 65537 := rfl
    rcases hnb i j hj with h1 | h1 | h1 <;> omega
  · intro i _
    simp only [wide3]
    split_ifs <;> decide
  · intro i _ hi
    rcases hnb i i hi with h1 | h1 | h1 <;> omega
  · intro i _ j hj
    rcases hnb i j hj with ⟨rfl, rfl⟩ | ⟨rfl, rfl⟩ | ⟨rfl, rfl | rfl⟩ <;> decide

section Wide

variable {K : Type} [LinearOrderedCommRing K]

theorem X_wide_eq_one_iff (i j : Nat) :
    (X_wide i j : K) = 1 ↔
      (j = 0 ∧ (i = 0 ∨ i = 1 ∨ i = 65536)) ∨ (i = j ∧ 1 < i ∧ i ≠ 65536) := by
  unfold X_wide
  split_ifs with h
  · simp [h]
  · simp [h]

theorem X_wide_inv : AssignInv wide3.nr_nodes (X_wide : Nat → Nat → K) := by
  have hn : wide3.nr_nodes = 65537 := rfl
  constructor
  · intro i _ j _
    unfold X_wide
    split
    · exact Or.inr rfl
    · exact Or.inl rfl
  · intro i hi
    by_cases hsp : i = 0 ∨ i = 1 ∨ i = 65536
    · refine ⟨0, by omega, (X_wide_eq_one_iff i 0).mpr (Or.inl ⟨rfl, hsp⟩),
        (X_wide_eq_one_iff 0 0).mpr (Or.inl ⟨rfl, Or.inl rfl⟩), ?_⟩
      intro j2 _ h
      rcases (X_wide_eq_one_iff i j2).mp h with h1 | h1 <;> omega
    · refine ⟨i, hi, (X_wide_eq_one_iff i i).mpr (Or.inr ⟨rfl, by omega, by omega⟩),
        (X_wide_eq_one_iff i i).mpr (Or.inr ⟨rfl, by omega, by omega⟩), ?_⟩
      intro j2 _ h
      rcases (X_wide_eq_one_iff i j2).mp h with h1 | h1 <;> omega

theorem X_wide_contiguous : Contiguous wide3 (X_wide : Nat → Nat → K) := by
  intro b hb hbb
  have hn : wide3.nr_nodes = 65537 := rfl
  apply induced_connected_of_star wide3_simple.symm _ (fun i hi => hi.1) b
  intro t ht
  obtain ⟨htn, htb⟩ := ht
  by_cases hb0 : b = 0
  · subst hb0
    have hS : ∀ x, x = 0 ∨ x = 1 ∨ x = 65536 →
        x < wide3.nr_nodes ∧ (X_wide x 0 : K) = 1 :=
      fun x hx => ⟨by omega, (X_wide_eq_one_iff x 0).mpr (Or.inl ⟨rfl, hx⟩)⟩
    have h1 : Relation.ReflTransGen
        (fun a c => (a < wide3.nr_nodes ∧ (X_wide a 0 : K) = 1) ∧
          (c < wide3.nr_nodes ∧ (X_wide c 0 : K) = 1) ∧ c ∈ wide3.nb a) 0 65536 :=
      Relation.ReflTransGen.single
        ⟨hS 0 (Or.inl rfl), hS 65536 (Or.inr (Or.inr rfl)), by decide⟩
    rcases (X_wide_eq_one_iff t 0).mp htb with ⟨_, rfl | rfl | rfl⟩ | h2
    · exact Relation.ReflTransGen.refl
    · exact h1.tail ⟨hS 65536 (Or.inr (Or.inr rfl)), hS 1 (Or.inr (Or.inl rfl)), by decide⟩
    · exact h1
    · omega
  · have : t = b := by
      rcases (X_wide_eq_one_iff t b).mp htb with h1 | h1 <;> omega
    subst this
    exact Relation.ReflTransGen.refl

theorem non_nbs_wide3_head : ∃ l, non_nbs wide3 0 = 1 :: l := by
  rw [non_nbs_eq]
  have hn : wide3.nr_nodes = 65535 + 1 + 1 := rfl
  have e0 : wide3.nb 0 = [65536] := rfl
  rw [hn, e0, List.range_succ_eq_map, List.range_succ_eq_map]
  simp only [List.map_cons]
  rw [List.filter_cons_of_neg (by decide), List.filter_cons_of_pos (by decide)]
  exact ⟨_, rfl⟩

theorem wide3_mcf_infeasible (σ : Row → Nat → K) :
    ¬ Feasible (build_mcf wide3).ops (X_wide : Nat → Nat → K) σ := by
  intro hf
  have hn : wide3.nr_nodes < 2 ^ 31 := by decide
  have hok := non_nbs_ok_simple hn wide3_simple
  have ha : 0 < alt_count wide3.nr_nodes (wide3.nb 0) := by
    rw [alt_count_simple hn wide3_simple (by decide)]
    obtain ⟨l, hl⟩ := non_nbs_wide3_head
    rw [hl]
    simp
  have h := ((feasible_mcf_iff wide3 hok X_wide σ).mp hf).2.1 0 (by decide) 0 ha
  obtain ⟨l, hl⟩ := non_nbs_wide3_head
  have e0 : wide3.nb 0 = [65536] := rfl
  have e3 : (hash_edges wide3).index (65536 * wide3.nr_nodes) = 0 := index_wide3.2.2.1
  rw [hl, e0] at h
  simp only [List.map_cons, List.map_nil, List.sum_cons, List.sum_nil, index_wide3.1,
    index_wide3.2.2.1, e3, List.getD_cons_zero, sub_self, add_zero] at h
  have hx : (X_wide 1 0 : K) = 1 := (X_wide_eq_one_iff 1 0).mpr (Or.inl ⟨rfl, Or.inr (Or.inl rfl)⟩)
  rw [hx] at h
  exact absurd h (by norm_num)

end Wide

/-! ## Counterexamples beyond the range of the `int` key -/

theorem entries_wide3 :
    ((List.range wide3.nr_nodes).map (fun i => (wide3.nb i).length)).sum = 4 := by
  rw [← arcs_length, arcs_wide3]
  rfl

theorem entries_before_wide3 :
    ((List.range 65536).map (fun k => (wide3.nb k).length)).sum = 2 := by
  have h : ((List.range 65536).map (fun k => (wide3.nb k).length)).sum
      = ((List.range 65536).flatMap (fun i => (wide3.nb i).map (fun j => (i, j)))).length := by
    rw [List.length_flatMap]
    simp [Function.comp_def]
  rw [h, flatMap_range_skip _ 2 65536 (by norm_num) (fun i h1 h2 => by
      have e : wide3.nb i = [] := by
        simp only [wide3]
        rw [if_neg (by omega), if_neg (by omega), if_neg (by omega)]
      rw [e]; rfl)]
  rfl

/-- C1 refuted as stated. The path `0 - 65536 - 1` on 65537 nodes is a symmetric simple graph;
with the district `{0, 1, 65536}` of center 0 and every other node its own center the
assignment satisfies the invariant and every district is connected, and `build_mcf` raises no
error.  Yet the system emitted has no feasible setting: the arcs `(0, 65536)` and `(65536, 0)`
have the same 32-bit key, hence the same index, and the demand row of base 0 for the target 1
reads `f - f == X[1][0]` with `X[1][0] = 1`. -/
theorem build_mcf_counterexample :
    wide3.Simple ∧ AssignInv wide3.nr_nodes (X_wide : Nat → Nat → ℚ) ∧
    Contiguous wide3 (X_wide : Nat → Nat → ℚ) ∧ (build_mcf wide3).error = none ∧
    (hash_edges wide3).index (0 * wide3.nr_nodes + 65536)
      = (hash_edges wide3).index (65536 * wide3.nr_nodes + 0) ∧
    ¬ ∃ σ : Row → Nat → ℚ, Feasible (build_mcf wide3).ops X_wide σ := by
  refine ⟨wide3_simple, X_wide_inv, X_wide_contiguous, ?_, ?_, ?_⟩
  · simp [build_mcf, non_nbs_ok_simple (by decide : wide3.nr_nodes < 2 ^ 31) wide3_simple]
  · rw [index_wide3.1, index_wide3.2.2.1]
  · rintro ⟨σ, hσ⟩
    exact wide3_mcf_infeasible σ hσ

/-- C6 refuted as stated. On the path `0 - 65536 - 1` with 65537 nodes the adjacency lists are
duplicate-free with entries in `0..n-1` and hold 4 entries, but the table has 3 entries: the
keys `0*65537 + 65536` and `65536*65537 + 0` are the same `int`, so the arcs `(0, 65536)` and
`(65536, 0)` share the index 0, and the arc `(65536, 1)` has the index 3, which is not below
the size of the table. -/
theorem arc_index_bijection_counterexample :
    wide3.InRange ∧ wide3.DupFree ∧
    ((List.range wide3.nr_nodes).map (fun i => (wide3.nb i).length)).sum = 4 ∧
    nr_edges wide3 = 3 ∧ 65536 ∈ wide3.nb 0 ∧ 0 ∈ wide3.nb 65536 ∧ 1 ∈ wide3.nb 65536 ∧
    (hash_edges wide3).index (0 * wide3.nr_nodes + 65536) = 0 ∧
    (hash_edges wide3).index (65536 * wide3.nr_nodes + 0) = 0 ∧
    (hash_edges wide3).index (65536 * wide3.nr_nodes + 1) = 3 :=
  ⟨wide3_simple.inRange, wide3_simple.dupFree, entries_wide3, index_wide3.2.2.2.2, by decide,
    by decide, by decide, index_wide3.1, index_wide3.2.2.1, index_wide3.2.2.2.1⟩

/-- C10 refuted as stated. On the path `0 - 65536 - 1` with 65537 nodes (symmetric,
duplicate-free), with no node excluded as a center, the bound that `build_shir` sets for the
center 0 and its neighbour 65536 is on the variable whose index is also that of the arc
`(0, 65536)`, which leaves the center.  On `out2`, duplicate-free and symmetric (between its
nodes, and also when the entry 2, which is not a node, is followed), the bound set for the
center 0 and its neighbour 1 is on `f[0][1]`, the variable of the arc `(0, 2)`. -/
theorem shir_forbidden_return_counterexample :
    wide3.DupFree ∧ wide3.Symm ∧ 65536 ∈ wide3.nb 0 ∧
    (∃ v, v < (shir_centers wide3 F0_none).length ∧
      (shir_centers wide3 F0_none).getD v 0 = 0 ∧
      Op.setUB (Var.aux (Row.f v) ((hash_edges wide3).index (wide3.nr_nodes * 65536 + 0))) 0
        ∈ build_shir wide3 F0_none) ∧
    (hash_edges wide3).index (wide3.nr_nodes * 65536 + 0)
      = (hash_edges wide3).index (wide3.nr_nodes * 0 + 65536) ∧
    out2.DupFree ∧ out2.Symm ∧
    (∀ i, i < out2.nr_nodes → ∀ j, j < out2.nr_nodes → (j ∈ out2.nb i ↔ i ∈ out2.nb j)) ∧
    1 ∈ out2.nb 0 ∧ 2 ∈ out2.nb 0 ∧
    (shir_centers out2 F0_none).getD 0 0 = 0 ∧
    Op.setUB (Var.aux (Row.f 0) ((hash_edges out2).index (out2.nr_nodes * 1 + 0))) 0
      ∈ build_shir out2 F0_none ∧
    (hash_edges out2).index (out2.nr_nodes * 1 + 0)
      = (hash_edges out2).index (out2.nr_nodes * 0 + 2) := by
  refine ⟨wide3_simple.dupFree, wide3_simple.symm, by decide, ?_, ?_,
    by unfold graph.DupFree; decide, by unfold graph.Symm; decide, by decide, by decide,
    by decide, by decide, by decide, by decide⟩
  · have hc0 : 0 ∈ shir_centers wide3 F0_none := mem_shir_centers.mpr ⟨by decide, rfl⟩
    obtain ⟨v, hv, hv0⟩ := shir_centers_index hc0
    refine ⟨v, hv, hv0, (mem_build_shir_setUB wide3 F0_none _ _).mpr
      ⟨v, hv, 65536, ?_, ?_, rfl⟩⟩
    · rw [hv0]; decide
    · rw [hv0]
  · rw [index_comm, index_comm, index_wide3.1, index_wide3.2.2.1]

/-- C15 refuted as stated. The path `0 - 65536 - 1` on 65537 nodes is a symmetric simple graph
with 4 adjacency entries, but `hash_edges.size()` is 3, so `build_mcf1` creates `65537 * 3`
flow variables, not `65537 * 4`, and `build_shir` creates 3 per center. -/
theorem multi_commodity_var_counts_counterexample :
    wide3.Simple ∧
    ((List.range wide3.nr_nodes).map (fun i => (wide3.nb i).length)).sum = 4 ∧
    var_count (build_mcf1 wide3) = wide3.nr_nodes * 3 ∧
    var_count (build_mcf1 wide3)
      ≠ wide3.nr_nodes * ((List.range wide3.nr_nodes).map (fun i => (wide3.nb i).length)).sum ∧
    var_count (build_shir wide3 F0_none) = (shir_centers wide3 F0_none).length * 3 := by
  refine ⟨wide3_simple, entries_wide3, ?_, ?_, ?_⟩
  · rw [var_count_mcf1, index_wide3.2.2.2.2]
  · rw [var_count_mcf1, index_wide3.2.2.2.2, entries_wide3]
    decide
  · rw [var_count_shir, index_wide3.2.2.2.2]

/-- C17 refuted as stated. On the path `0 - 65536 - 1` with 65537 nodes (duplicate-free, entries
in `0..n-1`) the arc `(65536, 0)` has the index 0, while 2 adjacency entries precede it.  On
`out2`, duplicate-free with an entry that is not a node, the arc `(1, 0)` has the index 1,
while 2 adjacency entries precede it. -/
theorem arc_index_order_counterexample :
    wide3.InRange ∧ wide3.DupFree ∧ 0 ∈ wide3.nb 65536 ∧
    (hash_edges wide3).index (65536 * wide3.nr_nodes + 0) = 0 ∧
    ((List.range 65536).map (fun k => (wide3.nb k).length)).sum
      + (wide3.nb 65536).indexOf 0 = 2 ∧
    out2.DupFree ∧ 0 ∈ out2.nb 1 ∧
    (hash_edges out2).index (1 * out2.nr_nodes + 0) = 1 ∧
    ((List.range 1).map (fun k => (out2.nb k).length)).sum + (out2.nb 1).indexOf 0 = 2 := by
  refine ⟨wide3_simple.inRange, wide3_simple.dupFree, by decide, index_wide3.2.2.1, ?_,
    by unfold graph.DupFree; decide, by decide, by decide, by decide⟩
  rw [entries_before_wide3]
  decide

theorem int_repr_lt_pow (k : Nat) : int_repr k < 2 ^ 32 :=
  Nat.mod_lt _ (by norm_num)

theorem key_int_eq_wrap (i n j : Nat) :
    key_int i n j = wrap_int ((int_repr (i * n + j) : Nat) : Int) := by
  unfold key_int wrap_int int_repr
  have h : ((i * n + j : Nat) : Int) = (i : Int) * (n : Int) + (j : Int) := by push_cast; rfl
  have h2 : (((i * n + j) % 2 ^ 32 : Nat) : Int) = ((i : Int) * (n : Int) + (j : Int)) % 2 ^ 32 := by
    rw [← h]; norm_cast
  rw [h2]
  generalize (i : Int) * (n : Int) = P
  omega

theorem wrap_int_inj {a b : Nat} (ha : a < 2 ^ 32) (hb : b < 2 ^ 32)
    (h : wrap_int (a : Int) = wrap_int (b : Int)) : a = b := by
  unfold wrap_int at h
  omega

/-- Two key expressions give the same `int` exactly when their exact values have the same 32-bit
representation: a table keyed by the `int` is a table keyed by the representation. -/
theorem key_int_eq_iff (i n j i2 n2 j2 : Nat) :
    key_int i n j = key_int i2 n2 j2 ↔ int_repr (i * n + j) = int_repr (i2 * n2 + j2) := by
  rw [key_int_eq_wrap, key_int_eq_wrap]
  constructor
  · intro h
    exact wrap_int_inj (int_repr_lt_pow _) (int_repr_lt_pow _) h
  · intro h
    rw [h]

end Districting
